import Mathlib

/-!
# Day 23, part 2: best-first octree search over nanobot ranges

A shallow embedding of `day23/part2.go` and a verification development over it.

Modelling notes.
* Go `int` is the 64-bit two's-complement integer.  Values are carried as
  `Int`; every sum, difference and negation of `abs`, `manhattan` and
  `inRangeOfRegion` is wrapped to 64 bits by `wrap64`, as the Go operations are.
  The Go quotient `/` truncates toward zero and is modelled by `Int.tdiv`.
* The sums `Min + Max` of the split and the counters `count++` are taken
  exactly: every region that the search splits lies in the 32-bit box of the
  initial region, where the 64-bit sum cannot wrap (`queued_split_exact`), and
  a counter is bounded by the number of nanobots.
* The exact distance `exactManhattan` and the counts built on it (`coverage`) are
  specification vocabulary; `NoWrap` and `Nanobot.InReach` say that no distance
  from a nanobot to a point of a box wraps around.
* A `*Region` is modelled by the `Region` value it points to: no region is
  mutated after it has been created.
* `PriorityQueue` (a Go slice of regions) is a `List Region`; slice indices
  are natural numbers.
* `heap.Init`, `heap.Push`, `heap.Pop`, `up` and `down` are the functions of
  the Go standard library package `container/heap`, transcribed over
  `PriorityQueue`.  Their loops carry a fuel argument that bounds the number of
  iterations; the callers pass the length of the queue, which is never
  exhausted (`up` strictly decreases its index, `down` strictly increases it).
* The loop of `findBestPoint` is a step function `loopBody` on the pair
  (queue, best); `findBestPoint` runs it with fuel and answers `none` when the
  fuel runs out before the loop has exited.
* For the overflow analysis `splitCoordinate64` repeats the split with the sum
  wrapped to 64 bits; it is shown to agree with the exact one on the regions of
  the search.
-/

namespace Day23

/-! ## Data model -/

/-- Go: `type Nanobot struct { X, Y, Z, R int }`. -/
structure Nanobot where
  X : Int
  Y : Int
  Z : Int
  R : Int
deriving DecidableEq

/-- Go: `type Point struct { X, Y, Z int }`. -/
structure Point where
  X : Int
  Y : Int
  Z : Int
deriving DecidableEq, Inhabited

/-- Go: `type Region struct { Min, Max Point; Count int }`. -/
structure Region where
  Min : Point
  Max : Point
  Count : Int
deriving DecidableEq, Inhabited

/-- Go: `type PriorityQueue []*Region`. -/
abbrev PriorityQueue := List Region

/-- The zero value `Point{}`. -/
def origin : Point := ⟨0, 0, 0⟩

/-! ## Geometry -/

/-- The value lies in the range of a signed 64-bit integer. -/
def InInt64 (x : Int) : Prop :=
  -9223372036854775808 ≤ x ∧ x ≤ 9223372036854775807

/-- Two's-complement wrap-around of an exact result to 64 bits: what a Go
`int` operation keeps of its exact result. -/
def wrap64 (x : Int) : Int :=
  (x + 9223372036854775808) % 18446744073709551616 - 9223372036854775808

/-- Go: `func abs(x int) int`; the negation wraps. -/
def abs (x : Int) : Int :=
  if x < 0 then wrap64 (-x) else x

/-- Go: `func manhattan(a, b Point) int`; each difference and each sum wraps. -/
def manhattan (a b : Point) : Int :=
  wrap64 (wrap64 (abs (wrap64 (a.X - b.X)) + abs (wrap64 (a.Y - b.Y))) +
    abs (wrap64 (a.Z - b.Z)))

/-- Go: `func clamp(value, min, max int) int`. -/
def clamp (value min max : Int) : Int :=
  if value < min then min
  else if value > max then max
  else value

/-- Go: `func inRangeOfRegion(nanobot Nanobot, region Region) bool`. -/
def inRangeOfRegion (nanobot : Nanobot) (region : Region) : Bool :=
  let closestPoint : Point :=
    ⟨clamp nanobot.X region.Min.X region.Max.X,
     clamp nanobot.Y region.Min.Y region.Max.Y,
     clamp nanobot.Z region.Min.Z region.Max.Z⟩
  decide (manhattan ⟨nanobot.X, nanobot.Y, nanobot.Z⟩ closestPoint ≤ nanobot.R)

/-! ## The priority queue -/

/-- The comparison that `PriorityQueue.Less` performs on the two regions it
has looked up. -/
def lessRegion (a b : Region) : Bool :=
  if a.Count = b.Count then
    decide (manhattan a.Min origin < manhattan b.Min origin)
  else
    decide (a.Count > b.Count)

/-- Go: `func (pq PriorityQueue) Len() int`. -/
def PriorityQueue.Len (pq : PriorityQueue) : Nat :=
  pq.length

/-- Go: `func (pq PriorityQueue) Less(i, j int) bool`. -/
def PriorityQueue.Less (pq : PriorityQueue) (i j : Nat) : Bool :=
  lessRegion (pq.getD i default) (pq.getD j default)

/-- Go: `func (pq PriorityQueue) Swap(i, j int)`, the parallel assignment
`pq[i], pq[j] = pq[j], pq[i]`. -/
def PriorityQueue.Swap (pq : PriorityQueue) (i j : Nat) : PriorityQueue :=
  (pq.set i (pq.getD j default)).set j (pq.getD i default)

/-- Go: `func (pq *PriorityQueue) Push(x interface{})`. -/
def PriorityQueue.Push (pq : PriorityQueue) (x : Region) : PriorityQueue :=
  pq ++ [x]

/-- Go: `func (pq *PriorityQueue) Pop() interface{}`: the last entry and the
queue without it. -/
def PriorityQueue.Pop (pq : PriorityQueue) : Region × PriorityQueue :=
  (pq.getD (pq.length - 1) default, pq.take (pq.length - 1))

/-! ## `container/heap` -/

/-- Go: `func up(h Interface, j int)` of `container/heap`.  For `j = 0` the Go
parent index `(j - 1) / 2` is `0` (the quotient truncates), as it is here. -/
def heap.up : Nat → PriorityQueue → Nat → PriorityQueue
  | 0, pq, _ => pq
  | fuel + 1, pq, j =>
    let i := (j - 1) / 2
    if i = j ∨ PriorityQueue.Less pq j i = false then pq
    else heap.up fuel (PriorityQueue.Swap pq i j) i

/-- Go: `func down(h Interface, i0, n int) bool` of `container/heap`; the
boolean result is not used by `heap.Pop` and is left out. -/
def heap.down : Nat → PriorityQueue → Nat → Nat → PriorityQueue
  | 0, pq, _, _ => pq
  | fuel + 1, pq, i, n =>
    let j1 := 2 * i + 1
    if j1 ≥ n then pq
    else
      let j2 := j1 + 1
      let j := if j2 < n ∧ PriorityQueue.Less pq j2 j1 = true then j2 else j1
      if PriorityQueue.Less pq j i = false then pq
      else heap.down fuel (PriorityQueue.Swap pq i j) j n

/-- Go: `func Push(h Interface, x any)` of `container/heap`. -/
def heap.Push (pq : PriorityQueue) (x : Region) : PriorityQueue :=
  heap.up (pq.length + 1) (PriorityQueue.Push pq x) ((PriorityQueue.Push pq x).Len - 1)

/-- Go: `func Pop(h Interface) any` of `container/heap`.  On an empty queue the
Go code panics (index out of range); that is `none` here. -/
def heap.Pop (pq : PriorityQueue) : Option (Region × PriorityQueue) :=
  if pq.Len = 0 then none
  else
    let n := pq.Len - 1
    some (PriorityQueue.Pop (heap.down pq.length (PriorityQueue.Swap pq 0 n) 0 n))

/-! ## The search -/

/-- Go: `math.MinInt32`. -/
def MinInt32 : Int := -2147483648

/-- Go: `math.MaxInt32`. -/
def MaxInt32 : Int := 2147483647

/-- Go: `initialRegion` in `findBestPoint`. -/
def initialRegion (nanobots : List Nanobot) : Region :=
  { Min := ⟨MinInt32, MinInt32, MinInt32⟩
    Max := ⟨MaxInt32, MaxInt32, MaxInt32⟩
    Count := nanobots.length }

/-- Go: the slice `subregions` built in `findBestPoint` (lines 112-125); the
composite literals leave `Count` at its zero value. -/
def subregions (region : Region) : List Region :=
  let midX := Int.tdiv (region.Min.X + region.Max.X) 2
  let midY := Int.tdiv (region.Min.Y + region.Max.Y) 2
  let midZ := Int.tdiv (region.Min.Z + region.Max.Z) 2
  [ ⟨region.Min, ⟨midX, midY, midZ⟩, 0⟩,
    ⟨⟨midX, region.Min.Y, region.Min.Z⟩, ⟨region.Max.X, midY, midZ⟩, 0⟩,
    ⟨⟨region.Min.X, midY, region.Min.Z⟩, ⟨midX, region.Max.Y, midZ⟩, 0⟩,
    ⟨⟨midX, midY, region.Min.Z⟩, ⟨region.Max.X, region.Max.Y, midZ⟩, 0⟩,
    ⟨⟨region.Min.X, region.Min.Y, midZ⟩, ⟨midX, midY, region.Max.Z⟩, 0⟩,
    ⟨⟨midX, region.Min.Y, midZ⟩, ⟨region.Max.X, midY, region.Max.Z⟩, 0⟩,
    ⟨⟨region.Min.X, midY, midZ⟩, ⟨midX, region.Max.Y, region.Max.Z⟩, 0⟩,
    ⟨⟨midX, midY, midZ⟩, region.Max, 0⟩ ]

/-- Go: the inner loop of lines 129-134, `count` after it has run over all
the nanobots. -/
def countInRange (nanobots : List Nanobot) (subregion : Region) : Int :=
  nanobots.foldl
    (fun count nanobot => if inRangeOfRegion nanobot subregion then count + 1 else count) 0

/-- Go: the loop of lines 128-138 over `subregions`, threading the queue. -/
def pushSubregions (nanobots : List Nanobot) (pq : PriorityQueue)
    (subs : List Region) : PriorityQueue :=
  subs.foldl
    (fun pq subregion =>
      let count := countInRange nanobots subregion
      if count > 0 then heap.Push pq ⟨subregion.Min, subregion.Max, count⟩ else pq)
    pq

/-- The variables of the loop of `findBestPoint`. -/
structure State where
  pq : PriorityQueue
  best : Option Region
deriving DecidableEq

/-- The state in which the loop of `findBestPoint` is entered: the queue holds
the initial region (`heap.Init` on the empty queue does nothing) and `best` is
`nil`. -/
def initState (nanobots : List Nanobot) : State :=
  ⟨heap.Push [] (initialRegion nanobots), none⟩

/-- Go: `best != nil && region.Count < best.Count` (line 99). -/
def breakTest (best : Option Region) (region : Region) : Bool :=
  match best with
  | none => false
  | some b => decide (region.Count < b.Count)

/-- Go: `best == nil || region.Count > best.Count` (line 105). -/
def updateTest (best : Option Region) (region : Region) : Bool :=
  match best with
  | none => true
  | some b => decide (region.Count > b.Count)

/-- One pass through `for pq.Len() > 0 { ... }` (lines 97-139).  `none` means
that the loop is left, by the loop condition or by `break`; `findBestPoint`
then returns the current `best`. -/
def loopBody (nanobots : List Nanobot) (s : State) : Option State :=
  match heap.Pop s.pq with
  | none => none
  | some (region, pq) =>
    if breakTest s.best region then none
    else if region.Min = region.Max then
      some ⟨pq, if updateTest s.best region then some region else s.best⟩
    else
      some ⟨pushSubregions nanobots pq (subregions region), s.best⟩

/-- The loop with fuel: `some best` when the loop is left within `fuel`
condition checks, `none` when it is still running. -/
def runLoop (nanobots : List Nanobot) : Nat → State → Option (Option Region)
  | 0, _ => none
  | fuel + 1, s =>
    match loopBody nanobots s with
    | none => some s.best
    | some s' => runLoop nanobots fuel s'

/-- Go: `func findBestPoint(nanobots []Nanobot) *Region`, with fuel. -/
def findBestPoint (nanobots : List Nanobot) (fuel : Nat) : Option (Option Region) :=
  runLoop nanobots fuel (initState nanobots)

/-- The state at the head of the loop after `n` passes, `none` if the loop has
been left before. -/
def stateAfter (nanobots : List Nanobot) : Nat → Option State
  | 0 => some (initState nanobots)
  | n + 1 => (stateAfter nanobots n).bind (loopBody nanobots)

/-- The states at the head of the loop of `findBestPoint`. -/
inductive Reachable (nanobots : List Nanobot) : State → Prop
  | init : Reachable nanobots (initState nanobots)
  | step {s s' : State} : Reachable nanobots s → loopBody nanobots s = some s' →
      Reachable nanobots s'

/-! ## Specification vocabulary -/

/-- The centre `Point{nanobot.X, nanobot.Y, nanobot.Z}` of a nanobot. -/
def Nanobot.centre (nanobot : Nanobot) : Point :=
  ⟨nanobot.X, nanobot.Y, nanobot.Z⟩

/-- The point that `inRangeOfRegion` calls `closestPoint`. -/
def closestPoint (nanobot : Nanobot) (region : Region) : Point :=
  ⟨clamp nanobot.X region.Min.X region.Max.X,
   clamp nanobot.Y region.Min.Y region.Max.Y,
   clamp nanobot.Z region.Min.Z region.Max.Z⟩

/-- The point `p` lies in the box of `r`: `r.Min <= p <= r.Max` on each axis. -/
def Region.Contains (r : Region) (p : Point) : Prop :=
  (r.Min.X ≤ p.X ∧ p.X ≤ r.Max.X) ∧ (r.Min.Y ≤ p.Y ∧ p.Y ≤ r.Max.Y) ∧
    (r.Min.Z ≤ p.Z ∧ p.Z ≤ r.Max.Z)

/-- The region invariant `Min <= Max` on each axis. -/
def Region.WellFormed (r : Region) : Prop :=
  r.Min.X ≤ r.Max.X ∧ r.Min.Y ≤ r.Max.Y ∧ r.Min.Z ≤ r.Max.Z

/-- The absolute value of an integer, without wrap-around. -/
def exactAbs (x : Int) : Int :=
  if x < 0 then -x else x

/-- The Manhattan distance of two points, without wrap-around. -/
def exactManhattan (a b : Point) : Int :=
  exactAbs (a.X - b.X) + exactAbs (a.Y - b.Y) + exactAbs (a.Z - b.Z)

/-- The test of `inRangeOfRegion` with the exact distance. -/
def exactInRangeOfRegion (nanobot : Nanobot) (region : Region) : Bool :=
  decide (exactManhattan nanobot.centre (closestPoint nanobot region) ≤ nanobot.R)

/-- The point `p` is in range of the nanobot: its exact distance to the centre
is at most the radius. -/
def inRangeOfPoint (nanobot : Nanobot) (p : Point) : Bool :=
  decide (exactManhattan nanobot.centre p ≤ nanobot.R)

/-- The number of nanobots that have the point `p` in range. -/
def coverage (nanobots : List Nanobot) (p : Point) : Nat :=
  nanobots.countP (fun n => inRangeOfPoint n p)

/-- The exact distance from the centre of the nanobot to the farthest point of
the box. -/
def farthest (n : Nanobot) (r : Region) : Int :=
  max (exactAbs (n.X - r.Min.X)) (exactAbs (n.X - r.Max.X)) +
    max (exactAbs (n.Y - r.Min.Y)) (exactAbs (n.Y - r.Max.Y)) +
    max (exactAbs (n.Z - r.Min.Z)) (exactAbs (n.Z - r.Max.Z))

/-- No distance from the centre of the nanobot to a point of the box exceeds
`MaxInt64`: computing it does not wrap around. -/
@[reducible]
def NoWrap (n : Nanobot) (r : Region) : Prop :=
  farthest n r ≤ 9223372036854775807

/-- The number of nanobots for which `inRangeOfRegion` holds of the region. -/
def boundCount (nanobots : List Nanobot) (r : Region) : Nat :=
  nanobots.countP (fun n => inRangeOfRegion n r)

/-- The box of `initialRegion`, which does not depend on the nanobots. -/
def searchSpace : Region :=
  initialRegion []

/-- The nanobot is within reach of the initial box: no distance from its centre
to a point of the box wraps around. -/
@[reducible]
def Nanobot.InReach (n : Nanobot) : Prop :=
  NoWrap n searchSpace

/-- The invariant of `container/heap`: no entry is `Less` than its parent,
the entry at index `(j - 1) / 2`. -/
def IsHeap (pq : PriorityQueue) : Prop :=
  ∀ j, 0 < j → j < pq.length →
    lessRegion (pq.getD j default) (pq.getD ((j - 1) / 2) default) = false

/-- The auxiliary invariant of `up`: the queue is a heap except possibly
between `j` and its parent, and the children of `j` respect the parent of `j`. -/
def HeapExcept (l : PriorityQueue) (j : Nat) : Prop :=
  (∀ k, 0 < k → k < l.length → k ≠ j →
    lessRegion (l.getD k default) (l.getD ((k - 1) / 2) default) = false) ∧
  (∀ k, 0 < k → k < l.length → (k - 1) / 2 = j → 0 < j →
    lessRegion (l.getD k default) (l.getD ((j - 1) / 2) default) = false)

/-- The auxiliary invariant of `down`: the first `n` entries form a heap except
possibly between `i` and its children, and the children of `i` respect the
parent of `i`. -/
def HeapBelow (l : PriorityQueue) (n i : Nat) : Prop :=
  (∀ k, 0 < k → k < n → (k - 1) / 2 ≠ i →
    lessRegion (l.getD k default) (l.getD ((k - 1) / 2) default) = false) ∧
  (∀ k, 0 < k → k < n → (k - 1) / 2 = i → 0 < i →
    lessRegion (l.getD k default) (l.getD ((i - 1) / 2) default) = false)

/-- The first `n` entries form a heap. -/
def IsHeapUpTo (l : PriorityQueue) (n : Nat) : Prop :=
  ∀ k, 0 < k → k < n →
    lessRegion (l.getD k default) (l.getD ((k - 1) / 2) default) = false

/-- On each axis the box lies on one side of the origin plane. -/
def Region.OneSided (r : Region) : Prop :=
  (r.Max.X ≤ 0 ∨ 0 ≤ r.Min.X) ∧ (r.Max.Y ≤ 0 ∨ 0 ≤ r.Min.Y) ∧ (r.Max.Z ≤ 0 ∨ 0 ≤ r.Min.Z)

/-- The part of the invariant of the loop of `findBestPoint` that holds for
every list of nanobots. -/
structure Inv0 (nanobots : List Nanobot) (s : State) : Prop where
  /-- The queue is a heap. -/
  heap : IsHeap s.pq
  /-- Every queued region is a well-formed box inside the initial box. -/
  boxes : ∀ r ∈ s.pq, r.WellFormed ∧ ∀ p, r.Contains p → searchSpace.Contains p
  /-- Every queued region but the initial one carries its computed, positive count. -/
  counts : ∀ r ∈ s.pq,
    r = initialRegion nanobots ∨ (r.Count = boundCount nanobots r ∧ 0 < r.Count)
  /-- After the first pass every queued box is one-sided. -/
  sides : s.pq = [initialRegion nanobots] ∨ ∀ r ∈ s.pq, r.OneSided
  /-- The best region is a single point of the initial box with its computed count. -/
  bestPoint : ∀ b, s.best = some b →
    b.Min = b.Max ∧ searchSpace.Contains b.Min ∧ b.Count = boundCount nanobots b ∧
      0 < b.Count

/-- The invariant of the loop of `findBestPoint` for nanobots within reach of
the initial box. -/
structure Inv (nanobots : List Nanobot) (s : State) extends Inv0 nanobots s : Prop where
  /-- Every covered point lies in a queued region that is not a single point;
  for a point with non-negative coordinates that region, unless it is the
  initial one, has a non-negative `Min` corner. -/
  frontier : ∀ q, searchSpace.Contains q → 0 < coverage nanobots q →
    ∃ Q ∈ s.pq, Q.Min ≠ Q.Max ∧ Q.Contains q ∧ (coverage nanobots q : Int) ≤ Q.Count ∧
      (0 ≤ q.X → 0 ≤ q.Y → 0 ≤ q.Z → Q ≠ initialRegion nanobots →
        0 ≤ Q.Min.X ∧ 0 ≤ Q.Min.Y ∧ 0 ≤ Q.Min.Z)
  /-- The best region is a single point of the initial box with its exact count. -/
  bestExact : ∀ b, s.best = some b →
    b.Min = b.Max ∧ searchSpace.Contains b.Min ∧ b.Count = coverage nanobots b.Min ∧
      0 < b.Count
  /-- No point of the initial box is covered more often than the best point. -/
  bestMax : ∀ b, s.best = some b →
    ∀ q, searchSpace.Contains q → (coverage nanobots q : Int) ≤ b.Count
  /-- No equally covered point with non-negative coordinates is nearer the origin. -/
  bestNear : ∀ b, s.best = some b →
    ∀ q, searchSpace.Contains q → 0 ≤ q.X → 0 ≤ q.Y → 0 ≤ q.Z →
      (coverage nanobots q : Int) = b.Count → manhattan b.Min origin ≤ manhattan q origin

/-- The state at the head of the loop after `n` passes; the empty state if the
loop has been left before. -/
def stateAt (nanobots : List Nanobot) (n : Nat) : State :=
  (stateAfter nanobots n).getD ⟨[], none⟩

/-! ## Further vocabulary -/

/-- The queues that `heap.Push` and `heap.Pop` build from the empty queue. -/
inductive Built : PriorityQueue → Prop
  | empty : Built []
  | push {pq : PriorityQueue} (x : Region) : Built pq → Built (heap.Push pq x)
  | pop {pq rest : PriorityQueue} {r : Region} : Built pq → heap.Pop pq = some (r, rest) →
      Built rest

/-- Go: the split coordinate `(region.Min.X + region.Max.X) / 2` of lines
112-114, for one axis. -/
def splitCoordinate (lo hi : Int) : Int :=
  Int.tdiv (lo + hi) 2

/-- The box has extent at most 1 on every axis. -/
def Region.Small (r : Region) : Prop :=
  r.Max.X - r.Min.X ≤ 1 ∧ r.Max.Y - r.Min.Y ≤ 1 ∧ r.Max.Z - r.Min.Z ≤ 1

/-- The queue holds a region that is not a single point, has extent at most 1
on every axis, contains the point `p` and has a count of at least `c`. -/
def HasSmallCover (pq : PriorityQueue) (p : Point) (c : Int) : Prop :=
  ∃ P ∈ pq, P.Small ∧ P.Min ≠ P.Max ∧ P.Contains p ∧ c ≤ P.Count

/-- The second invariant of the loop of `findBestPoint`: every single point in
the queue, and the point of `best`, lies in a queued region that is not a single
point and has extent at most 1 on every axis. -/
structure SmallInv (s : State) : Prop where
  /-- Single points in the queue are covered. -/
  points : ∀ p ∈ s.pq, p.Min = p.Max → HasSmallCover s.pq p.Min p.Count
  /-- The best point is covered. -/
  best : ∀ b, s.best = some b → HasSmallCover s.pq b.Min b.Count

/-- The value lies in the range of a signed 32-bit integer. -/
def InInt32 (x : Int) : Prop :=
  -2147483648 ≤ x ∧ x ≤ 2147483647

/-- Go: the split coordinate with 64-bit wrap-around arithmetic. -/
def splitCoordinate64 (lo hi : Int) : Int :=
  Int.tdiv (wrap64 (lo + hi)) 2

/-- The number of nanobots whose test `manhattan(centre, p) <= R`, computed as
the code computes it, succeeds at the point `p`. -/
def testCount (nanobots : List Nanobot) (p : Point) : Nat :=
  nanobots.countP (fun n => decide (manhattan ⟨n.X, n.Y, n.Z⟩ p ≤ n.R))

/-! ## Inputs on which a distance wraps around -/

/-- A coordinate `a` with `3 * a = 2^63 + 1`: the distance from `(a,a,a)` to
the origin is one more than `2^63`. -/
def farCoordinate : Int := 3074457345618258603

/-- The nanobot of radius 0 at `(a,a,a)` and one of radius 0 at `(5,0,-4)`. -/
def farAndNear : List Nanobot :=
  [⟨farCoordinate, farCoordinate, farCoordinate, 0⟩, ⟨5, 0, -4, 0⟩]

/-- Two nanobots of radius 0 at `(a,a,a-1)` and `(-a,-a,-(a-1))`, each at
distance `2^63` from the origin. -/
def farPair : List Nanobot :=
  [⟨farCoordinate, farCoordinate, farCoordinate - 1, 0⟩,
   ⟨-farCoordinate, -farCoordinate, -(farCoordinate - 1), 0⟩]

/-- What `heap.Pop` gives at the head of the loop after `n` passes: the popped
region and the rest of the queue. -/
def poppedAt (nanobots : List Nanobot) (n : Nat) : Region × PriorityQueue :=
  (heap.Pop (stateAt nanobots n).pq).getD (default, [])

/-- The queue of the run on `farPair` while it descends to the origin: `best` is
unset, the box `(0,0,0)-(c,c,c)` with `Count = 1` is in the queue once, and every
other entry has `Count = 1` and a `Min` corner away from the origin. -/
def ChainState (c : Int) (s : State) : Prop :=
  s.best = none ∧ s.pq.count ⟨⟨0, 0, 0⟩, ⟨c, c, c⟩, 1⟩ = 1 ∧
  ∀ q ∈ s.pq, q = ⟨⟨0, 0, 0⟩, ⟨c, c, c⟩, 1⟩ ∨ (q.Count = 1 ∧ 0 < manhattan q.Min origin)

/-- The state `n` passes after the state `s`, `none` if the loop is left
before. -/
def stateFrom (nanobots : List Nanobot) (s : State) : Nat → Option State
  | 0 => some s
  | n + 1 => (stateFrom nanobots s n).bind (loopBody nanobots)

/-- The nanobots `(-2,0,0)` of radius 1, `(-4,-2,1)` of radius 0 and `(8,0,0)`
of radius 0. -/
def threeNanobots : List Nanobot :=
  [⟨-2, 0, 0, 1⟩, ⟨-4, -2, 1, 0⟩, ⟨8, 0, 0, 0⟩]

/-- The queue of the run on `threeNanobots` after 21 passes. -/
def threeNanobotsQueue21 : PriorityQueue :=
  [ ⟨⟨-2048, -2048, 0⟩, ⟨0, 0, 2047⟩, 2⟩,
    ⟨⟨0, 0, 0⟩, ⟨2147483647, 2147483647, 2147483647⟩, 1⟩,
    ⟨⟨0, -2147483648, 0⟩, ⟨2147483647, 0, 2147483647⟩, 1⟩,
    ⟨⟨0, 0, -2147483648⟩, ⟨2147483647, 2147483647, 0⟩, 1⟩,
    ⟨⟨0, -2147483648, -2147483648⟩, ⟨2147483647, 0, 0⟩, 1⟩,
    ⟨⟨-2147483648, 0, -2147483648⟩, ⟨0, 2147483647, 0⟩, 1⟩,
    ⟨⟨-2147483648, 0, 0⟩, ⟨0, 2147483647, 2147483647⟩, 1⟩,
    ⟨⟨-2147483648, -2147483648, -2147483648⟩, ⟨0, 0, 0⟩, 1⟩ ]

/-- The queue of the run on `threeNanobots` after 42 passes. -/
def threeNanobotsQueue42 : PriorityQueue :=
  [ ⟨⟨0, 0, 0⟩, ⟨4194303, 4194303, 4194303⟩, 1⟩,
    ⟨⟨-3, -1, 0⟩, ⟨-2, 0, 0⟩, 1⟩,
    ⟨⟨-2, -2, 1⟩, ⟨0, 0, 3⟩, 1⟩,
    ⟨⟨-3, -2, 0⟩, ⟨-2, -1, 1⟩, 1⟩,
    ⟨⟨-2, -2, 0⟩, ⟨0, 0, 1⟩, 1⟩,
    ⟨⟨-4, -4, 1⟩, ⟨-2, -2, 3⟩, 1⟩,
    ⟨⟨-3, -2, 0⟩, ⟨-2, -1, 0⟩, 1⟩,
    ⟨⟨-4, -2, 0⟩, ⟨-3, -1, 1⟩, 1⟩,
    ⟨⟨-4, -1, 0⟩, ⟨-3, 0, 1⟩, 1⟩,
    ⟨⟨-3, -1, 0⟩, ⟨-2, 0, 1⟩, 1⟩,
    ⟨⟨-4, -4, 0⟩, ⟨-2, -2, 1⟩, 1⟩,
    ⟨⟨-2147483648, 0, -2147483648⟩, ⟨0, 2147483647, 0⟩, 1⟩,
    ⟨⟨0, -2147483648, 0⟩, ⟨2147483647, 0, 2147483647⟩, 1⟩,
    ⟨⟨-2147483648, 0, 0⟩, ⟨0, 2147483647, 2147483647⟩, 1⟩,
    ⟨⟨-4, -1, 0⟩, ⟨-3, 0, 0⟩, 1⟩,
    ⟨⟨-2147483648, -2147483648, -2147483648⟩, ⟨0, 0, 0⟩, 1⟩,
    ⟨⟨-8, -4, 0⟩, ⟨-4, 0, 3⟩, 1⟩,
    ⟨⟨0, 0, -2147483648⟩, ⟨2147483647, 2147483647, 0⟩, 1⟩,
    ⟨⟨0, -2147483648, -2147483648⟩, ⟨2147483647, 0, 0⟩, 1⟩,
    ⟨⟨-4, -2, 1⟩, ⟨-3, -1, 2⟩, 1⟩,
    ⟨⟨-3, -1, 1⟩, ⟨-2, 0, 2⟩, 1⟩ ]

/-! # Verification -/

set_option maxRecDepth 100000

/-! ## Wrap-around arithmetic -/

theorem wrap64_eq (x : Int) (h : InInt64 x) : wrap64 x = x := by
  unfold wrap64
  unfold InInt64 at h
  omega

theorem exactAbs_ge_zero (x : Int) : 0 ≤ exactAbs x := by
  unfold exactAbs; split_ifs <;> omega

theorem exactManhattan_ge_zero (a b : Point) : 0 ≤ exactManhattan a b := by
  have h1 := exactAbs_ge_zero (a.X - b.X)
  have h2 := exactAbs_ge_zero (a.Y - b.Y)
  have h3 := exactAbs_ge_zero (a.Z - b.Z)
  unfold exactManhattan; omega

theorem abs_eq_exact (x : Int) (h : exactAbs x ≤ 9223372036854775807) :
    abs (wrap64 x) = exactAbs x := by
  have hx : InInt64 x := by
    unfold exactAbs at h; unfold InInt64; split_ifs at h <;> omega
  have hn : InInt64 (-x) := by
    unfold exactAbs at h; unfold InInt64; split_ifs at h <;> omega
  rw [wrap64_eq x hx]
  unfold abs exactAbs
  rw [wrap64_eq _ hn]

/-- A distance that fits in 64 bits is computed without wrap-around. -/
theorem manhattan_eq_exact (a b : Point) (h : exactManhattan a b ≤ 9223372036854775807) :
    manhattan a b = exactManhattan a b := by
  have h1 := exactAbs_ge_zero (a.X - b.X)
  have h2 := exactAbs_ge_zero (a.Y - b.Y)
  have h3 := exactAbs_ge_zero (a.Z - b.Z)
  unfold exactManhattan at h
  unfold manhattan exactManhattan
  rw [abs_eq_exact _ (by omega), abs_eq_exact _ (by omega), abs_eq_exact _ (by omega),
    wrap64_eq (exactAbs (a.X - b.X) + exactAbs (a.Y - b.Y)) (by unfold InInt64; omega),
    wrap64_eq _ (by unfold InInt64; omega)]

/-! ## Geometry lemmas -/

theorem clamp_bounds (v lo hi : Int) (h : lo ≤ hi) :
    lo ≤ clamp v lo hi ∧ clamp v lo hi ≤ hi := by
  unfold clamp; split_ifs <;> omega

theorem exactAbs_sub_clamp_le (v lo hi p : Int) (h1 : lo ≤ p) (h2 : p ≤ hi) :
    exactAbs (v - clamp v lo hi) ≤ exactAbs (v - p) := by
  unfold exactAbs clamp; split_ifs <;> omega

theorem clamp_point (v p : Int) : clamp v p p = p := by
  unfold clamp; split_ifs <;> omega

/-- Clamping into an interval that contains the clamped value of a larger
interval gives the same value. -/
theorem clamp_sub (v lo hi a b : Int) (h1 : lo ≤ a) (h2 : b ≤ hi)
    (h3 : a ≤ clamp v lo hi) (h4 : clamp v lo hi ≤ b) : clamp v a b = clamp v lo hi := by
  unfold clamp at *; split_ifs at * <;> omega

theorem exactAbs_le_far (v lo hi p : Int) (h1 : lo ≤ p) (h2 : p ≤ hi) :
    exactAbs (v - p) ≤ max (exactAbs (v - lo)) (exactAbs (v - hi)) := by
  unfold exactAbs; split_ifs <;> omega

theorem far_mono (v lo hi a b : Int) (h1 : lo ≤ a) (h2 : a ≤ b) (h3 : b ≤ hi) :
    max (exactAbs (v - a)) (exactAbs (v - b)) ≤ max (exactAbs (v - lo)) (exactAbs (v - hi)) := by
  unfold exactAbs; split_ifs <;> omega

theorem closestPoint_contains (n : Nanobot) (r : Region) (h : r.WellFormed) :
    r.Contains (closestPoint n r) := by
  obtain ⟨hx, hy, hz⟩ := h
  exact ⟨clamp_bounds _ _ _ hx, clamp_bounds _ _ _ hy, clamp_bounds _ _ _ hz⟩

theorem closestPoint_le (n : Nanobot) (r : Region) (p : Point) (h : r.Contains p) :
    exactManhattan n.centre (closestPoint n r) ≤ exactManhattan n.centre p := by
  obtain ⟨⟨hx1, hx2⟩, ⟨hy1, hy2⟩, ⟨hz1, hz2⟩⟩ := h
  have hx := exactAbs_sub_clamp_le n.X _ _ _ hx1 hx2
  have hy := exactAbs_sub_clamp_le n.Y _ _ _ hy1 hy2
  have hz := exactAbs_sub_clamp_le n.Z _ _ _ hz1 hz2
  simp only [exactManhattan, closestPoint, Nanobot.centre]
  omega

theorem wellFormed_of_contains (r : Region) (p : Point) (h : r.Contains p) : r.WellFormed := by
  obtain ⟨⟨hx1, hx2⟩, ⟨hy1, hy2⟩, ⟨hz1, hz2⟩⟩ := h
  exact ⟨by omega, by omega, by omega⟩

theorem contains_min (r : Region) (h : r.WellFormed) : r.Contains r.Min :=
  ⟨⟨le_refl _, h.1⟩, ⟨le_refl _, h.2.1⟩, ⟨le_refl _, h.2.2⟩⟩

theorem contains_max (r : Region) (h : r.WellFormed) : r.Contains r.Max :=
  ⟨⟨h.1, le_refl _⟩, ⟨h.2.1, le_refl _⟩, ⟨h.2.2, le_refl _⟩⟩

/-- No point of the box is farther from the centre than `farthest`. -/
theorem exactManhattan_le_farthest (n : Nanobot) (r : Region) (p : Point)
    (hp : r.Contains p) : exactManhattan n.centre p ≤ farthest n r := by
  obtain ⟨⟨hx1, hx2⟩, ⟨hy1, hy2⟩, ⟨hz1, hz2⟩⟩ := hp
  have hx := exactAbs_le_far n.X _ _ _ hx1 hx2
  have hy := exactAbs_le_far n.Y _ _ _ hy1 hy2
  have hz := exactAbs_le_far n.Z _ _ _ hz1 hz2
  simp only [exactManhattan, farthest, Nanobot.centre]
  omega

/-- Without wrap-around the code's distance to a point of the box is the exact
distance. -/
theorem manhattan_eq_of_noWrap (n : Nanobot) (r : Region) (p : Point) (h : NoWrap n r)
    (hp : r.Contains p) : manhattan ⟨n.X, n.Y, n.Z⟩ p = exactManhattan ⟨n.X, n.Y, n.Z⟩ p :=
  manhattan_eq_exact _ _ (le_trans (exactManhattan_le_farthest n r p hp) h)

theorem noWrap_mono (n : Nanobot) (c r : Region) (hc : c.WellFormed)
    (hsub : ∀ p, c.Contains p → r.Contains p) (h : NoWrap n r) : NoWrap n c := by
  obtain ⟨⟨a1, a2⟩, ⟨a3, a4⟩, ⟨a5, a6⟩⟩ := hsub _ (contains_min c hc)
  obtain ⟨⟨b1, b2⟩, ⟨b3, b4⟩, ⟨b5, b6⟩⟩ := hsub _ (contains_max c hc)
  have hx := far_mono n.X r.Min.X r.Max.X c.Min.X c.Max.X a1 hc.1 b2
  have hy := far_mono n.Y r.Min.Y r.Max.Y c.Min.Y c.Max.Y a3 hc.2.1 b4
  have hz := far_mono n.Z r.Min.Z r.Max.Z c.Min.Z c.Max.Z a5 hc.2.2 b6
  unfold NoWrap farthest at *
  omega

theorem inRangeOfRegion_eq (n : Nanobot) (r : Region) :
    inRangeOfRegion n r = decide (manhattan ⟨n.X, n.Y, n.Z⟩ (closestPoint n r) ≤ n.R) := rfl

/-- Without wrap-around `inRangeOfRegion` is the exact test. -/
theorem inRangeOfRegion_eq_exact (n : Nanobot) (r : Region) (hr : r.WellFormed)
    (h : NoWrap n r) : inRangeOfRegion n r = exactInRangeOfRegion n r := by
  rw [inRangeOfRegion_eq, manhattan_eq_of_noWrap n r _ h (closestPoint_contains n r hr)]
  rfl

/-- A nanobot that has a point of the region in range is in range of the region. -/
theorem inRangeOfRegion_of_point (n : Nanobot) (r : Region) (p : Point) (hn : NoWrap n r)
    (hp : r.Contains p) (h : inRangeOfPoint n p = true) : inRangeOfRegion n r = true := by
  rw [inRangeOfPoint, decide_eq_true_eq] at h
  rw [inRangeOfRegion_eq_exact n r (wellFormed_of_contains r p hp) hn, exactInRangeOfRegion,
    decide_eq_true_eq]
  exact le_trans (closestPoint_le n r p hp) h

/-- A nanobot in range of a well-formed region has a point of it in range. -/
theorem inRangeOfPoint_closestPoint (n : Nanobot) (r : Region) (hr : r.WellFormed)
    (hn : NoWrap n r) (h : inRangeOfRegion n r = true) :
    inRangeOfPoint n (closestPoint n r) = true := by
  rw [inRangeOfRegion_eq_exact n r hr hn] at h
  exact h

theorem closestPoint_point (n : Nanobot) (p : Point) (c : Int) :
    closestPoint n ⟨p, p, c⟩ = p := by
  simp only [closestPoint, clamp_point]

/-- At a single point the region test is the code's point test. -/
theorem inRangeOfRegion_point (n : Nanobot) (p : Point) (c : Int) :
    inRangeOfRegion n ⟨p, p, c⟩ = decide (manhattan ⟨n.X, n.Y, n.Z⟩ p ≤ n.R) := by
  rw [inRangeOfRegion_eq, closestPoint_point]

/-- At a single point within reach the region test is the exact point test. -/
theorem inRangeOfRegion_point_exact (n : Nanobot) (p : Point) (c : Int)
    (hn : NoWrap n ⟨p, p, c⟩) : inRangeOfRegion n ⟨p, p, c⟩ = inRangeOfPoint n p := by
  rw [inRangeOfRegion_eq_exact n _ ⟨le_refl _, le_refl _, le_refl _⟩ hn, exactInRangeOfRegion,
    closestPoint_point]
  rfl

/-- The region test is monotone in the box. -/
theorem inRangeOfRegion_mono (n : Nanobot) (c r : Region) (hc : c.WellFormed)
    (hsub : ∀ p, c.Contains p → r.Contains p) (hn : NoWrap n r)
    (h : inRangeOfRegion n c = true) : inRangeOfRegion n r = true :=
  inRangeOfRegion_of_point n r (closestPoint n c) hn (hsub _ (closestPoint_contains n c hc))
    (inRangeOfPoint_closestPoint n c hc (noWrap_mono n c r hc hsub hn) h)

/-! ## Counting -/

theorem foldl_count_eq (p : Nanobot → Bool) (l : List Nanobot) (c : Int) :
    l.foldl (fun count nanobot => if p nanobot then count + 1 else count) c =
      c + (l.countP p : Int) := by
  induction l generalizing c with
  | nil => simp
  | cons a l ih =>
    rw [List.foldl_cons, ih, List.countP_cons]
    by_cases h : p a = true
    · simp [h]; omega
    · simp [h]

/-- The count of lines 129-134 is the number of nanobots in range of the region. -/
theorem countInRange_eq_boundCount (nanobots : List Nanobot) (r : Region) :
    countInRange nanobots r = (boundCount nanobots r : Int) := by
  unfold countInRange boundCount
  rw [foldl_count_eq]; simp

theorem boundCount_congr (nanobots : List Nanobot) (r : Region) (c : Int) :
    boundCount nanobots ⟨r.Min, r.Max, c⟩ = boundCount nanobots r := rfl

theorem coverage_le_boundCount (nanobots : List Nanobot) (r : Region) (p : Point)
    (hn : ∀ n ∈ nanobots, NoWrap n r) (hp : r.Contains p) :
    coverage nanobots p ≤ boundCount nanobots r :=
  List.countP_mono_left (fun n hm h => inRangeOfRegion_of_point n r p (hn n hm) hp h)

theorem boundCount_point (nanobots : List Nanobot) (p : Point) (c : Int)
    (hn : ∀ n ∈ nanobots, NoWrap n ⟨p, p, c⟩) :
    boundCount nanobots ⟨p, p, c⟩ = coverage nanobots p := by
  unfold boundCount coverage
  apply List.countP_congr
  intro n hm
  rw [inRangeOfRegion_point_exact n p c (hn n hm)]

theorem boundCount_mono (nanobots : List Nanobot) (c r : Region) (hc : c.WellFormed)
    (hsub : ∀ p, c.Contains p → r.Contains p) (hn : ∀ n ∈ nanobots, NoWrap n r) :
    boundCount nanobots c ≤ boundCount nanobots r :=
  List.countP_mono_left (fun n hm h => inRangeOfRegion_mono n c r hc hsub (hn n hm) h)

theorem coverage_le_length (nanobots : List Nanobot) (p : Point) :
    coverage nanobots p ≤ nanobots.length :=
  List.countP_le_length _

/-! ## The split -/

theorem tdiv_two_bounds (a : Int) :
    (0 ≤ a → 2 * Int.tdiv a 2 ≤ a ∧ a ≤ 2 * Int.tdiv a 2 + 1) ∧
    (a < 0 → 2 * Int.tdiv a 2 - 1 ≤ a ∧ a ≤ 2 * Int.tdiv a 2) := by
  have h1 := Int.tdiv_add_tmod a 2
  constructor
  · intro h
    have h2 := Int.tmod_nonneg 2 h
    have h3 := Int.tmod_lt_of_pos a (show (0 : Int) < 2 by omega)
    omega
  · intro h
    have h0 : 0 ≤ -a := by omega
    have h1 := Int.tdiv_add_tmod (-a) 2
    have h2 := Int.tmod_nonneg 2 h0
    have h3 := Int.tmod_lt_of_pos (-a) (show (0 : Int) < 2 by omega)
    have h4 := Int.neg_tdiv a 2
    omega

/-- The split coordinate lies between the two ends. -/
theorem mid_bounds (lo hi : Int) (h : lo ≤ hi) :
    lo ≤ Int.tdiv (lo + hi) 2 ∧ Int.tdiv (lo + hi) 2 ≤ hi := by
  have := tdiv_two_bounds (lo + hi)
  omega

/-! ## The order of the queue -/

theorem lessRegion_true_iff (a b : Region) :
    lessRegion a b = true ↔
      a.Count > b.Count ∨
        (a.Count = b.Count ∧ manhattan a.Min origin < manhattan b.Min origin) := by
  unfold lessRegion
  split_ifs with h
  · simp only [decide_eq_true_eq]; omega
  · simp only [decide_eq_true_eq]; omega

theorem lessRegion_false_iff (a b : Region) :
    lessRegion a b = false ↔
      a.Count < b.Count ∨
        (a.Count = b.Count ∧ manhattan b.Min origin ≤ manhattan a.Min origin) := by
  rw [← Bool.not_eq_true, lessRegion_true_iff]
  omega

theorem lessRegion_irrefl (a : Region) : lessRegion a a = false := by
  rw [lessRegion_false_iff]; omega

theorem lessRegion_asymm (a b : Region) (h : lessRegion a b = true) :
    lessRegion b a = false := by
  rw [lessRegion_true_iff] at h
  rw [lessRegion_false_iff]; omega

theorem lessRegion_trans (a b c : Region) (h1 : lessRegion a b = true)
    (h2 : lessRegion b c = true) : lessRegion a c = true := by
  rw [lessRegion_true_iff] at *
  omega

/-- Negative transitivity: "not before" composes. -/
theorem lessRegion_false_trans (a b c : Region) (h1 : lessRegion b a = false)
    (h2 : lessRegion c b = false) : lessRegion c a = false := by
  rw [lessRegion_false_iff] at *
  omega

/-! ## `Swap` -/

theorem length_Swap (l : PriorityQueue) (i j : Nat) :
    (PriorityQueue.Swap l i j).length = l.length := by
  simp [PriorityQueue.Swap]

theorem getD_Swap (l : PriorityQueue) (i j k : Nat) (hi : i < l.length) (hj : j < l.length) :
    (PriorityQueue.Swap l i j).getD k default =
      if k = j then l.getD i default else if k = i then l.getD j default
      else l.getD k default := by
  simp only [PriorityQueue.Swap, List.getD_eq_getElem?_getD, List.getElem?_set,
    List.length_set]
  by_cases h1 : k = j
  · subst h1; simp [hj]
  · by_cases h2 : k = i
    · subst h2
      have : ¬ j = k := fun h => h1 h.symm
      simp [h1, this, hi]
    · have a : ¬ j = k := fun h => h1 h.symm
      have b : ¬ i = k := fun h => h2 h.symm
      simp [h1, h2, a, b]

theorem set_getD_perm (l : PriorityQueue) (j : Nat) (a : Region) (hj : j < l.length) :
    List.Perm (l.getD j default :: l.set j a) (a :: l) := by
  induction l generalizing j with
  | nil => simp at hj
  | cons b l ih =>
    cases j with
    | zero => simpa using List.Perm.swap a b l
    | succ j =>
      have hj2 : j < l.length := by simpa using hj
      simp only [List.getD_cons_succ, List.set_cons_succ]
      exact (List.Perm.swap b _ _).trans (((ih j hj2).cons b).trans (List.Perm.swap a b l))

theorem Swap_perm (l : PriorityQueue) (i j : Nat) (hi : i < l.length) (hj : j < l.length) :
    List.Perm (PriorityQueue.Swap l i j) l := by
  induction l generalizing i j with
  | nil => simp at hi
  | cons a l ih =>
    cases i with
    | zero =>
      cases j with
      | zero => simp [PriorityQueue.Swap]
      | succ j =>
        have hj2 : j < l.length := by simpa using hj
        simp only [PriorityQueue.Swap, List.getD_cons_succ, List.getD_cons_zero,
          List.set_cons_zero, List.set_cons_succ]
        exact set_getD_perm l j a hj2
    | succ i =>
      have hi2 : i < l.length := by simpa using hi
      cases j with
      | zero =>
        simp only [PriorityQueue.Swap, List.getD_cons_succ, List.getD_cons_zero,
          List.set_cons_zero, List.set_cons_succ]
        have h := set_getD_perm l i a hi2
        simpa using h
      | succ j =>
        have hj2 : j < l.length := by simpa using hj
        have h := ih i j hi2 hj2
        simp only [PriorityQueue.Swap, List.getD_cons_succ, List.set_cons_succ] at h ⊢
        exact h.cons a

/-! ## `up` -/

theorem length_up (fuel : Nat) (l : PriorityQueue) (j : Nat) :
    (heap.up fuel l j).length = l.length := by
  induction fuel generalizing l j with
  | zero => rfl
  | succ fuel ih =>
    simp only [heap.up]
    split_ifs
    · rfl
    · rw [ih, length_Swap]

theorem up_perm (fuel : Nat) (l : PriorityQueue) (j : Nat) (hj : j < l.length) :
    List.Perm (heap.up fuel l j) l := by
  induction fuel generalizing l j with
  | zero => exact List.Perm.refl _
  | succ fuel ih =>
    simp only [heap.up]
    split_ifs
    · exact List.Perm.refl _
    · have hi : (j - 1) / 2 < l.length := by omega
      exact (ih _ _ (by rw [length_Swap]; exact hi)).trans (Swap_perm l _ _ hi hj)

theorem up_isHeap (fuel : Nat) (l : PriorityQueue) (j : Nat) (hf : j < fuel)
    (hj : j < l.length) (h : HeapExcept l j) : IsHeap (heap.up fuel l j) := by
  induction fuel generalizing l j with
  | zero => omega
  | succ fuel ih =>
    obtain ⟨h1, h2⟩ := h
    simp only [heap.up]
    split_ifs with hc
    · intro k hk0 hkl
      by_cases hkj : k = j
      · subst hkj
        rcases hc with hc | hc
        · omega
        · exact hc
      · exact h1 k hk0 hkl hkj
    · have hc1 : ¬ (j - 1) / 2 = j := fun e => hc (Or.inl e)
      have hc2 : lessRegion (l.getD j default) (l.getD ((j - 1) / 2) default) = true := by
        have : ¬ PriorityQueue.Less l j ((j - 1) / 2) = false := fun e => hc (Or.inr e)
        simpa [PriorityQueue.Less] using this
      have hj0 : 0 < j := by omega
      have hi : (j - 1) / 2 < l.length := by omega
      have hij : (j - 1) / 2 < j := by omega
      apply ih _ _ (by omega) (by rw [length_Swap]; exact hi)
      constructor
      · intro k hk0 hkl hki
        rw [length_Swap] at hkl
        rw [getD_Swap l _ _ k hi hj, getD_Swap l _ _ ((k - 1) / 2) hi hj]
        by_cases hkj : k = j
        · subst hkj
          simp only [if_true, if_neg hc1]
          exact lessRegion_asymm _ _ hc2
        · rw [if_neg hkj, if_neg hki]
          by_cases hpj : (k - 1) / 2 = j
          · rw [if_pos hpj]
            exact h2 k hk0 hkl hpj hj0
          · rw [if_neg hpj]
            by_cases hpi : (k - 1) / 2 = (j - 1) / 2
            · rw [if_pos hpi]
              have a := h1 k hk0 hkl hkj
              rw [hpi] at a
              exact lessRegion_false_trans _ _ _ (lessRegion_asymm _ _ hc2) a
            · rw [if_neg hpi]
              exact h1 k hk0 hkl hkj
      · intro k hk0 hkl hpk hi0
        rw [length_Swap] at hkl
        have hki : k ≠ (j - 1) / 2 := by omega
        have hppi : ¬ ((j - 1) / 2 - 1) / 2 = (j - 1) / 2 := by omega
        have hppj : ¬ ((j - 1) / 2 - 1) / 2 = j := by omega
        rw [getD_Swap l _ _ k hi hj, getD_Swap l _ _ (((j - 1) / 2 - 1) / 2) hi hj,
          if_neg hppj, if_neg hppi, if_neg hki]
        have b := h1 ((j - 1) / 2) hi0 hi (by omega)
        by_cases hkj : k = j
        · rw [if_pos hkj]; exact b
        · rw [if_neg hkj]
          have a := h1 k hk0 hkl hkj
          rw [hpk] at a
          exact lessRegion_false_trans _ _ _ b a

/-! ## `down` -/

theorem length_down (fuel : Nat) (l : PriorityQueue) (i n : Nat) :
    (heap.down fuel l i n).length = l.length := by
  induction fuel generalizing l i with
  | zero => rfl
  | succ fuel ih =>
    simp only [heap.down]
    split_ifs <;> first | rfl | (rw [ih, length_Swap])

theorem down_perm (fuel : Nat) (l : PriorityQueue) (i n : Nat)
    (hn : n ≤ l.length) : List.Perm (heap.down fuel l i n) l := by
  induction fuel generalizing l i with
  | zero => exact List.Perm.refl _
  | succ fuel ih =>
    simp only [heap.down]
    split_ifs with h1 h2 h3 h4
    · exact List.Perm.refl _
    · exact List.Perm.refl _
    · exact (ih _ _ (by rw [length_Swap]; exact hn)).trans
        (Swap_perm l _ _ (by omega) (by omega))
    · exact List.Perm.refl _
    · exact (ih _ _ (by rw [length_Swap]; exact hn)).trans
        (Swap_perm l _ _ (by omega) (by omega))

/-- The loop of `down` leaves the entries from index `n` on untouched. -/
theorem getD_down_ge (fuel : Nat) (l : PriorityQueue) (i n k : Nat)
    (hn : n ≤ l.length) (hk : n ≤ k) :
    (heap.down fuel l i n).getD k default = l.getD k default := by
  induction fuel generalizing l i with
  | zero => rfl
  | succ fuel ih =>
    simp only [heap.down]
    split_ifs with h1 h2 h3 h4
    · rfl
    · rfl
    · rw [ih _ _ (by rw [length_Swap]; exact hn),
        getD_Swap l _ _ k (by omega) (by omega), if_neg (by omega), if_neg (by omega)]
    · rfl
    · rw [ih _ _ (by rw [length_Swap]; exact hn),
        getD_Swap l _ _ k (by omega) (by omega), if_neg (by omega), if_neg (by omega)]

theorem down_swap_step (l : PriorityQueue) (i j n : Nat) (hn : n ≤ l.length)
    (hjn : j < n) (hpj : (j - 1) / 2 = i) (hj0 : 0 < j)
    (hbest : ∀ k, 0 < k → k < n → (k - 1) / 2 = i →
      lessRegion (l.getD k default) (l.getD j default) = false)
    (hlt : lessRegion (l.getD j default) (l.getD i default) = true)
    (h : HeapBelow l n i) : HeapBelow (PriorityQueue.Swap l i j) n j := by
  obtain ⟨h1, h2⟩ := h
  have hij : i < j := by omega
  have hi : i < l.length := by omega
  have hj : j < l.length := by omega
  constructor
  · intro k hk0 hkn hpk
    rw [getD_Swap l _ _ k hi hj, getD_Swap l _ _ ((k - 1) / 2) hi hj, if_neg hpk]
    by_cases hkj : k = j
    · subst hkj
      rw [if_pos rfl, if_pos hpj]
      exact lessRegion_asymm _ _ hlt
    · rw [if_neg hkj]
      by_cases hki : k = i
      · subst hki
        have hpp : ¬ (k - 1) / 2 = k := by omega
        rw [if_pos rfl, if_neg hpp]
        exact h2 j hj0 hjn hpj hk0
      · rw [if_neg hki]
        by_cases hpi : (k - 1) / 2 = i
        · rw [if_pos hpi]
          exact hbest k hk0 hkn hpi
        · rw [if_neg hpi]
          exact h1 k hk0 hkn hpi
  · intro k hk0 hkn hpk _
    have hkj : ¬ k = j := by omega
    have hki : ¬ k = i := by omega
    have hii : ¬ (j - 1) / 2 = j := by omega
    rw [getD_Swap l _ _ k hi hj, getD_Swap l _ _ ((j - 1) / 2) hi hj, if_neg hkj, if_neg hki,
      if_neg hii, if_pos hpj]
    have a := h1 k hk0 hkn (by omega)
    rw [hpk] at a
    exact a

theorem down_isHeapUpTo (fuel : Nat) (l : PriorityQueue) (i n : Nat) (hf : n ≤ i + fuel)
    (hn : n ≤ l.length) (h : HeapBelow l n i) : IsHeapUpTo (heap.down fuel l i n) n := by
  induction fuel generalizing l i with
  | zero =>
    intro k hk0 hkn
    exact h.1 k hk0 hkn (by omega)
  | succ fuel ih =>
    simp only [heap.down]
    by_cases hc1 : 2 * i + 1 ≥ n
    · rw [if_pos hc1]
      intro k hk0 hkn
      exact h.1 k hk0 hkn (by omega)
    · rw [if_neg hc1]
      by_cases hc2 : 2 * i + 1 + 1 < n ∧ PriorityQueue.Less l (2 * i + 1 + 1) (2 * i + 1) = true
      · rw [if_pos hc2]
        obtain ⟨hc2a, hc2b⟩ := hc2
        have hc2c : lessRegion (l.getD (2 * i + 1 + 1) default) (l.getD (2 * i + 1) default)
            = true := hc2b
        have hbest : ∀ k, 0 < k → k < n → (k - 1) / 2 = i →
            lessRegion (l.getD k default) (l.getD (2 * i + 1 + 1) default) = false := by
          intro k hk0 _ hpk
          have : k = 2 * i + 1 ∨ k = 2 * i + 1 + 1 := by omega
          rcases this with e | e
          · rw [e]; exact lessRegion_asymm _ _ hc2c
          · rw [e]; exact lessRegion_irrefl _
        split_ifs with hc3
        · have hc3b : lessRegion (l.getD (2 * i + 1 + 1) default) (l.getD i default)
              = false := hc3
          intro k hk0 hkn
          by_cases hpk : (k - 1) / 2 = i
          · rw [hpk]
            exact lessRegion_false_trans _ _ _ hc3b (hbest k hk0 hkn hpk)
          · exact h.1 k hk0 hkn hpk
        · have hlt : lessRegion (l.getD (2 * i + 1 + 1) default) (l.getD i default)
              = true := by
            simpa [PriorityQueue.Less] using hc3
          exact ih _ _ (by omega) (by rw [length_Swap]; exact hn)
            (down_swap_step l i _ n hn hc2a (by omega) (by omega) hbest hlt h)
      · rw [if_neg hc2]
        have hbest : ∀ k, 0 < k → k < n → (k - 1) / 2 = i →
            lessRegion (l.getD k default) (l.getD (2 * i + 1) default) = false := by
          intro k hk0 hkn hpk
          have : k = 2 * i + 1 ∨ k = 2 * i + 1 + 1 := by omega
          rcases this with e | e
          · rw [e]; exact lessRegion_irrefl _
          · rw [e]
            rw [e] at hkn
            by_contra hne
            apply hc2
            refine ⟨hkn, ?_⟩
            simpa [PriorityQueue.Less] using hne
        split_ifs with hc3
        · have hc3b : lessRegion (l.getD (2 * i + 1) default) (l.getD i default)
              = false := hc3
          intro k hk0 hkn
          by_cases hpk : (k - 1) / 2 = i
          · rw [hpk]
            exact lessRegion_false_trans _ _ _ hc3b (hbest k hk0 hkn hpk)
          · exact h.1 k hk0 hkn hpk
        · have hlt : lessRegion (l.getD (2 * i + 1) default) (l.getD i default)
              = true := by
            simpa [PriorityQueue.Less] using hc3
          exact ih _ _ (by omega) (by rw [length_Swap]; exact hn)
            (down_swap_step l i _ n hn (by omega) (by omega) (by omega) hbest hlt h)

/-! ## `heap.Push` and `heap.Pop` -/

theorem heap_Push_perm (l : PriorityQueue) (x : Region) :
    List.Perm (heap.Push l x) (x :: l) := by
  unfold heap.Push PriorityQueue.Push PriorityQueue.Len
  have h : (l ++ [x]).length - 1 < (l ++ [x]).length := by simp
  exact (up_perm _ _ _ h).trans (List.perm_append_singleton x l)

theorem mem_heap_Push (l : PriorityQueue) (x q : Region) :
    q ∈ heap.Push l x ↔ q = x ∨ q ∈ l := by
  rw [(heap_Push_perm l x).mem_iff, List.mem_cons]

theorem getD_append_lt (l : PriorityQueue) (x : Region) (k : Nat) (hk : k < l.length) :
    (l ++ [x]).getD k default = l.getD k default := by
  simp [List.getD_eq_getElem?_getD, List.getElem?_append, hk]

theorem heap_Push_isHeap (l : PriorityQueue) (x : Region) (h : IsHeap l) :
    IsHeap (heap.Push l x) := by
  unfold heap.Push PriorityQueue.Push PriorityQueue.Len
  have e : (l ++ [x]).length - 1 = l.length := by simp
  rw [e]
  apply up_isHeap _ _ _ (by omega) (by simp)
  constructor
  · intro k hk0 hkl hkj
    have hkl2 : k < l.length := by
      simp at hkl; omega
    rw [getD_append_lt l x k hkl2, getD_append_lt l x _ (by omega)]
    exact h k hk0 hkl2
  · intro k _ hkl hpk _
    simp at hkl
    omega

/-- In a heap no entry is `Less` than the entry at index 0. -/
theorem IsHeap_root (l : PriorityQueue) (h : IsHeap l) (k : Nat) (hk : k < l.length) :
    lessRegion (l.getD k default) (l.getD 0 default) = false := by
  induction k using Nat.strong_induction_on with
  | _ k ih =>
    by_cases hk0 : k = 0
    · subst hk0; exact lessRegion_irrefl _
    · have a := h k (by omega) hk
      have b := ih ((k - 1) / 2) (by omega) (by omega)
      exact lessRegion_false_trans _ _ _ b a

theorem IsHeap_root_mem (l : PriorityQueue) (h : IsHeap l) (q : Region) (hq : q ∈ l) :
    lessRegion q (l.getD 0 default) = false := by
  obtain ⟨k, hk, rfl⟩ := List.getElem_of_mem hq
  have := IsHeap_root l h k hk
  rwa [List.getD_eq_getElem l default hk] at this

theorem heap_Pop_eq_none (l : PriorityQueue) : heap.Pop l = none ↔ l = [] := by
  unfold heap.Pop PriorityQueue.Len
  split_ifs with h
  · simp [List.length_eq_zero.mp h]
  · simp only [false_iff, reduceCtorEq]
    intro e; apply h; simp [e]

theorem take_append_getD (l : PriorityQueue) (n : Nat) (h : l.length = n + 1) :
    l.take n ++ [l.getD n default] = l := by
  have hn : n < l.length := by omega
  rw [List.getD_eq_getElem l default hn]
  have := List.take_succ (l := l) (n := n)
  rw [List.getElem?_eq_getElem hn] at this
  simp only [Option.toList] at this
  rw [← this, List.take_of_length_le (by omega)]

theorem getD_take_lt (l : PriorityQueue) (n k : Nat) (hk : k < n) :
    (l.take n).getD k default = l.getD k default := by
  simp [List.getD_eq_getElem?_getD, List.getElem?_take, hk]

/-- What `heap.Pop` does on a non-empty heap: it returns the entry at index 0,
which no entry is `Less` than, and leaves a heap that holds the other entries. -/
theorem heap_Pop_spec (l : PriorityQueue) (hl : l ≠ []) (hh : IsHeap l) :
    ∃ r rest, heap.Pop l = some (r, rest) ∧ r = l.getD 0 default ∧
      List.Perm (r :: rest) l ∧ IsHeap rest ∧ ∀ q ∈ l, lessRegion q r = false := by
  have hlen : 0 < l.length := List.length_pos.mpr hl
  have hne : ¬ l.length = 0 := by omega
  have h0 : 0 < l.length := hlen
  have hn : l.length - 1 < l.length := by omega
  have hn' : l.length - 1 ≤ (PriorityQueue.Swap l 0 (l.length - 1)).length := by
    rw [length_Swap]; omega
  refine ⟨(PriorityQueue.Pop
      (heap.down l.length (PriorityQueue.Swap l 0 (l.length - 1)) 0 (l.length - 1))).1,
    (PriorityQueue.Pop
      (heap.down l.length (PriorityQueue.Swap l 0 (l.length - 1)) 0 (l.length - 1))).2,
    ?_, ?_, ?_, ?_, ?_⟩
  · unfold heap.Pop PriorityQueue.Len
    rw [if_neg hne]
  · simp only [PriorityQueue.Pop, length_down, length_Swap]
    rw [getD_down_ge _ _ _ _ _ hn' (le_refl _), getD_Swap l _ _ _ h0 hn, if_pos rfl]
  · simp only [PriorityQueue.Pop, length_down, length_Swap]
    have e := take_append_getD
      (heap.down l.length (PriorityQueue.Swap l 0 (l.length - 1)) 0 (l.length - 1))
      (l.length - 1) (by rw [length_down, length_Swap]; omega)
    have p1 := down_perm l.length (PriorityQueue.Swap l 0 (l.length - 1)) 0 (l.length - 1) hn'
    have p2 := Swap_perm l 0 (l.length - 1) h0 hn
    refine (List.perm_append_singleton _ _).symm.trans ?_
    rw [e]
    exact p1.trans p2
  · simp only [PriorityQueue.Pop, length_down, length_Swap]
    have hb : HeapBelow (PriorityQueue.Swap l 0 (l.length - 1)) (l.length - 1) 0 := by
      constructor
      · intro k hk0 hkn hpk
        rw [getD_Swap l _ _ k h0 hn, getD_Swap l _ _ _ h0 hn,
          if_neg (by omega), if_neg (by omega), if_neg (by omega), if_neg hpk]
        exact hh k hk0 (by omega)
      · intro k _ _ _ h; omega
    have hu := down_isHeapUpTo l.length _ 0 (l.length - 1) (by omega) hn' hb
    intro k hk0 hkl
    have hkn : k < l.length - 1 := by
      rw [List.length_take, length_down, length_Swap] at hkl
      omega
    rw [getD_take_lt _ _ _ hkn, getD_take_lt _ _ _ (by omega)]
    exact hu k hk0 hkn
  · intro q hq
    simp only [PriorityQueue.Pop, length_down, length_Swap]
    rw [getD_down_ge _ _ _ _ _ hn' (le_refl _), getD_Swap l _ _ _ h0 hn, if_pos rfl]
    exact IsHeap_root_mem l hh q hq

theorem IsHeap_nil : IsHeap [] := by
  intro k _ hk
  simp at hk

/-! ## The eight subregions -/

/-- The subregions are the products of one half per axis. -/
theorem mem_subregions_iff (r c : Region) :
    c ∈ subregions r ↔
      c.Count = 0 ∧
      ((c.Min.X = r.Min.X ∧ c.Max.X = Int.tdiv (r.Min.X + r.Max.X) 2) ∨
        (c.Min.X = Int.tdiv (r.Min.X + r.Max.X) 2 ∧ c.Max.X = r.Max.X)) ∧
      ((c.Min.Y = r.Min.Y ∧ c.Max.Y = Int.tdiv (r.Min.Y + r.Max.Y) 2) ∨
        (c.Min.Y = Int.tdiv (r.Min.Y + r.Max.Y) 2 ∧ c.Max.Y = r.Max.Y)) ∧
      ((c.Min.Z = r.Min.Z ∧ c.Max.Z = Int.tdiv (r.Min.Z + r.Max.Z) 2) ∨
        (c.Min.Z = Int.tdiv (r.Min.Z + r.Max.Z) 2 ∧ c.Max.Z = r.Max.Z)) := by
  obtain ⟨⟨a1, a2, a3⟩, ⟨b1, b2, b3⟩, cnt⟩ := c
  obtain ⟨⟨x1, y1, z1⟩, ⟨x2, y2, z2⟩, rc⟩ := r
  simp only [subregions, List.mem_cons, List.mem_singleton, Region.mk.injEq, Point.mk.injEq,
    List.mem_nil_iff, or_false]
  generalize Int.tdiv (x1 + x2) 2 = mx
  generalize Int.tdiv (y1 + y2) 2 = my
  generalize Int.tdiv (z1 + z2) 2 = mz
  constructor
  · rintro (h | h | h | h | h | h | h | h) <;>
      (obtain ⟨⟨e1, e2, e3⟩, ⟨e4, e5, e6⟩, e7⟩ := h
       subst e1 e2 e3 e4 e5 e6 e7
       simp)
  · rintro ⟨e0, (⟨e1, e2⟩ | ⟨e1, e2⟩), (⟨e3, e4⟩ | ⟨e3, e4⟩), (⟨e5, e6⟩ | ⟨e5, e6⟩)⟩ <;>
      (subst e0 e1 e2 e3 e4 e5 e6
       simp)

theorem subregion_wellFormed (r c : Region) (hr : r.WellFormed) (hc : c ∈ subregions r) :
    c.WellFormed := by
  rw [mem_subregions_iff] at hc
  obtain ⟨hx, hy, hz⟩ := hr
  have mx := mid_bounds _ _ hx
  have my := mid_bounds _ _ hy
  have mz := mid_bounds _ _ hz
  obtain ⟨_, cx, cy, cz⟩ := hc
  refine ⟨?_, ?_, ?_⟩ <;> omega

theorem subregion_subset (r c : Region) (hr : r.WellFormed) (hc : c ∈ subregions r)
    (p : Point) (hp : c.Contains p) : r.Contains p := by
  rw [mem_subregions_iff] at hc
  obtain ⟨hx, hy, hz⟩ := hr
  have mx := mid_bounds _ _ hx
  have my := mid_bounds _ _ hy
  have mz := mid_bounds _ _ hz
  obtain ⟨_, cx, cy, cz⟩ := hc
  obtain ⟨px, py, pz⟩ := hp
  refine ⟨?_, ?_, ?_⟩ <;> omega

theorem subregion_oneSided (r c : Region) (hr : r.WellFormed) (hs : r.OneSided)
    (hc : c ∈ subregions r) : c.OneSided := by
  rw [mem_subregions_iff] at hc
  obtain ⟨hx, hy, hz⟩ := hr
  have mx := mid_bounds _ _ hx
  have my := mid_bounds _ _ hy
  have mz := mid_bounds _ _ hz
  obtain ⟨_, cx, cy, cz⟩ := hc
  obtain ⟨sx, sy, sz⟩ := hs
  refine ⟨?_, ?_, ?_⟩ <;> omega

theorem subregion_initial_oneSided (nanobots : List Nanobot) (c : Region)
    (hc : c ∈ subregions (initialRegion nanobots)) : c.OneSided := by
  rw [mem_subregions_iff] at hc
  have e : Int.tdiv (MinInt32 + MaxInt32) 2 = 0 := by decide
  simp only [initialRegion, e] at hc
  obtain ⟨_, cx, cy, cz⟩ := hc
  refine ⟨?_, ?_, ?_⟩ <;> omega

/-- One axis of the split: some half contains the coordinate and is not
degenerate unless the interval is. -/
theorem axis_half (lo hi x : Int) (h1 : lo ≤ x) (h2 : x ≤ hi) :
    ∃ a b : Int, ((a = lo ∧ b = Int.tdiv (lo + hi) 2) ∨ (a = Int.tdiv (lo + hi) 2 ∧ b = hi)) ∧
      a ≤ x ∧ x ≤ b ∧ (lo < hi → a < b) := by
  have t := tdiv_two_bounds (lo + hi)
  by_cases c1 : x ≤ Int.tdiv (lo + hi) 2 ∧ lo < Int.tdiv (lo + hi) 2
  · exact ⟨lo, _, Or.inl ⟨rfl, rfl⟩, h1, c1.1, fun _ => c1.2⟩
  · by_cases c2 : Int.tdiv (lo + hi) 2 ≤ x ∧ Int.tdiv (lo + hi) 2 < hi
    · exact ⟨_, hi, Or.inr ⟨rfl, rfl⟩, c2.1, h2, fun _ => c2.2⟩
    · by_cases c3 : x ≤ Int.tdiv (lo + hi) 2
      · exact ⟨lo, _, Or.inl ⟨rfl, rfl⟩, h1, c3, fun _ => by omega⟩
      · exact ⟨_, hi, Or.inr ⟨rfl, rfl⟩, by omega, h2, fun _ => by omega⟩

/-- Every point of a region that is not a single point lies in a subregion
that is not a single point either. -/
theorem subregion_cover (r : Region) (hr : r.WellFormed) (hne : r.Min ≠ r.Max) (p : Point)
    (hp : r.Contains p) :
    ∃ c ∈ subregions r, c.Contains p ∧ c.Min ≠ c.Max := by
  obtain ⟨⟨m1, m2, m3⟩, ⟨n1, n2, n3⟩, rc⟩ := r
  obtain ⟨hx, hy, hz⟩ := hr
  obtain ⟨⟨px1, px2⟩, ⟨py1, py2⟩, ⟨pz1, pz2⟩⟩ := hp
  obtain ⟨ax, bx, ex, lx, ux, nx⟩ := axis_half _ _ _ px1 px2
  obtain ⟨ay, by', ey, ly, uy, ny⟩ := axis_half _ _ _ py1 py2
  obtain ⟨az, bz, ez, lz, uz, nz⟩ := axis_half _ _ _ pz1 pz2
  refine ⟨⟨⟨ax, ay, az⟩, ⟨bx, by', bz⟩, 0⟩, ?_, ⟨⟨lx, ux⟩, ⟨ly, uy⟩, ⟨lz, uz⟩⟩, ?_⟩
  · rw [mem_subregions_iff]
    exact ⟨rfl, ex, ey, ez⟩
  · intro e
    simp only [Point.mk.injEq] at e
    apply hne
    obtain ⟨e1, e2, e3⟩ := e
    have fx : ¬ m1 < n1 := fun h => by have := nx h; omega
    have fy : ¬ m2 < n2 := fun h => by have := ny h; omega
    have fz : ¬ m3 < n3 := fun h => by have := nz h; omega
    simp only [Point.mk.injEq]
    simp only at hx hy hz
    omega

/-- The halves of a box with a non-negative `Min` corner have one too. -/
theorem subregion_min_nonneg (r c : Region) (hr : r.WellFormed) (hc : c ∈ subregions r)
    (h : 0 ≤ r.Min.X ∧ 0 ≤ r.Min.Y ∧ 0 ≤ r.Min.Z) :
    0 ≤ c.Min.X ∧ 0 ≤ c.Min.Y ∧ 0 ≤ c.Min.Z := by
  rw [mem_subregions_iff] at hc
  obtain ⟨hx, hy, hz⟩ := hr
  have mx := mid_bounds _ _ hx
  have my := mid_bounds _ _ hy
  have mz := mid_bounds _ _ hz
  obtain ⟨_, cx, cy, cz⟩ := hc
  refine ⟨?_, ?_, ?_⟩ <;> omega

/-- The last subregion of the initial region is the non-negative octant. -/
theorem subregion_cover_initial (nanobots : List Nanobot) (q : Point)
    (hq : searchSpace.Contains q) (hx : 0 ≤ q.X) (hy : 0 ≤ q.Y) (hz : 0 ≤ q.Z) :
    ∃ c ∈ subregions (initialRegion nanobots), c.Contains q ∧ c.Min ≠ c.Max ∧
      (0 ≤ c.Min.X ∧ 0 ≤ c.Min.Y ∧ 0 ≤ c.Min.Z) := by
  have e : Int.tdiv (MinInt32 + MaxInt32) 2 = 0 := by decide
  obtain ⟨⟨_, qx⟩, ⟨_, qy⟩, ⟨_, qz⟩⟩ := hq
  refine ⟨⟨⟨0, 0, 0⟩, ⟨MaxInt32, MaxInt32, MaxInt32⟩, 0⟩, ?_, ⟨⟨hx, qx⟩, ⟨hy, qy⟩, ⟨hz, qz⟩⟩, ?_,
    le_refl _, le_refl _, le_refl _⟩
  · rw [mem_subregions_iff]
    simp [initialRegion, e]
  · simp [MaxInt32]

/-! ## The loop body -/

theorem mem_pushSubregions (nanobots : List Nanobot) (pq : PriorityQueue)
    (subs : List Region) (q : Region) :
    q ∈ pushSubregions nanobots pq subs ↔
      q ∈ pq ∨ ∃ c ∈ subs, 0 < countInRange nanobots c ∧
        q = ⟨c.Min, c.Max, countInRange nanobots c⟩ := by
  induction subs generalizing pq with
  | nil => simp [pushSubregions]
  | cons c subs ih =>
    have e : pushSubregions nanobots pq (c :: subs) =
        pushSubregions nanobots
          (if countInRange nanobots c > 0 then
            heap.Push pq ⟨c.Min, c.Max, countInRange nanobots c⟩ else pq) subs := rfl
    rw [e, ih]
    by_cases hc : countInRange nanobots c > 0
    · rw [if_pos hc, mem_heap_Push]
      constructor
      · rintro ((h | h) | ⟨d, hd, h⟩)
        · exact Or.inr ⟨c, List.mem_cons_self _ _, hc, h⟩
        · exact Or.inl h
        · exact Or.inr ⟨d, List.mem_cons_of_mem _ hd, h⟩
      · rintro (h | ⟨d, hd, h⟩)
        · exact Or.inl (Or.inr h)
        · rcases List.mem_cons.mp hd with e | hd
          · subst e; exact Or.inl (Or.inl h.2)
          · exact Or.inr ⟨d, hd, h⟩
    · rw [if_neg hc]
      constructor
      · rintro (h | ⟨d, hd, h⟩)
        · exact Or.inl h
        · exact Or.inr ⟨d, List.mem_cons_of_mem _ hd, h⟩
      · rintro (h | ⟨d, hd, h⟩)
        · exact Or.inl h
        · rcases List.mem_cons.mp hd with e | hd
          · subst e; exact absurd h.1 hc
          · exact Or.inr ⟨d, hd, h⟩

theorem isHeap_pushSubregions (nanobots : List Nanobot) (pq : PriorityQueue)
    (subs : List Region) (h : IsHeap pq) : IsHeap (pushSubregions nanobots pq subs) := by
  induction subs generalizing pq with
  | nil => exact h
  | cons c subs ih =>
    have e : pushSubregions nanobots pq (c :: subs) =
        pushSubregions nanobots
          (if countInRange nanobots c > 0 then
            heap.Push pq ⟨c.Min, c.Max, countInRange nanobots c⟩ else pq) subs := rfl
    rw [e]
    apply ih
    split_ifs
    · exact heap_Push_isHeap _ _ h
    · exact h

/-- The two ways in which a pass through the loop continues. -/
theorem loopBody_some (nanobots : List Nanobot) (s s' : State)
    (h : loopBody nanobots s = some s') :
    ∃ r rest, heap.Pop s.pq = some (r, rest) ∧ breakTest s.best r = false ∧
      ((r.Min = r.Max ∧ s' = ⟨rest, if updateTest s.best r then some r else s.best⟩) ∨
       (r.Min ≠ r.Max ∧ s' = ⟨pushSubregions nanobots rest (subregions r), s.best⟩)) := by
  unfold loopBody at h
  cases hp : heap.Pop s.pq with
  | none => rw [hp] at h; simp at h
  | some x =>
    obtain ⟨r, rest⟩ := x
    rw [hp] at h
    simp only at h
    refine ⟨r, rest, rfl, ?_⟩
    by_cases hb : breakTest s.best r = true
    · rw [if_pos hb] at h; simp at h
    · rw [if_neg hb] at h
      refine ⟨by simpa using hb, ?_⟩
      by_cases hpt : r.Min = r.Max
      · rw [if_pos hpt] at h
        exact Or.inl ⟨hpt, (Option.some.inj h).symm⟩
      · rw [if_neg hpt] at h
        exact Or.inr ⟨hpt, (Option.some.inj h).symm⟩

theorem initState_eq (nanobots : List Nanobot) :
    initState nanobots = ⟨[initialRegion nanobots], none⟩ := by
  simp [initState, heap.Push, heap.up, PriorityQueue.Push, PriorityQueue.Len]

theorem searchSpace_wellFormed : searchSpace.WellFormed := by
  unfold Region.WellFormed searchSpace initialRegion MinInt32 MaxInt32
  decide

theorem initialRegion_contains_iff (nanobots : List Nanobot) (p : Point) :
    (initialRegion nanobots).Contains p ↔ searchSpace.Contains p := Iff.rfl

theorem initialRegion_not_point (nanobots : List Nanobot) :
    (initialRegion nanobots).Min ≠ (initialRegion nanobots).Max := by
  simp [initialRegion, MinInt32, MaxInt32]

theorem initialRegion_not_oneSided (nanobots : List Nanobot) :
    ¬ (initialRegion nanobots).OneSided := by
  simp [initialRegion, MinInt32, MaxInt32, Region.OneSided]

theorem exactManhattan_origin_le (p : Point) (hp : searchSpace.Contains p) :
    exactManhattan p origin ≤ 6442450944 := by
  obtain ⟨⟨a1, a2⟩, ⟨a3, a4⟩, ⟨a5, a6⟩⟩ := hp
  simp only [searchSpace, initialRegion, MinInt32, MaxInt32] at a1 a2 a3 a4 a5 a6
  simp only [exactManhattan, exactAbs, origin]
  split_ifs <;> omega

/-- The distance of a point of the initial box to the origin does not wrap. -/
theorem manhattan_origin_eq (p : Point) (hp : searchSpace.Contains p) :
    manhattan p origin = exactManhattan p origin :=
  manhattan_eq_exact _ _ (le_trans (exactManhattan_origin_le p hp) (by decide))

/-- Nanobots within reach of the initial box do not wrap on a box inside it. -/
theorem noWrap_of_box (nanobots : List Nanobot) (hB : ∀ n ∈ nanobots, n.InReach) (r : Region)
    (hr : r.WellFormed) (hsub : ∀ p, r.Contains p → searchSpace.Contains p) :
    ∀ n ∈ nanobots, NoWrap n r :=
  fun n hn => noWrap_mono n r searchSpace hr hsub (hB n hn)

/-- What a successful `heap.Pop` on a heap gives. -/
theorem pop_facts (pq : PriorityQueue) (hh : IsHeap pq)
    (r : Region) (rest : PriorityQueue) (hpop : heap.Pop pq = some (r, rest)) :
    List.Perm (r :: rest) pq ∧ IsHeap rest ∧ (∀ q ∈ pq, lessRegion q r = false) := by
  have hne : pq ≠ [] := by
    intro e
    rw [(heap_Pop_eq_none pq).mpr e] at hpop
    simp at hpop
  obtain ⟨r', rest', h1, _, h3, h4, h5⟩ := heap_Pop_spec pq hne hh
  rw [h1] at hpop
  simp only [Option.some.injEq, Prod.mk.injEq] at hpop
  obtain ⟨e1, e2⟩ := hpop
  subst e1 e2
  exact ⟨h3, h4, h5⟩

theorem boundCount_of_point (nanobots : List Nanobot) (r : Region) (h : r.Min = r.Max)
    (hn : ∀ n ∈ nanobots, NoWrap n r) :
    boundCount nanobots r = coverage nanobots r.Min := by
  obtain ⟨a, b, c⟩ := r
  simp only at h
  subst h
  exact boundCount_point nanobots a c hn

/-! ## The invariant that holds for every input -/

theorem Inv0_init (nanobots : List Nanobot) : Inv0 nanobots (initState nanobots) := by
  rw [initState_eq]
  refine ⟨?_, ?_, ?_, Or.inl rfl, ?_⟩
  · intro k hk0 hkl
    simp at hkl; omega
  · intro r hr
    rw [List.mem_singleton] at hr
    subst hr
    exact ⟨searchSpace_wellFormed, fun p hp => hp⟩
  · intro r hr
    rw [List.mem_singleton] at hr
    exact Or.inl hr
  · intro b hb; simp at hb

theorem Inv0_step (nanobots : List Nanobot) (s s' : State) (hI : Inv0 nanobots s)
    (h : loopBody nanobots s = some s') : Inv0 nanobots s' := by
  obtain ⟨r, rest, hpop, _, hcase⟩ := loopBody_some nanobots s s' h
  obtain ⟨hperm, hrest, _⟩ := pop_facts s.pq hI.heap r rest hpop
  have hmem : ∀ q, q ∈ s.pq ↔ q = r ∨ q ∈ rest := fun q => by
    rw [← hperm.mem_iff, List.mem_cons]
  have hr : r ∈ s.pq := (hmem r).mpr (Or.inl rfl)
  have hbox := hI.boxes r hr
  rcases hcase with ⟨hpt, e⟩ | ⟨hnp, e⟩
  · have hrni : r ≠ initialRegion nanobots := by
      intro e1; rw [e1] at hpt; exact initialRegion_not_point _ hpt
    rw [e]
    refine ⟨hrest, fun q hq => hI.boxes q ((hmem q).mpr (Or.inr hq)),
      fun q hq => hI.counts q ((hmem q).mpr (Or.inr hq)), Or.inr ?_, ?_⟩
    · intro q hq
      rcases hI.sides with e1 | e1
      · rw [e1, List.mem_singleton] at hr
        exact absurd hr hrni
      · exact e1 q ((hmem q).mpr (Or.inr hq))
    · intro b hb
      by_cases hu : updateTest s.best r = true
      · rw [if_pos hu] at hb
        have e1 : r = b := Option.some.inj hb
        subst e1
        rcases hI.counts r hr with e2 | ⟨e2, e3⟩
        · exact absurd e2 hrni
        · exact ⟨hpt, hbox.2 _ (contains_min r hbox.1), e2, e3⟩
      · rw [if_neg hu] at hb
        exact hI.bestPoint b hb
  · rw [e]
    refine ⟨isHeap_pushSubregions _ _ _ hrest, ?_, ?_, Or.inr ?_, hI.bestPoint⟩
    · intro q hq
      rcases (mem_pushSubregions _ _ _ _).mp hq with h1 | ⟨c, hc, _, e1⟩
      · exact hI.boxes q ((hmem q).mpr (Or.inr h1))
      · subst e1
        exact ⟨subregion_wellFormed r c hbox.1 hc,
          fun p hp => hbox.2 p (subregion_subset r c hbox.1 hc p hp)⟩
    · intro q hq
      rcases (mem_pushSubregions _ _ _ _).mp hq with h1 | ⟨c, hc, hpos, e1⟩
      · exact hI.counts q ((hmem q).mpr (Or.inr h1))
      · subst e1
        refine Or.inr ⟨?_, hpos⟩
        rw [boundCount_congr]
        exact countInRange_eq_boundCount nanobots c
    · intro q hq
      rcases (mem_pushSubregions _ _ _ _).mp hq with h1 | ⟨c, hc, _, e1⟩
      · rcases hI.sides with e2 | e2
        · rw [e2] at hperm
          have := hperm.length_eq
          simp at this
          rw [this] at h1
          simp at h1
        · exact e2 q ((hmem q).mpr (Or.inr h1))
      · subst e1
        rcases hI.sides with e2 | e2
        · rw [e2, List.mem_singleton] at hr
          subst hr
          exact subregion_initial_oneSided nanobots c hc
        · exact subregion_oneSided r c hbox.1 (e2 r hr) hc

/-- The invariant holds at the head of the loop, whatever the nanobots. -/
theorem Inv0_of_reachable (nanobots : List Nanobot) (s : State) (h : Reachable nanobots s) :
    Inv0 nanobots s := by
  induction h with
  | init => exact Inv0_init nanobots
  | step _ hs ih => exact Inv0_step nanobots _ _ ih hs

theorem Inv_init (nanobots : List Nanobot) : Inv nanobots (initState nanobots) := by
  refine ⟨Inv0_init nanobots, ?_, ?_, ?_, ?_⟩
  · rw [initState_eq]
    intro q hq _
    refine ⟨initialRegion nanobots, List.mem_singleton.mpr rfl, initialRegion_not_point _,
      hq, ?_, fun _ _ _ h => absurd rfl h⟩
    have := coverage_le_length nanobots q
    simp only [initialRegion]
    exact_mod_cast this
  · rw [initState_eq]; intro b hb; simp at hb
  · rw [initState_eq]; intro b hb; simp at hb
  · rw [initState_eq]; intro b hb; simp at hb

/-! ## The invariant for nanobots within reach -/

theorem manhattan_min_le (Q : Region) (q : Point)
    (hs : 0 ≤ Q.Min.X ∧ 0 ≤ Q.Min.Y ∧ 0 ≤ Q.Min.Z) (hc : Q.Contains q)
    (hsub : ∀ p, Q.Contains p → searchSpace.Contains p) :
    manhattan Q.Min origin ≤ manhattan q origin := by
  rw [manhattan_origin_eq _ (hsub _ (contains_min Q (wellFormed_of_contains Q q hc))),
    manhattan_origin_eq _ (hsub _ hc)]
  obtain ⟨sx, sy, sz⟩ := hs
  obtain ⟨⟨cx1, cx2⟩, ⟨cy1, cy2⟩, ⟨cz1, cz2⟩⟩ := hc
  simp only [exactManhattan, exactAbs, origin]
  split_ifs <;> omega

theorem lessRegion_false_count (a b : Region) (h : lessRegion a b = false) :
    a.Count ≤ b.Count := by
  rw [lessRegion_false_iff] at h; omega

/-- The invariant is kept when a single point has been popped. -/
theorem Inv_step_point (nanobots : List Nanobot) (hB : ∀ n ∈ nanobots, n.InReach)
    (s s' : State) (hI : Inv nanobots s) (hs' : Inv0 nanobots s')
    (r : Region) (rest : PriorityQueue) (hpop : heap.Pop s.pq = some (r, rest))
    (hpt : r.Min = r.Max)
    (e : s' = ⟨rest, if updateTest s.best r then some r else s.best⟩) :
    Inv nanobots s' := by
  obtain ⟨hperm, hrest, htop⟩ := pop_facts s.pq hI.heap r rest hpop
  have hmem : ∀ q, q ∈ s.pq ↔ q = r ∨ q ∈ rest := fun q => by
    rw [← hperm.mem_iff, List.mem_cons]
  have hr : r ∈ s.pq := (hmem r).mpr (Or.inl rfl)
  have hrni : r ≠ initialRegion nanobots := by
    intro e1; rw [e1] at hpt; exact initialRegion_not_point _ hpt
  have hside : ∀ q ∈ s.pq, q.OneSided := by
    rcases hI.sides with e1 | e1
    · rw [e1, List.mem_singleton] at hr
      exact absurd hr hrni
    · exact e1
  have hbox := hI.boxes r hr
  have hcnt : r.Count = coverage nanobots r.Min ∧ 0 < r.Count := by
    rcases hI.counts r hr with e1 | ⟨e1, e2⟩
    · exact absurd e1 hrni
    · rw [boundCount_of_point nanobots r hpt (noWrap_of_box nanobots hB r hbox.1 hbox.2)] at e1
      exact ⟨e1, e2⟩
  have hmax : ∀ q, searchSpace.Contains q → (coverage nanobots q : Int) ≤ r.Count := by
    intro q hq
    by_cases hc : 0 < coverage nanobots q
    · obtain ⟨Q, hQ, _, _, hQc, _⟩ := hI.frontier q hq hc
      exact le_trans hQc (lessRegion_false_count _ _ (htop Q hQ))
    · have : coverage nanobots q = 0 := by omega
      rw [this]; have := hcnt.2; push_cast; omega
  refine ⟨hs', ?_, ?_, ?_, ?_⟩
  · rw [e]
    intro q hq hc
    obtain ⟨Q, hQ, hQne, hQq, hQc⟩ := hI.frontier q hq hc
    rcases (hmem Q).mp hQ with e1 | e1
    · subst e1; exact absurd hpt hQne
    · exact ⟨Q, e1, hQne, hQq, hQc⟩
  · rw [e]
    intro b hb
    by_cases hu : updateTest s.best r = true
    · simp only [hu, if_true, Option.some.injEq] at hb
      subst hb
      exact ⟨hpt, hbox.2 _ (contains_min r hbox.1), hcnt.1, hcnt.2⟩
    · simp only [hu] at hb
      exact hI.bestExact b hb
  · rw [e]
    intro b hb
    by_cases hu : updateTest s.best r = true
    · simp only [hu, if_true, Option.some.injEq] at hb
      subst hb
      exact hmax
    · simp only [hu] at hb
      exact hI.bestMax b hb
  · rw [e]
    intro b hb
    by_cases hu : updateTest s.best r = true
    · simp only [hu, if_true, Option.some.injEq] at hb
      subst hb
      intro q hq hx hy hz hc
      have hc0 : 0 < coverage nanobots q := by
        have := hcnt.2; omega
      obtain ⟨Q, hQ, _, hQq, hQc, hQs⟩ := hI.frontier q hq hc0
      have h1 := htop Q hQ
      rw [lessRegion_false_iff] at h1
      have hQni : Q ≠ initialRegion nanobots := fun e1 =>
        initialRegion_not_oneSided nanobots (e1 ▸ hside Q hQ)
      have h2 := manhattan_min_le Q q (hQs hx hy hz hQni) hQq (hI.boxes Q hQ).2
      omega
    · simp only [hu] at hb
      exact hI.bestNear b hb

/-- The invariant is kept when a region has been popped and split. -/
theorem Inv_step_split (nanobots : List Nanobot) (hB : ∀ n ∈ nanobots, n.InReach)
    (s s' : State) (hI : Inv nanobots s) (hs' : Inv0 nanobots s')
    (r : Region) (rest : PriorityQueue) (hpop : heap.Pop s.pq = some (r, rest))
    (hnp : r.Min ≠ r.Max)
    (e : s' = ⟨pushSubregions nanobots rest (subregions r), s.best⟩) :
    Inv nanobots s' := by
  obtain ⟨hperm, hrest, htop⟩ := pop_facts s.pq hI.heap r rest hpop
  have hmem : ∀ q, q ∈ s.pq ↔ q = r ∨ q ∈ rest := fun q => by
    rw [← hperm.mem_iff, List.mem_cons]
  have hr : r ∈ s.pq := (hmem r).mpr (Or.inl rfl)
  have hbox := hI.boxes r hr
  refine ⟨hs', ?_, ?_, ?_, ?_⟩
  · rw [e]
    intro q hq hc
    obtain ⟨Q, hQ, hQne, hQq, hQc, hQs⟩ := hI.frontier q hq hc
    rcases (hmem Q).mp hQ with e1 | e1
    · subst e1
      have key : ∃ c ∈ subregions Q, c.Contains q ∧ c.Min ≠ c.Max ∧
          (0 ≤ q.X → 0 ≤ q.Y → 0 ≤ q.Z → 0 ≤ c.Min.X ∧ 0 ≤ c.Min.Y ∧ 0 ≤ c.Min.Z) := by
        by_cases hi : Q = initialRegion nanobots
        · by_cases hpos : 0 ≤ q.X ∧ 0 ≤ q.Y ∧ 0 ≤ q.Z
          · obtain ⟨c, h1, h2, h3, h4⟩ :=
              subregion_cover_initial nanobots q hq hpos.1 hpos.2.1 hpos.2.2
            rw [hi]
            exact ⟨c, h1, h2, h3, fun _ _ _ => h4⟩
          · obtain ⟨c, h1, h2, h3⟩ := subregion_cover Q hbox.1 hnp q hQq
            exact ⟨c, h1, h2, h3, fun a b d => absurd ⟨a, b, d⟩ hpos⟩
        · obtain ⟨c, h1, h2, h3⟩ := subregion_cover Q hbox.1 hnp q hQq
          exact ⟨c, h1, h2, h3, fun a b d =>
            subregion_min_nonneg Q c hbox.1 h1 (hQs a b d hi)⟩
      obtain ⟨c, hcm, hcq, hcne, hcs⟩ := key
      have hcw := subregion_wellFormed Q c hbox.1 hcm
      have hcsub : ∀ p, c.Contains p → searchSpace.Contains p :=
        fun p hp => hbox.2 p (subregion_subset Q c hbox.1 hcm p hp)
      have h1 := coverage_le_boundCount nanobots c q
        (noWrap_of_box nanobots hB c hcw hcsub) hcq
      have h2 := countInRange_eq_boundCount nanobots c
      have hpos : 0 < countInRange nanobots c := by omega
      refine ⟨⟨c.Min, c.Max, countInRange nanobots c⟩,
        (mem_pushSubregions _ _ _ _).mpr (Or.inr ⟨c, hcm, hpos, rfl⟩), hcne, hcq, ?_,
        fun a b d _ => hcs a b d⟩
      simp only
      omega
    · exact ⟨Q, (mem_pushSubregions _ _ _ _).mpr (Or.inl e1), hQne, hQq, hQc, hQs⟩
  · rw [e]; exact hI.bestExact
  · rw [e]; exact hI.bestMax
  · rw [e]; exact hI.bestNear

theorem Inv_step (nanobots : List Nanobot) (hB : ∀ n ∈ nanobots, n.InReach)
    (s s' : State) (hI : Inv nanobots s) (h : loopBody nanobots s = some s') :
    Inv nanobots s' := by
  have hs' := Inv0_step nanobots s s' hI.toInv0 h
  obtain ⟨r, rest, hpop, _, ⟨hpt, e⟩ | ⟨hnp, e⟩⟩ := loopBody_some nanobots s s' h
  · exact Inv_step_point nanobots hB s s' hI hs' r rest hpop hpt e
  · exact Inv_step_split nanobots hB s s' hI hs' r rest hpop hnp e

/-- The invariant holds at the head of the loop when every nanobot is within
reach of the initial box. -/
theorem Inv_of_reachable (nanobots : List Nanobot) (hB : ∀ n ∈ nanobots, n.InReach)
    (s : State) (h : Reachable nanobots s) : Inv nanobots s := by
  induction h with
  | init => exact Inv_init nanobots
  | step _ hs ih => exact Inv_step nanobots hB _ _ ih hs

theorem reachable_of_stateAfter (nanobots : List Nanobot) (n : Nat) (s : State)
    (h : stateAfter nanobots n = some s) : Reachable nanobots s := by
  induction n generalizing s with
  | zero =>
    simp only [stateAfter, Option.some.injEq] at h
    subst h; exact Reachable.init
  | succ n ih =>
    simp only [stateAfter] at h
    cases hp : stateAfter nanobots n with
    | none => rw [hp] at h; simp at h
    | some t =>
      rw [hp] at h
      exact Reachable.step (ih t hp) h

theorem stateAfter_of_reachable (nanobots : List Nanobot) (s : State)
    (h : Reachable nanobots s) : ∃ n, stateAfter nanobots n = some s := by
  induction h with
  | init => exact ⟨0, rfl⟩
  | step _ hs ih =>
    obtain ⟨n, hn⟩ := ih
    exact ⟨n + 1, by simp only [stateAfter, hn, Option.some_bind]; exact hs⟩

/-! ## The loop does not exit once a point is covered -/

theorem coverage_pos_of_inRange (nanobots : List Nanobot) (n : Nanobot) (hn : n ∈ nanobots)
    (p : Point) (h : inRangeOfPoint n p = true) : 0 < coverage nanobots p :=
  List.countP_pos_iff.mpr ⟨n, hn, h⟩

/-- A nanobot within reach that is in range of the initial region covers a point
of the initial box. -/
theorem covered_point_of_inRange (nanobots : List Nanobot)
    (hB : ∀ n ∈ nanobots, n.InReach)
    (h : ∃ n ∈ nanobots, inRangeOfRegion n (initialRegion nanobots) = true) :
    ∃ q, searchSpace.Contains q ∧ 0 < coverage nanobots q := by
  obtain ⟨n, hn, hr⟩ := h
  refine ⟨closestPoint n (initialRegion nanobots), ?_, ?_⟩
  · exact closestPoint_contains n (initialRegion nanobots) searchSpace_wellFormed
  · exact coverage_pos_of_inRange nanobots n hn _
      (inRangeOfPoint_closestPoint n _ searchSpace_wellFormed (hB n hn) hr)

/-- The popped region never has a smaller count than `best`: the `break` of
line 100 is not taken. -/
theorem breakTest_false (nanobots : List Nanobot) (s : State) (hI : Inv nanobots s)
    (r : Region) (rest : PriorityQueue) (hpop : heap.Pop s.pq = some (r, rest)) :
    breakTest s.best r = false := by
  obtain ⟨_, _, htop⟩ := pop_facts s.pq hI.heap r rest hpop
  cases hb : s.best with
  | none => rfl
  | some b =>
    obtain ⟨_, hin, hc, hpos⟩ := hI.bestExact b hb
    have hc0 : 0 < coverage nanobots b.Min := by omega
    obtain ⟨Q, hQ, _, _, hQc, _⟩ := hI.frontier b.Min hin hc0
    have := lessRegion_false_count _ _ (htop Q hQ)
    simp only [breakTest, decide_eq_false_iff_not]
    omega

theorem loopBody_isSome (nanobots : List Nanobot) (s : State) (hI : Inv nanobots s)
    (hq : ∃ q, searchSpace.Contains q ∧ 0 < coverage nanobots q) :
    ∃ s', loopBody nanobots s = some s' := by
  obtain ⟨q, hq1, hq2⟩ := hq
  obtain ⟨Q, hQ, _⟩ := hI.frontier q hq1 hq2
  have hne : s.pq ≠ [] := List.ne_nil_of_mem hQ
  obtain ⟨r, rest, hpop, _⟩ := heap_Pop_spec s.pq hne hI.heap
  have hb := breakTest_false nanobots s hI r rest hpop
  unfold loopBody
  rw [hpop]
  simp only [hb, Bool.false_eq_true, if_false]
  by_cases hpt : r.Min = r.Max
  · rw [if_pos hpt]; exact ⟨_, rfl⟩
  · rw [if_neg hpt]; exact ⟨_, rfl⟩

theorem runLoop_none (nanobots : List Nanobot) (hB : ∀ n ∈ nanobots, n.InReach)
    (hq : ∃ q, searchSpace.Contains q ∧ 0 < coverage nanobots q) (fuel : Nat) (s : State)
    (hI : Inv nanobots s) : runLoop nanobots fuel s = none := by
  induction fuel generalizing s with
  | zero => rfl
  | succ fuel ih =>
    obtain ⟨s', hs⟩ := loopBody_isSome nanobots s hI hq
    simp only [runLoop, hs]
    exact ih s' (Inv_step nanobots hB s s' hI hs)

/-- With a nanobot in range of the initial region, and all nanobots within
reach, `findBestPoint` does not return, whatever the fuel. -/
theorem findBestPoint_none (nanobots : List Nanobot) (hB : ∀ n ∈ nanobots, n.InReach)
    (h : ∃ n ∈ nanobots, inRangeOfRegion n (initialRegion nanobots) = true) (fuel : Nat) :
    findBestPoint nanobots fuel = none :=
  runLoop_none nanobots hB (covered_point_of_inRange nanobots hB h) fuel _ (Inv_init nanobots)

theorem stateAfter_isSome (nanobots : List Nanobot) (hB : ∀ n ∈ nanobots, n.InReach)
    (hq : ∃ q, searchSpace.Contains q ∧ 0 < coverage nanobots q) (n : Nat) :
    ∃ s, stateAfter nanobots n = some s := by
  induction n with
  | zero => exact ⟨_, rfl⟩
  | succ n ih =>
    obtain ⟨s, hs⟩ := ih
    have hI := Inv_of_reachable nanobots hB s (reachable_of_stateAfter nanobots n s hs)
    obtain ⟨s', hs'⟩ := loopBody_isSome nanobots s hI hq
    exact ⟨s', by simp only [stateAfter, hs, Option.some_bind]; exact hs'⟩

/-- Once set, `best` is not replaced. -/
theorem best_stable (nanobots : List Nanobot) (hB : ∀ n ∈ nanobots, n.InReach)
    (s s' : State) (hI : Inv nanobots s)
    (b : Region) (hb : s.best = some b) (h : loopBody nanobots s = some s') :
    s'.best = some b := by
  obtain ⟨r, rest, hpop, _, ⟨hpt, e⟩ | ⟨_, e⟩⟩ := loopBody_some nanobots s s' h
  · obtain ⟨hperm, _, _⟩ := pop_facts s.pq hI.heap r rest hpop
    have hr : r ∈ s.pq := hperm.mem_iff.mp (List.mem_cons_self _ _)
    have hbox := hI.boxes r hr
    have hin : searchSpace.Contains r.Min := hbox.2 _ (contains_min r hbox.1)
    have hcnt : r.Count = coverage nanobots r.Min := by
      rcases hI.counts r hr with e1 | ⟨e1, _⟩
      · rw [e1] at hpt; exact absurd hpt (initialRegion_not_point _)
      · rw [boundCount_of_point nanobots r hpt
          (noWrap_of_box nanobots hB r hbox.1 hbox.2)] at e1
        exact e1
    have hmax := hI.bestMax b hb r.Min hin
    have hu : updateTest s.best r = false := by
      rw [hb]; simp only [updateTest, decide_eq_false_iff_not]; omega
    rw [e, hu]; simpa using hb
  · rw [e]; exact hb

theorem best_stable_stateAfter (nanobots : List Nanobot) (hB : ∀ n ∈ nanobots, n.InReach)
    (b : Region) (k n : Nat)
    (s t : State) (hs : stateAfter nanobots k = some s) (hb : s.best = some b)
    (ht : stateAfter nanobots (k + n) = some t) : t.best = some b := by
  induction n generalizing t with
  | zero =>
    rw [Nat.add_zero, hs] at ht
    rw [← Option.some.inj ht]; exact hb
  | succ n ih =>
    have e : stateAfter nanobots (k + (n + 1)) =
        (stateAfter nanobots (k + n)).bind (loopBody nanobots) := rfl
    rw [e] at ht
    cases hp : stateAfter nanobots (k + n) with
    | none => rw [hp] at ht; simp at ht
    | some u =>
      rw [hp] at ht
      have hI := Inv_of_reachable nanobots hB u (reachable_of_stateAfter nanobots _ u hp)
      exact best_stable nanobots hB u t hI b (ih u hp) ht

theorem stateAfter_eq_stateAt (nanobots : List Nanobot) (n : Nat)
    (h : (stateAfter nanobots n).isSome = true) :
    stateAfter nanobots n = some (stateAt nanobots n) := by
  unfold stateAt
  cases hs : stateAfter nanobots n with
  | none => rw [hs] at h; simp at h
  | some s => rfl

theorem reachable_stateAt (nanobots : List Nanobot) (n : Nat)
    (h : (stateAfter nanobots n).isSome = true) : Reachable nanobots (stateAt nanobots n) :=
  reachable_of_stateAfter nanobots n _ (stateAfter_eq_stateAt nanobots n h)

/-- What `findBestPoint` returns is the `best` of a state at the head of its loop. -/
theorem runLoop_some (nanobots : List Nanobot) (fuel : Nat) (s : State) (o : Option Region)
    (hs : Reachable nanobots s) (h : runLoop nanobots fuel s = some o) :
    ∃ t, Reachable nanobots t ∧ t.best = o := by
  induction fuel generalizing s with
  | zero => simp [runLoop] at h
  | succ fuel ih =>
    simp only [runLoop] at h
    cases hb : loopBody nanobots s with
    | none =>
      rw [hb] at h
      exact ⟨s, hs, Option.some.inj h⟩
    | some s' =>
      rw [hb] at h
      exact ih s' (Reachable.step hs hb) h

theorem two_nanobots_disjoint (p : Point) :
    ¬ (inRangeOfPoint ⟨0, 0, 0, 4⟩ p = true ∧ inRangeOfPoint ⟨10, 0, 0, 5⟩ p = true) := by
  simp only [inRangeOfPoint, Nanobot.centre, exactManhattan, exactAbs, decide_eq_true_eq]
  split_ifs <;> omega

theorem two_nanobots_coverage_le_one (p : Point) :
    coverage [⟨0, 0, 0, 4⟩, ⟨10, 0, 0, 5⟩] p ≤ 1 := by
  have h := two_nanobots_disjoint p
  simp only [coverage, List.countP_cons, List.countP_nil]
  by_cases h1 : inRangeOfPoint ⟨0, 0, 0, 4⟩ p = true
  · by_cases h2 : inRangeOfPoint ⟨10, 0, 0, 5⟩ p = true
    · exact absurd ⟨h1, h2⟩ h
    · simp [h1, h2]
  · by_cases h2 : inRangeOfPoint ⟨10, 0, 0, 5⟩ p = true
    · simp [h1, h2]
    · simp [h1, h2]

/-! ## Further lemmas -/

theorem Built_isHeap (pq : PriorityQueue) (h : Built pq) : IsHeap pq := by
  induction h with
  | empty => exact IsHeap_nil
  | push x _ ih => exact heap_Push_isHeap _ x ih
  | @pop pq rest r _ hp ih =>
    have hne : pq ≠ [] := by
      intro e
      rw [(heap_Pop_eq_none pq).mpr e] at hp
      simp at hp
    obtain ⟨r', rest', h1, _, _, h4, _⟩ := heap_Pop_spec pq hne ih
    rw [h1] at hp
    simp only [Option.some.injEq, Prod.mk.injEq] at hp
    rw [← hp.2]
    exact h4

theorem floor_half (a : Int) : ⌊(a : ℚ) / 2⌋ = a / 2 := by
  have := Rat.floor_intCast_div_natCast a 2
  simpa using this

/-- The subregions are built from the split coordinates of the three axes. -/
theorem subregions_eq_split (region : Region) :
    subregions region =
      [ ⟨region.Min, ⟨splitCoordinate region.Min.X region.Max.X,
          splitCoordinate region.Min.Y region.Max.Y,
          splitCoordinate region.Min.Z region.Max.Z⟩, 0⟩,
        ⟨⟨splitCoordinate region.Min.X region.Max.X, region.Min.Y, region.Min.Z⟩,
          ⟨region.Max.X, splitCoordinate region.Min.Y region.Max.Y,
            splitCoordinate region.Min.Z region.Max.Z⟩, 0⟩,
        ⟨⟨region.Min.X, splitCoordinate region.Min.Y region.Max.Y, region.Min.Z⟩,
          ⟨splitCoordinate region.Min.X region.Max.X, region.Max.Y,
            splitCoordinate region.Min.Z region.Max.Z⟩, 0⟩,
        ⟨⟨splitCoordinate region.Min.X region.Max.X,
            splitCoordinate region.Min.Y region.Max.Y, region.Min.Z⟩,
          ⟨region.Max.X, region.Max.Y, splitCoordinate region.Min.Z region.Max.Z⟩, 0⟩,
        ⟨⟨region.Min.X, region.Min.Y, splitCoordinate region.Min.Z region.Max.Z⟩,
          ⟨splitCoordinate region.Min.X region.Max.X,
            splitCoordinate region.Min.Y region.Max.Y, region.Max.Z⟩, 0⟩,
        ⟨⟨splitCoordinate region.Min.X region.Max.X, region.Min.Y,
            splitCoordinate region.Min.Z region.Max.Z⟩,
          ⟨region.Max.X, splitCoordinate region.Min.Y region.Max.Y, region.Max.Z⟩, 0⟩,
        ⟨⟨region.Min.X, splitCoordinate region.Min.Y region.Max.Y,
            splitCoordinate region.Min.Z region.Max.Z⟩,
          ⟨splitCoordinate region.Min.X region.Max.X, region.Max.Y, region.Max.Z⟩, 0⟩,
        ⟨⟨splitCoordinate region.Min.X region.Max.X,
            splitCoordinate region.Min.Y region.Max.Y,
            splitCoordinate region.Min.Z region.Max.Z⟩, region.Max, 0⟩ ] := rfl

/-- Every point of a region lies in one of its subregions. -/
theorem subregion_cover_any (r : Region) (p : Point) (hp : r.Contains p) :
    ∃ c ∈ subregions r, c.Contains p := by
  obtain ⟨⟨px1, px2⟩, ⟨py1, py2⟩, ⟨pz1, pz2⟩⟩ := hp
  obtain ⟨ax, bx, ex, lx, ux, _⟩ := axis_half _ _ _ px1 px2
  obtain ⟨ay, yb, ey, ly, uy, _⟩ := axis_half _ _ _ py1 py2
  obtain ⟨az, bz, ez, lz, uz, _⟩ := axis_half _ _ _ pz1 pz2
  refine ⟨⟨⟨ax, ay, az⟩, ⟨bx, yb, bz⟩, 0⟩, ?_, ⟨⟨lx, ux⟩, ⟨ly, uy⟩, ⟨lz, uz⟩⟩⟩
  rw [mem_subregions_iff]
  exact ⟨rfl, ex, ey, ez⟩

/-- In every state at the head of the loop the queue is a heap and the count of
each queued region is at least the number of nanobots in range of it. -/
theorem reachable_heap_admissible (nanobots : List Nanobot) (s : State)
    (hs : Reachable nanobots s) :
    IsHeap s.pq ∧ ∀ q ∈ s.pq, (boundCount nanobots q : Int) ≤ q.Count := by
  have hI := Inv0_of_reachable nanobots s hs
  refine ⟨hI.heap, fun q hq => ?_⟩
  rcases hI.counts q hq with e | ⟨e, _⟩
  · rw [e]
    have : boundCount nanobots (initialRegion nanobots) ≤ nanobots.length :=
      List.countP_le_length _
    simp only [initialRegion]
    exact_mod_cast this
  · omega

/-! ## The test as computed and the exact distance -/

/-- A nanobot whose radius is a 64-bit value and that has a point of the box in
range passes `inRangeOfRegion` on the box: a distance that is at most the radius
does not wrap around. -/
theorem inRangeOfRegion_of_exact_point (n : Nanobot) (r : Region) (p : Point)
    (hR : n.R ≤ 9223372036854775807) (hp : r.Contains p)
    (h : inRangeOfPoint n p = true) : inRangeOfRegion n r = true := by
  rw [inRangeOfPoint, decide_eq_true_eq] at h
  have h1 := closestPoint_le n r p hp
  have h2 : exactManhattan n.centre (closestPoint n r) ≤ 9223372036854775807 := by omega
  rw [inRangeOfRegion_eq, decide_eq_true_eq]
  have h3 := manhattan_eq_exact n.centre (closestPoint n r) h2
  simp only [Nanobot.centre] at h1 h3 h
  rw [h3]
  omega

/-- With 64-bit radii the number of nanobots for which `inRangeOfRegion` holds
of a box is at least the number of nanobots that have a given point of the box
in range. -/
theorem coverage_le_boundCount_of_radius (nanobots : List Nanobot) (r : Region) (p : Point)
    (hR : ∀ n ∈ nanobots, n.R ≤ 9223372036854775807) (hp : r.Contains p) :
    coverage nanobots p ≤ boundCount nanobots r :=
  List.countP_mono_left fun n hn h => inRangeOfRegion_of_exact_point n r p (hR n hn) hp h

/-- Where no distance wraps the computed test counts the nanobots that have the
point in range. -/
theorem testCount_eq_coverage (nanobots : List Nanobot) (r : Region) (p : Point)
    (hn : ∀ n ∈ nanobots, NoWrap n r) (hp : r.Contains p) :
    testCount nanobots p = coverage nanobots p := by
  unfold testCount coverage
  apply List.countP_congr
  intro n hm
  rw [inRangeOfPoint, manhattan_eq_of_noWrap n r p (hn n hm) hp]
  rfl

/-- At a single point the count of `inRangeOfRegion` is the count of the
computed point test. -/
theorem boundCount_eq_testCount (nanobots : List Nanobot) (r : Region) (h : r.Min = r.Max) :
    boundCount nanobots r = testCount nanobots r.Min := by
  obtain ⟨a, b, c⟩ := r
  simp only at h
  subst h
  unfold boundCount testCount
  apply List.countP_congr
  intro n _
  rw [inRangeOfRegion_point]

/-- A nanobot in range of a region is in range of one of its subregions: the
closest point is the same in the subregion that contains it. -/
theorem inRangeOfRegion_subregion (n : Nanobot) (r : Region) (hr : r.WellFormed)
    (h : inRangeOfRegion n r = true) : ∃ c ∈ subregions r, inRangeOfRegion n c = true := by
  obtain ⟨c, hc, hcp⟩ := subregion_cover_any r (closestPoint n r)
    (closestPoint_contains n r hr)
  refine ⟨c, hc, ?_⟩
  have hsub := subregion_subset r c hr hc
  have hcw := subregion_wellFormed r c hr hc
  have hmin := hsub _ (contains_min c hcw)
  have hmax := hsub _ (contains_max c hcw)
  obtain ⟨⟨a1, a2⟩, ⟨a3, a4⟩, ⟨a5, a6⟩⟩ := hmin
  obtain ⟨⟨b1, b2⟩, ⟨b3, b4⟩, ⟨b5, b6⟩⟩ := hmax
  obtain ⟨⟨c1, c2⟩, ⟨c3, c4⟩, ⟨c5, c6⟩⟩ := hcp
  simp only [closestPoint] at c1 c2 c3 c4 c5 c6
  have e : closestPoint n c = closestPoint n r := by
    simp only [closestPoint]
    rw [clamp_sub n.X r.Min.X r.Max.X c.Min.X c.Max.X a1 b2 c1 c2,
      clamp_sub n.Y r.Min.Y r.Max.Y c.Min.Y c.Max.Y a3 b4 c3 c4,
      clamp_sub n.Z r.Min.Z r.Max.Z c.Min.Z c.Max.Z a5 b6 c5 c6]
  rw [inRangeOfRegion_eq, e, ← inRangeOfRegion_eq]
  exact h

/-! ## 64-bit arithmetic on the initial box -/

theorem exactAbs_le_of_bounds (x m : Int) (h1 : -m ≤ x) (h2 : x ≤ m) : exactAbs x ≤ m := by
  unfold exactAbs; split_ifs <;> omega

theorem clamp_inInt32 (v lo hi : Int) (hv : InInt32 v) (hlo : InInt32 lo) (hhi : InInt32 hi) :
    InInt32 (clamp v lo hi) := by
  unfold clamp; split_ifs <;> assumption

/-- On points whose coordinates fit in 32 bits no step of `manhattan` leaves the
64-bit range, and `manhattan` gives the exact distance. -/
theorem manhattan_int32 (a b : Point)
    (hax : InInt32 a.X) (hay : InInt32 a.Y) (haz : InInt32 a.Z)
    (hbx : InInt32 b.X) (hby : InInt32 b.Y) (hbz : InInt32 b.Z) :
    (InInt64 (a.X - b.X) ∧ InInt64 (a.Y - b.Y) ∧ InInt64 (a.Z - b.Z)) ∧
    (InInt64 (-(a.X - b.X)) ∧ InInt64 (-(a.Y - b.Y)) ∧ InInt64 (-(a.Z - b.Z))) ∧
    (InInt64 (exactAbs (a.X - b.X)) ∧ InInt64 (exactAbs (a.Y - b.Y)) ∧
      InInt64 (exactAbs (a.Z - b.Z))) ∧
    InInt64 (exactAbs (a.X - b.X) + exactAbs (a.Y - b.Y)) ∧
    InInt64 (exactAbs (a.X - b.X) + exactAbs (a.Y - b.Y) + exactAbs (a.Z - b.Z)) ∧
    manhattan a b = exactManhattan a b := by
  unfold InInt32 at hax hay haz hbx hby hbz
  have ux := exactAbs_le_of_bounds (a.X - b.X) 4294967295 (by omega) (by omega)
  have uy := exactAbs_le_of_bounds (a.Y - b.Y) 4294967295 (by omega) (by omega)
  have uz := exactAbs_le_of_bounds (a.Z - b.Z) 4294967295 (by omega) (by omega)
  have lx := exactAbs_ge_zero (a.X - b.X)
  have ly := exactAbs_ge_zero (a.Y - b.Y)
  have lz := exactAbs_ge_zero (a.Z - b.Z)
  refine ⟨⟨?_, ?_, ?_⟩, ⟨?_, ?_, ?_⟩, ⟨?_, ?_, ?_⟩, ?_, ?_, ?_⟩
  any_goals (unfold InInt64; omega)
  apply manhattan_eq_exact
  unfold exactManhattan
  omega

/-- On every region in the queue of `findBestPoint` the sum `Min + Max` of the
split does not wrap: the split coordinate computed in 64 bits is the exact
one. -/
theorem queued_split_exact (nanobots : List Nanobot) (s : State)
    (hs : Reachable nanobots s) (r : Region) (hr : r ∈ s.pq) :
    splitCoordinate64 r.Min.X r.Max.X = splitCoordinate r.Min.X r.Max.X ∧
    splitCoordinate64 r.Min.Y r.Max.Y = splitCoordinate r.Min.Y r.Max.Y ∧
    splitCoordinate64 r.Min.Z r.Max.Z = splitCoordinate r.Min.Z r.Max.Z := by
  obtain ⟨hwf, hsub⟩ := (Inv0_of_reachable nanobots s hs).boxes r hr
  obtain ⟨⟨a1, a2⟩, ⟨a3, a4⟩, ⟨a5, a6⟩⟩ := hsub _ (contains_min r hwf)
  obtain ⟨⟨b1, b2⟩, ⟨b3, b4⟩, ⟨b5, b6⟩⟩ := hsub _ (contains_max r hwf)
  simp only [searchSpace, initialRegion, MinInt32, MaxInt32] at a1 a2 a3 a4 a5 a6 b1 b2 b3 b4 b5 b6
  refine ⟨?_, ?_, ?_⟩ <;>
    · unfold splitCoordinate64 splitCoordinate
      rw [wrap64_eq _ (by unfold InInt64; omega)]

/-! ## Regions of extent at most 1 -/

/-- A region with a single-point subregion has extent at most 1 on every axis. -/
theorem small_of_point_subregion (r c : Region) (hr : r.WellFormed) (hc : c ∈ subregions r)
    (hp : c.Min = c.Max) : r.Small := by
  rw [mem_subregions_iff] at hc
  obtain ⟨hx, hy, hz⟩ := hr
  have tx := tdiv_two_bounds (r.Min.X + r.Max.X)
  have ty := tdiv_two_bounds (r.Min.Y + r.Max.Y)
  have tz := tdiv_two_bounds (r.Min.Z + r.Max.Z)
  obtain ⟨_, cx, cy, cz⟩ := hc
  have ex : c.Min.X = c.Max.X := by rw [hp]
  have ey : c.Min.Y = c.Max.Y := by rw [hp]
  have ez : c.Min.Z = c.Max.Z := by rw [hp]
  refine ⟨?_, ?_, ?_⟩ <;> omega

/-- A region of extent at most 1 on every axis is one of its own subregions. -/
theorem self_mem_subregions (r : Region) (hr : r.WellFormed) (hs : r.Small) :
    (⟨r.Min, r.Max, 0⟩ : Region) ∈ subregions r := by
  rw [mem_subregions_iff]
  obtain ⟨hx, hy, hz⟩ := hr
  obtain ⟨sx, sy, sz⟩ := hs
  have tx := tdiv_two_bounds (r.Min.X + r.Max.X)
  have ty := tdiv_two_bounds (r.Min.Y + r.Max.Y)
  have tz := tdiv_two_bounds (r.Min.Z + r.Max.Z)
  refine ⟨rfl, ?_, ?_, ?_⟩ <;> simp only [true_and, and_true] <;> omega

theorem initialRegion_not_small (nanobots : List Nanobot) :
    ¬ (initialRegion nanobots).Small := by
  simp [initialRegion, MinInt32, MaxInt32, Region.Small]

/-- A queued region of extent at most 1 that is popped and split is pushed again
as it is. -/
theorem small_region_repushed (nanobots : List Nanobot) (s : State) (hI : Inv0 nanobots s)
    (r : Region) (hr : r ∈ s.pq) (hs : r.Small) (rest : PriorityQueue) :
    r ∈ pushSubregions nanobots rest (subregions r) := by
  have hwf := (hI.boxes r hr).1
  rcases hI.counts r hr with e | ⟨e1, e2⟩
  · rw [e] at hs; exact absurd hs (initialRegion_not_small nanobots)
  · have h1 : countInRange nanobots ⟨r.Min, r.Max, 0⟩ = r.Count := by
      rw [countInRange_eq_boundCount, boundCount_congr, e1]
    rw [mem_pushSubregions]
    refine Or.inr ⟨⟨r.Min, r.Max, 0⟩, self_mem_subregions r hwf hs, by omega, ?_⟩
    rw [h1]

theorem SmallInv_init (nanobots : List Nanobot) : SmallInv (initState nanobots) := by
  rw [initState_eq]
  constructor
  · intro p hp hpt
    rw [List.mem_singleton] at hp
    rw [hp] at hpt
    exact absurd hpt (initialRegion_not_point nanobots)
  · intro b hb; simp at hb

/-- A cover in the old queue gives a cover in the queue after a split. -/
theorem cover_after_split (nanobots : List Nanobot) (s : State) (hI : Inv0 nanobots s)
    (r : Region) (rest : PriorityQueue) (hmem : ∀ q, q ∈ s.pq ↔ q = r ∨ q ∈ rest)
    (p : Point) (c : Int) (h : HasSmallCover s.pq p c) :
    HasSmallCover (pushSubregions nanobots rest (subregions r)) p c := by
  obtain ⟨P, hP, h1, h2, h3, h4⟩ := h
  rcases (hmem P).mp hP with e | e
  · subst e
    exact ⟨P, small_region_repushed nanobots s hI P hP h1 rest, h1, h2, h3, h4⟩
  · exact ⟨P, (mem_pushSubregions _ _ _ _).mpr (Or.inl e), h1, h2, h3, h4⟩

theorem SmallInv_step (nanobots : List Nanobot) (hB : ∀ n ∈ nanobots, n.InReach)
    (s s' : State) (hI : Inv0 nanobots s)
    (hS : SmallInv s) (h : loopBody nanobots s = some s') : SmallInv s' := by
  obtain ⟨r, rest, hpop, _, ⟨hpt, e⟩ | ⟨hnp, e⟩⟩ := loopBody_some nanobots s s' h
  · obtain ⟨hperm, _, _⟩ := pop_facts s.pq hI.heap r rest hpop
    have hmem : ∀ q, q ∈ s.pq ↔ q = r ∨ q ∈ rest := fun q => by
      rw [← hperm.mem_iff, List.mem_cons]
    have keep : ∀ p c, HasSmallCover s.pq p c → HasSmallCover rest p c := by
      rintro p c ⟨P, hP, h1, h2, h3, h4⟩
      rcases (hmem P).mp hP with e1 | e1
      · subst e1; exact absurd hpt h2
      · exact ⟨P, e1, h1, h2, h3, h4⟩
    rw [e]
    constructor
    · intro p hp hpp
      exact keep _ _ (hS.points p ((hmem p).mpr (Or.inr hp)) hpp)
    · intro b hb
      by_cases hu : updateTest s.best r = true
      · simp only [hu, if_true, Option.some.injEq] at hb
        subst hb
        exact keep _ _ (hS.points r ((hmem r).mpr (Or.inl rfl)) hpt)
      · simp only [hu] at hb
        exact keep _ _ (hS.best b hb)
  · obtain ⟨hperm, _, _⟩ := pop_facts s.pq hI.heap r rest hpop
    have hmem : ∀ q, q ∈ s.pq ↔ q = r ∨ q ∈ rest := fun q => by
      rw [← hperm.mem_iff, List.mem_cons]
    have hr : r ∈ s.pq := (hmem r).mpr (Or.inl rfl)
    have hwf := (hI.boxes r hr).1
    rw [e]
    constructor
    · intro p hp hpp
      rcases (mem_pushSubregions _ _ _ _).mp hp with h1 | ⟨c, hc, hpos, e1⟩
      · exact cover_after_split nanobots s hI r rest hmem _ _
          (hS.points p ((hmem p).mpr (Or.inr h1)) hpp)
      · subst e1
        simp only at hpp
        have hsmall := small_of_point_subregion r c hwf hc hpp
        have hcwf := subregion_wellFormed r c hwf hc
        have hin : r.Contains c.Min :=
          subregion_subset r c hwf hc c.Min
            ⟨⟨le_refl _, hcwf.1⟩, ⟨le_refl _, hcwf.2.1⟩, ⟨le_refl _, hcwf.2.2⟩⟩
        have hcount : countInRange nanobots c ≤ r.Count := by
          rcases hI.counts r hr with e2 | ⟨e2, _⟩
          · rw [e2] at hsmall; exact absurd hsmall (initialRegion_not_small nanobots)
          · have := boundCount_mono nanobots c r hcwf (subregion_subset r c hwf hc)
              (noWrap_of_box nanobots hB r hwf (hI.boxes r hr).2)
            rw [countInRange_eq_boundCount, e2]
            exact_mod_cast this
        exact ⟨r, small_region_repushed nanobots s hI r hr hsmall rest, hsmall, hnp, hin,
          hcount⟩
    · intro b hb
      exact cover_after_split nanobots s hI r rest hmem _ _ (hS.best b hb)

theorem SmallInv_of_reachable (nanobots : List Nanobot) (hB : ∀ n ∈ nanobots, n.InReach)
    (s : State) (h : Reachable nanobots s) : SmallInv s := by
  induction h with
  | init => exact SmallInv_init nanobots
  | step hs hb ih =>
    exact SmallInv_step nanobots hB _ _ (Inv0_of_reachable nanobots _ hs) ih hb

theorem pushSubregions_nothing (nanobots : List Nanobot) (pq : PriorityQueue)
    (subs : List Region) (h : ∀ c ∈ subs, ¬ countInRange nanobots c > 0) :
    pushSubregions nanobots pq subs = pq := by
  induction subs generalizing pq with
  | nil => rfl
  | cons c subs ih =>
    have e : pushSubregions nanobots pq (c :: subs) =
        pushSubregions nanobots
          (if countInRange nanobots c > 0 then
            heap.Push pq ⟨c.Min, c.Max, countInRange nanobots c⟩ else pq) subs := rfl
    rw [e, if_neg (h c (List.mem_cons_self _ _))]
    exact ih pq (fun d hd => h d (List.mem_cons_of_mem _ hd))

theorem heap_Pop_singleton (x : Region) : heap.Pop [x] = some (x, []) := by
  simp [heap.Pop, PriorityQueue.Len, PriorityQueue.Swap, PriorityQueue.Pop, heap.down]

theorem heap_Pop_nil : heap.Pop [] = none := by
  simp [heap.Pop, PriorityQueue.Len]

/-- With no nanobot in range of the initial region, and every nanobot within
reach, the first pass empties the queue. -/
theorem loopBody_init_of_none_inRange (nanobots : List Nanobot)
    (hB : ∀ n ∈ nanobots, n.InReach)
    (h : ∀ n ∈ nanobots, inRangeOfRegion n (initialRegion nanobots) = false) :
    loopBody nanobots (initState nanobots) = some ⟨[], none⟩ := by
  have hz : boundCount nanobots (initialRegion nanobots) = 0 := by
    unfold boundCount
    rw [List.countP_eq_zero]
    intro n hn
    rw [h n hn]
    simp
  have hsub : ∀ c ∈ subregions (initialRegion nanobots), ¬ countInRange nanobots c > 0 := by
    intro c hc
    have := boundCount_mono nanobots c (initialRegion nanobots)
      (subregion_wellFormed _ c searchSpace_wellFormed hc)
      (subregion_subset _ c searchSpace_wellFormed hc) hB
    rw [countInRange_eq_boundCount]
    omega
  rw [initState_eq]
  unfold loopBody
  simp only [heap_Pop_singleton, breakTest, Bool.false_eq_true, if_false,
    if_neg (initialRegion_not_point nanobots)]
  rw [pushSubregions_nothing nanobots [] _ hsub]

/-! ## The run on `farPair` -/

theorem clamp_above (v lo hi : Int) (h1 : lo ≤ hi) (h2 : hi < v) : clamp v lo hi = hi := by
  unfold clamp; split_ifs <;> omega

theorem clamp_below (v lo hi : Int) (h : v < lo) : clamp v lo hi = lo := by
  unfold clamp; rw [if_pos h]

/-- The first nanobot of `farPair` fails `inRangeOfRegion` on a box of the
non-negative octant whose `Max` corner is not the origin: the distance to the
`Max` corner is below `2^63` and does not wrap. -/
theorem farPair_first_false (r : Region)
    (hx : 0 ≤ r.Min.X ∧ r.Min.X ≤ r.Max.X ∧ r.Max.X ≤ 2147483647)
    (hy : 0 ≤ r.Min.Y ∧ r.Min.Y ≤ r.Max.Y ∧ r.Max.Y ≤ 2147483647)
    (hz : 0 ≤ r.Min.Z ∧ r.Min.Z ≤ r.Max.Z ∧ r.Max.Z ≤ 2147483647)
    (hs : 0 < r.Max.X + r.Max.Y + r.Max.Z) :
    inRangeOfRegion ⟨farCoordinate, farCoordinate, farCoordinate - 1, 0⟩ r = false := by
  rw [inRangeOfRegion_eq, decide_eq_false_iff_not]
  simp only [closestPoint, farCoordinate]
  rw [clamp_above _ _ _ hx.2.1 (by omega), clamp_above _ _ _ hy.2.1 (by omega),
    clamp_above _ _ _ hz.2.1 (by omega)]
  have e := manhattan_eq_exact
    ⟨3074457345618258603, 3074457345618258603, 3074457345618258603 - 1⟩ r.Max
    (by simp only [exactManhattan, exactAbs]; split_ifs <;> omega)
  rw [e]
  simp only [exactManhattan, exactAbs]
  split_ifs <;> omega

/-- The second nanobot of `farPair` passes `inRangeOfRegion` on every box of the
non-negative octant: the distance to the `Min` corner is at least `2^63` and
wraps to a negative number. -/
theorem farPair_second_true (r : Region)
    (hx : 0 ≤ r.Min.X ∧ r.Min.X ≤ r.Max.X ∧ r.Max.X ≤ 2147483647)
    (hy : 0 ≤ r.Min.Y ∧ r.Min.Y ≤ r.Max.Y ∧ r.Max.Y ≤ 2147483647)
    (hz : 0 ≤ r.Min.Z ∧ r.Min.Z ≤ r.Max.Z ∧ r.Max.Z ≤ 2147483647) :
    inRangeOfRegion ⟨-farCoordinate, -farCoordinate, -(farCoordinate - 1), 0⟩ r = true := by
  rw [inRangeOfRegion_eq, decide_eq_true_eq]
  simp only [closestPoint, farCoordinate]
  rw [clamp_below _ _ _ (by omega), clamp_below _ _ _ (by omega),
    clamp_below _ _ _ (by omega)]
  simp only [manhattan, abs, wrap64]
  split_ifs <;> omega

/-- The count that `findBestPoint` computes on `farPair` for a box of the
non-negative octant whose `Max` corner is not the origin is 1. -/
theorem farPair_count_one (r : Region)
    (hx : 0 ≤ r.Min.X ∧ r.Min.X ≤ r.Max.X ∧ r.Max.X ≤ 2147483647)
    (hy : 0 ≤ r.Min.Y ∧ r.Min.Y ≤ r.Max.Y ∧ r.Max.Y ≤ 2147483647)
    (hz : 0 ≤ r.Min.Z ∧ r.Min.Z ≤ r.Max.Z ∧ r.Max.Z ≤ 2147483647)
    (hs : 0 < r.Max.X + r.Max.Y + r.Max.Z) :
    countInRange farPair r = 1 := by
  rw [countInRange_eq_boundCount]
  unfold boundCount farPair
  rw [List.countP_cons, List.countP_cons, List.countP_nil, farPair_first_false r hx hy hz hs,
    farPair_second_true r hx hy hz]
  rfl

/-- When every subregion has a positive count, all of them are pushed. -/
theorem pushSubregions_perm (nanobots : List Nanobot) (pq : PriorityQueue)
    (subs : List Region) (h : ∀ c ∈ subs, countInRange nanobots c > 0) :
    List.Perm (pushSubregions nanobots pq subs)
      (subs.map (fun c => (⟨c.Min, c.Max, countInRange nanobots c⟩ : Region)) ++ pq) := by
  induction subs generalizing pq with
  | nil => exact List.Perm.refl _
  | cons c subs ih =>
    have e : pushSubregions nanobots pq (c :: subs) =
        pushSubregions nanobots
          (if countInRange nanobots c > 0 then
            heap.Push pq ⟨c.Min, c.Max, countInRange nanobots c⟩ else pq) subs := rfl
    rw [e, if_pos (h c (List.mem_cons_self _ _))]
    refine (ih _ (fun d hd => h d (List.mem_cons_of_mem _ hd))).trans ?_
    rw [List.map_cons, List.cons_append]
    exact ((heap_Push_perm pq _).append_left _).trans List.perm_middle

theorem manhattan_origin_pos (p : Point) (hx : 0 ≤ p.X ∧ p.X ≤ 2147483647)
    (hy : 0 ≤ p.Y ∧ p.Y ≤ 2147483647) (hz : 0 ≤ p.Z ∧ p.Z ≤ 2147483647)
    (hs : 0 < p.X + p.Y + p.Z) : 0 < manhattan p origin := by
  have e := manhattan_eq_exact p origin
    (by simp only [exactManhattan, exactAbs, origin]; split_ifs <;> omega)
  rw [e]
  simp only [exactManhattan, exactAbs, origin]
  split_ifs <;> omega

theorem tdiv_odd (d : Int) (hd : 0 ≤ d) : Int.tdiv (0 + (2 * d + 1)) 2 = d := by
  have t := (tdiv_two_bounds (0 + (2 * d + 1))).1 (by omega)
  omega

/-- The subregions of the box `(0,0,0)-(2d+1,2d+1,2d+1)`. -/
theorem subregions_chain (d : Int) (hd : 0 ≤ d) (k : Int) :
    subregions ⟨⟨0, 0, 0⟩, ⟨2 * d + 1, 2 * d + 1, 2 * d + 1⟩, k⟩ =
      [ ⟨⟨0, 0, 0⟩, ⟨d, d, d⟩, 0⟩,
        ⟨⟨d, 0, 0⟩, ⟨2 * d + 1, d, d⟩, 0⟩,
        ⟨⟨0, d, 0⟩, ⟨d, 2 * d + 1, d⟩, 0⟩,
        ⟨⟨d, d, 0⟩, ⟨2 * d + 1, 2 * d + 1, d⟩, 0⟩,
        ⟨⟨0, 0, d⟩, ⟨d, d, 2 * d + 1⟩, 0⟩,
        ⟨⟨d, 0, d⟩, ⟨2 * d + 1, d, 2 * d + 1⟩, 0⟩,
        ⟨⟨0, d, d⟩, ⟨d, 2 * d + 1, 2 * d + 1⟩, 0⟩,
        ⟨⟨d, d, d⟩, ⟨2 * d + 1, 2 * d + 1, 2 * d + 1⟩, 0⟩ ] := by
  simp only [subregions, tdiv_odd d hd]

theorem chain_counts (d : Int) (hd : 1 ≤ d) (hM : 2 * d + 1 ≤ 2147483647) (k : Int) :
    ∀ c ∈ subregions ⟨⟨0, 0, 0⟩, ⟨2 * d + 1, 2 * d + 1, 2 * d + 1⟩, k⟩,
      countInRange farPair c = 1 := by
  intro c hc
  rw [subregions_chain d (by omega)] at hc
  simp only [List.mem_cons, List.mem_singleton, List.not_mem_nil, or_false] at hc
  rcases hc with rfl | rfl | rfl | rfl | rfl | rfl | rfl | rfl <;>
    apply farPair_count_one <;> simp only <;> omega

/-- What the split of the box `(0,0,0)-(2d+1,2d+1,2d+1)` pushes on `farPair`:
all eight subregions, each with `Count = 1`. -/
theorem chain_pushed (d : Int) (hd : 1 ≤ d) (hM : 2 * d + 1 ≤ 2147483647) (k : Int)
    (rest : PriorityQueue) :
    List.Perm
      (pushSubregions farPair rest
        (subregions ⟨⟨0, 0, 0⟩, ⟨2 * d + 1, 2 * d + 1, 2 * d + 1⟩, k⟩))
      ([ ⟨⟨0, 0, 0⟩, ⟨d, d, d⟩, 1⟩,
        ⟨⟨d, 0, 0⟩, ⟨2 * d + 1, d, d⟩, 1⟩,
        ⟨⟨0, d, 0⟩, ⟨d, 2 * d + 1, d⟩, 1⟩,
        ⟨⟨d, d, 0⟩, ⟨2 * d + 1, 2 * d + 1, d⟩, 1⟩,
        ⟨⟨0, 0, d⟩, ⟨d, d, 2 * d + 1⟩, 1⟩,
        ⟨⟨d, 0, d⟩, ⟨2 * d + 1, d, 2 * d + 1⟩, 1⟩,
        ⟨⟨0, d, d⟩, ⟨d, 2 * d + 1, 2 * d + 1⟩, 1⟩,
        ⟨⟨d, d, d⟩, ⟨2 * d + 1, 2 * d + 1, 2 * d + 1⟩, 1⟩ ] ++ rest) := by
  have hc := chain_counts d hd hM k
  have hp := pushSubregions_perm farPair rest _ (fun c h => by rw [hc c h]; decide)
  have hm : (subregions ⟨⟨0, 0, 0⟩, ⟨2 * d + 1, 2 * d + 1, 2 * d + 1⟩, k⟩).map
      (fun c => (⟨c.Min, c.Max, countInRange farPair c⟩ : Region)) =
      [ ⟨⟨0, 0, 0⟩, ⟨d, d, d⟩, 1⟩,
        ⟨⟨d, 0, 0⟩, ⟨2 * d + 1, d, d⟩, 1⟩,
        ⟨⟨0, d, 0⟩, ⟨d, 2 * d + 1, d⟩, 1⟩,
        ⟨⟨d, d, 0⟩, ⟨2 * d + 1, 2 * d + 1, d⟩, 1⟩,
        ⟨⟨0, 0, d⟩, ⟨d, d, 2 * d + 1⟩, 1⟩,
        ⟨⟨d, 0, d⟩, ⟨2 * d + 1, d, 2 * d + 1⟩, 1⟩,
        ⟨⟨0, d, d⟩, ⟨d, 2 * d + 1, 2 * d + 1⟩, 1⟩,
        ⟨⟨d, d, d⟩, ⟨2 * d + 1, 2 * d + 1, 2 * d + 1⟩, 1⟩ ] := by
    have h1 : (subregions ⟨⟨0, 0, 0⟩, ⟨2 * d + 1, 2 * d + 1, 2 * d + 1⟩, k⟩).map
        (fun c => (⟨c.Min, c.Max, countInRange farPair c⟩ : Region)) =
        (subregions ⟨⟨0, 0, 0⟩, ⟨2 * d + 1, 2 * d + 1, 2 * d + 1⟩, k⟩).map
          (fun c => (⟨c.Min, c.Max, 1⟩ : Region)) :=
      List.map_congr_left (fun c h => by rw [hc c h])
    rw [h1, subregions_chain d (by omega) k]
    rfl
  rw [hm] at hp
  exact hp

theorem manhattan_zero_origin : manhattan ⟨0, 0, 0⟩ origin = 0 := by decide

/-- One pass of the loop on `farPair` from a chain state: the box
`(0,0,0)-(2d+1,2d+1,2d+1)` is popped and split, and the box `(0,0,0)-(d,d,d)`
takes its place. -/
theorem chain_step (s : State) (hh : IsHeap s.pq) (d : Int) (hd : 1 ≤ d)
    (hM : 2 * d + 1 ≤ 2147483647) (hJ : ChainState (2 * d + 1) s) :
    ∃ s', loopBody farPair s = some s' ∧ ChainState d s' := by
  obtain ⟨hbest, hcount, hall⟩ := hJ
  have hmem : (⟨⟨0, 0, 0⟩, ⟨2 * d + 1, 2 * d + 1, 2 * d + 1⟩, 1⟩ : Region) ∈ s.pq :=
    List.count_pos_iff.mp (by omega)
  obtain ⟨r, rest, hpop, _, hperm, _, hmax⟩ := heap_Pop_spec s.pq (List.ne_nil_of_mem hmem) hh
  have hr : r ∈ s.pq := hperm.mem_iff.mp (List.mem_cons_self _ _)
  have hreq : r = ⟨⟨0, 0, 0⟩, ⟨2 * d + 1, 2 * d + 1, 2 * d + 1⟩, 1⟩ := by
    rcases hall r hr with e | ⟨e1, e2⟩
    · exact e
    · have h1 := hmax _ hmem
      rw [lessRegion_false_iff] at h1
      simp only [manhattan_zero_origin] at h1
      omega
  subst hreq
  have hrest0 : rest.count ⟨⟨0, 0, 0⟩, ⟨2 * d + 1, 2 * d + 1, 2 * d + 1⟩, 1⟩ = 0 := by
    have := hperm.count_eq ⟨⟨0, 0, 0⟩, ⟨2 * d + 1, 2 * d + 1, 2 * d + 1⟩, 1⟩
    rw [List.count_cons_self] at this
    omega
  have hrest : ∀ q ∈ rest, q.Count = 1 ∧ 0 < manhattan q.Min origin := by
    intro q hq
    rcases hall q (hperm.mem_iff.mp (List.mem_cons_of_mem _ hq)) with e | e
    · rw [e] at hq
      exact absurd (List.count_pos_iff.mpr hq) (by omega)
    · exact e
  have hnp : (⟨⟨0, 0, 0⟩, ⟨2 * d + 1, 2 * d + 1, 2 * d + 1⟩, 1⟩ : Region).Min ≠
      (⟨⟨0, 0, 0⟩, ⟨2 * d + 1, 2 * d + 1, 2 * d + 1⟩, 1⟩ : Region).Max := by
    simp only [ne_eq, Point.mk.injEq, not_and]
    omega
  refine ⟨⟨pushSubregions farPair rest
    (subregions ⟨⟨0, 0, 0⟩, ⟨2 * d + 1, 2 * d + 1, 2 * d + 1⟩, 1⟩), none⟩, ?_, ?_⟩
  · unfold loopBody
    rw [hpop, hbest]
    simp only [breakTest, Bool.false_eq_true, if_false]
    rw [if_neg hnp]
  · have hp := chain_pushed d hd hM 1 rest
    have hnew : ∀ q ∈ rest, q ≠ (⟨⟨0, 0, 0⟩, ⟨d, d, d⟩, 1⟩ : Region) := by
      intro q hq e
      have := (hrest q hq).2
      rw [e] at this
      simp only [manhattan_zero_origin] at this
      omega
    refine ⟨rfl, ?_, ?_⟩
    · rw [hp.count_eq, List.count_append,
        List.count_eq_zero_of_not_mem (fun h => hnew _ h rfl)]
      simp only [List.count_cons, List.count_nil, beq_iff_eq, Region.mk.injEq, Point.mk.injEq,
        and_true, true_and]
      have h1 : ¬ d = 0 := by omega
      have h2 : ¬ 2 * d + 1 = d := by omega
      simp [h1, h2]
    · intro q hq
      rcases List.mem_append.mp (hp.mem_iff.mp hq) with h | h
      · simp only [List.mem_cons, List.mem_singleton, List.not_mem_nil, or_false] at h
        rcases h with rfl | rfl | rfl | rfl | rfl | rfl | rfl | rfl
        · exact Or.inl rfl
        all_goals
          refine Or.inr ⟨rfl, ?_⟩
          apply manhattan_origin_pos <;> simp only <;> omega
      · exact Or.inr (hrest q h)

/-- On `farPair` no nanobot is in range of the initial region, and the first
pass leaves two octants in the queue. -/
theorem farPair_first :
    (∀ n ∈ farPair, inRangeOfRegion n (initialRegion farPair) = false) ∧
    stateAfter farPair 1 =
      some ⟨[⟨⟨0, 0, 0⟩, ⟨MaxInt32, MaxInt32, MaxInt32⟩, 1⟩,
        ⟨⟨MinInt32, MinInt32, MinInt32⟩, ⟨0, 0, 0⟩, 1⟩], none⟩ := by
  decide!

theorem farPair_chain_first :
    ChainState 2147483647
      ⟨[⟨⟨0, 0, 0⟩, ⟨MaxInt32, MaxInt32, MaxInt32⟩, 1⟩,
        ⟨⟨MinInt32, MinInt32, MinInt32⟩, ⟨0, 0, 0⟩, 1⟩], none⟩ := by
  refine ⟨rfl, by decide, ?_⟩
  intro q hq
  simp only [List.mem_cons, List.mem_singleton, List.not_mem_nil, or_false] at hq
  rcases hq with rfl | rfl
  · exact Or.inl rfl
  · exact Or.inr ⟨rfl, by decide⟩

/-- After `k + 1` passes, `k <= 30`, the run on `farPair` is in a chain state
with the box `(0,0,0)-(d,d,d)`, `d = 2^(31-k) - 1`. -/
theorem farPair_chain (k : Nat) (hk : k ≤ 30) :
    ∃ s d, stateAfter farPair (k + 1) = some s ∧ ChainState d s ∧
      d + 1 = (2 : Int) ^ (31 - k) := by
  induction k with
  | zero => exact ⟨_, 2147483647, farPair_first.2, farPair_chain_first, by norm_num⟩
  | succ k ih =>
    obtain ⟨s, d, hs, hJ, hd⟩ := ih (by omega)
    have e1 : 31 - k = (31 - (k + 1)) + 1 := by omega
    have e2 : (2 : Int) ^ (31 - k) = 2 ^ (31 - (k + 1)) * 2 := by rw [e1, pow_succ]
    have e3 : (2 : Int) ≤ 2 ^ (31 - (k + 1)) := by
      have : 1 ≤ 31 - (k + 1) := by omega
      calc (2 : Int) = 2 ^ 1 := by norm_num
        _ ≤ 2 ^ (31 - (k + 1)) := pow_le_pow_right₀ (by norm_num) this
    have e4 : (2 : Int) ^ (31 - k) ≤ 2 ^ 31 := pow_le_pow_right₀ (by norm_num) (by omega)
    have e5 : d = 2 * ((2 : Int) ^ (31 - (k + 1)) - 1) + 1 := by omega
    have hh := (Inv0_of_reachable farPair s (reachable_of_stateAfter farPair _ s hs)).heap
    rw [e5] at hJ
    obtain ⟨s', hl, hJ'⟩ := chain_step s hh ((2 : Int) ^ (31 - (k + 1)) - 1) (by omega)
      (by norm_num at e4; omega) hJ
    refine ⟨s', (2 : Int) ^ (31 - (k + 1)) - 1, ?_, hJ', by omega⟩
    have e6 : stateAfter farPair (k + 1 + 1) =
        (stateAfter farPair (k + 1)).bind (loopBody farPair) := rfl
    rw [e6, hs, Option.some_bind, hl]

/-- What the split of the box `(0,0,0)-(1,1,1)` pushes on `farPair`: the point
`(0,0,0)` with `Count = 2` and seven boxes with `Count = 1`. -/
theorem unit_pushed (rest : PriorityQueue) :
    List.Perm
      (pushSubregions farPair rest (subregions ⟨⟨0, 0, 0⟩, ⟨1, 1, 1⟩, 1⟩))
      ([ ⟨⟨0, 0, 0⟩, ⟨0, 0, 0⟩, 2⟩,
        ⟨⟨0, 0, 0⟩, ⟨1, 0, 0⟩, 1⟩,
        ⟨⟨0, 0, 0⟩, ⟨0, 1, 0⟩, 1⟩,
        ⟨⟨0, 0, 0⟩, ⟨1, 1, 0⟩, 1⟩,
        ⟨⟨0, 0, 0⟩, ⟨0, 0, 1⟩, 1⟩,
        ⟨⟨0, 0, 0⟩, ⟨1, 0, 1⟩, 1⟩,
        ⟨⟨0, 0, 0⟩, ⟨0, 1, 1⟩, 1⟩,
        ⟨⟨0, 0, 0⟩, ⟨1, 1, 1⟩, 1⟩ ] ++ rest) := by
  have hp := pushSubregions_perm farPair rest (subregions ⟨⟨0, 0, 0⟩, ⟨1, 1, 1⟩, 1⟩)
    (by decide)
  have hm : (subregions ⟨⟨0, 0, 0⟩, ⟨1, 1, 1⟩, 1⟩).map
      (fun c => (⟨c.Min, c.Max, countInRange farPair c⟩ : Region)) =
      [ ⟨⟨0, 0, 0⟩, ⟨0, 0, 0⟩, 2⟩,
        ⟨⟨0, 0, 0⟩, ⟨1, 0, 0⟩, 1⟩,
        ⟨⟨0, 0, 0⟩, ⟨0, 1, 0⟩, 1⟩,
        ⟨⟨0, 0, 0⟩, ⟨1, 1, 0⟩, 1⟩,
        ⟨⟨0, 0, 0⟩, ⟨0, 0, 1⟩, 1⟩,
        ⟨⟨0, 0, 0⟩, ⟨1, 0, 1⟩, 1⟩,
        ⟨⟨0, 0, 0⟩, ⟨0, 1, 1⟩, 1⟩,
        ⟨⟨0, 0, 0⟩, ⟨1, 1, 1⟩, 1⟩ ] := by
    decide
  rw [hm] at hp
  exact hp

/-- The pass on `farPair` that pops the box `(0,0,0)-(1,1,1)`: the point
`(0,0,0)` enters the queue with `Count = 2`, every other entry has
`Count = 1`. -/
theorem unit_step (s : State) (hh : IsHeap s.pq) (hJ : ChainState 1 s) :
    ∃ s', loopBody farPair s = some s' ∧ s'.best = none ∧
      s'.pq.count ⟨⟨0, 0, 0⟩, ⟨0, 0, 0⟩, 2⟩ = 1 ∧
      (∀ q ∈ s'.pq, q = ⟨⟨0, 0, 0⟩, ⟨0, 0, 0⟩, 2⟩ ∨ q.Count = 1) ∧
      (⟨⟨0, 0, 0⟩, ⟨1, 1, 1⟩, 1⟩ : Region) ∈ s'.pq ∧
      (⟨⟨0, 0, 0⟩, ⟨1, 0, 0⟩, 1⟩ : Region) ∈ s'.pq ∧
      (⟨⟨0, 0, 0⟩, ⟨0, 1, 0⟩, 1⟩ : Region) ∈ s'.pq := by
  obtain ⟨hbest, hcount, hall⟩ := hJ
  have hmem : (⟨⟨0, 0, 0⟩, ⟨1, 1, 1⟩, 1⟩ : Region) ∈ s.pq :=
    List.count_pos_iff.mp (by omega)
  obtain ⟨r, rest, hpop, _, hperm, _, hmax⟩ := heap_Pop_spec s.pq (List.ne_nil_of_mem hmem) hh
  have hr : r ∈ s.pq := hperm.mem_iff.mp (List.mem_cons_self _ _)
  have hreq : r = ⟨⟨0, 0, 0⟩, ⟨1, 1, 1⟩, 1⟩ := by
    rcases hall r hr with e | ⟨e1, e2⟩
    · exact e
    · have h1 := hmax _ hmem
      rw [lessRegion_false_iff] at h1
      simp only [manhattan_zero_origin] at h1
      omega
  subst hreq
  have hrest : ∀ q ∈ rest, q.Count = 1 := by
    intro q hq
    rcases hall q (hperm.mem_iff.mp (List.mem_cons_of_mem _ hq)) with e | e
    · rw [e]
    · exact e.1
  have hp := unit_pushed rest
  refine ⟨⟨pushSubregions farPair rest (subregions ⟨⟨0, 0, 0⟩, ⟨1, 1, 1⟩, 1⟩), none⟩,
    ?_, rfl, ?_, ?_, ?_, ?_, ?_⟩
  · unfold loopBody
    rw [hpop, hbest]
    simp only [breakTest, Bool.false_eq_true, if_false]
    rw [if_neg (by decide)]
  · have h0 : (⟨⟨0, 0, 0⟩, ⟨0, 0, 0⟩, 2⟩ : Region) ∉ rest := by
      intro h
      have := hrest _ h
      simp at this
    rw [hp.count_eq, List.count_append, List.count_eq_zero_of_not_mem h0]
    decide
  · intro q hq
    rcases List.mem_append.mp (hp.mem_iff.mp hq) with h | h
    · simp only [List.mem_cons, List.mem_singleton, List.not_mem_nil, or_false] at h
      rcases h with rfl | rfl | rfl | rfl | rfl | rfl | rfl | rfl
      · exact Or.inl rfl
      all_goals exact Or.inr rfl
    · exact Or.inr (hrest q h)
  · exact hp.mem_iff.mpr (List.mem_append_left _ (by decide))
  · exact hp.mem_iff.mpr (List.mem_append_left _ (by decide))
  · exact hp.mem_iff.mpr (List.mem_append_left _ (by decide))

/-- The pass on `farPair` that pops the point `(0,0,0)` with `Count = 2`: it
becomes `best`, and every entry left in the queue has `Count = 1`. -/
theorem point_step (s : State) (hh : IsHeap s.pq) (hbest : s.best = none)
    (hcount : s.pq.count ⟨⟨0, 0, 0⟩, ⟨0, 0, 0⟩, 2⟩ = 1)
    (hall : ∀ q ∈ s.pq, q = ⟨⟨0, 0, 0⟩, ⟨0, 0, 0⟩, 2⟩ ∨ q.Count = 1)
    (hu : (⟨⟨0, 0, 0⟩, ⟨1, 1, 1⟩, 1⟩ : Region) ∈ s.pq)
    (h1 : (⟨⟨0, 0, 0⟩, ⟨1, 0, 0⟩, 1⟩ : Region) ∈ s.pq)
    (h2 : (⟨⟨0, 0, 0⟩, ⟨0, 1, 0⟩, 1⟩ : Region) ∈ s.pq) :
    ∃ s', loopBody farPair s = some s' ∧ s'.best = some ⟨⟨0, 0, 0⟩, ⟨0, 0, 0⟩, 2⟩ ∧
      (∀ q ∈ s'.pq, q.Count = 1) ∧
      (⟨⟨0, 0, 0⟩, ⟨1, 1, 1⟩, 1⟩ : Region) ∈ s'.pq ∧
      (⟨⟨0, 0, 0⟩, ⟨1, 0, 0⟩, 1⟩ : Region) ∈ s'.pq ∧
      (⟨⟨0, 0, 0⟩, ⟨0, 1, 0⟩, 1⟩ : Region) ∈ s'.pq := by
  have hmem : (⟨⟨0, 0, 0⟩, ⟨0, 0, 0⟩, 2⟩ : Region) ∈ s.pq :=
    List.count_pos_iff.mp (by omega)
  obtain ⟨r, rest, hpop, _, hperm, _, hmax⟩ := heap_Pop_spec s.pq (List.ne_nil_of_mem hmem) hh
  have hr : r ∈ s.pq := hperm.mem_iff.mp (List.mem_cons_self _ _)
  have hreq : r = ⟨⟨0, 0, 0⟩, ⟨0, 0, 0⟩, 2⟩ := by
    rcases hall r hr with e | e
    · exact e
    · have h3 := hmax _ hmem
      rw [lessRegion_false_iff] at h3
      simp only at h3
      omega
  subst hreq
  have hrest0 : rest.count ⟨⟨0, 0, 0⟩, ⟨0, 0, 0⟩, 2⟩ = 0 := by
    have := hperm.count_eq ⟨⟨0, 0, 0⟩, ⟨0, 0, 0⟩, 2⟩
    rw [List.count_cons_self] at this
    omega
  have hrest : ∀ q ∈ rest, q.Count = 1 := by
    intro q hq
    rcases hall q (hperm.mem_iff.mp (List.mem_cons_of_mem _ hq)) with e | e
    · rw [e] at hq
      exact absurd (List.count_pos_iff.mpr hq) (by omega)
    · exact e
  have keep : ∀ q : Region, q ∈ s.pq → q ≠ ⟨⟨0, 0, 0⟩, ⟨0, 0, 0⟩, 2⟩ → q ∈ rest := by
    intro q hq hne
    rcases List.mem_cons.mp (hperm.mem_iff.mpr hq) with e | e
    · exact absurd e hne
    · exact e
  refine ⟨⟨rest, some ⟨⟨0, 0, 0⟩, ⟨0, 0, 0⟩, 2⟩⟩, ?_, rfl, hrest,
    keep _ hu (by decide), keep _ h1 (by decide), keep _ h2 (by decide)⟩
  unfold loopBody
  rw [hpop, hbest]
  simp only [breakTest, updateTest, Bool.false_eq_true, if_false, if_true]

/-- The run on `farPair` after 33 passes: `best` is the origin with
`Count = 2`, every entry of the queue has `Count = 1`, and the boxes
`(0,0,0)-(1,1,1)`, `(0,0,0)-(1,0,0)` and `(0,0,0)-(0,1,0)` are in the queue. -/
theorem farPair_state33 :
    ∃ s, stateAfter farPair 33 = some s ∧ s.best = some ⟨⟨0, 0, 0⟩, ⟨0, 0, 0⟩, 2⟩ ∧
      (∀ q ∈ s.pq, q.Count = 1) ∧
      (⟨⟨0, 0, 0⟩, ⟨1, 1, 1⟩, 1⟩ : Region) ∈ s.pq ∧
      (⟨⟨0, 0, 0⟩, ⟨1, 0, 0⟩, 1⟩ : Region) ∈ s.pq ∧
      (⟨⟨0, 0, 0⟩, ⟨0, 1, 0⟩, 1⟩ : Region) ∈ s.pq := by
  obtain ⟨s31, d, hs31, hJ, hd⟩ := farPair_chain 30 (by omega)
  have hd1 : d = 1 := by norm_num at hd; omega
  subst hd1
  have hh31 := (Inv0_of_reachable farPair s31 (reachable_of_stateAfter farPair _ s31 hs31)).heap
  obtain ⟨s32, hl32, hb, hc, ha, hu, h1, h2⟩ := unit_step s31 hh31 hJ
  have hs32 : stateAfter farPair 32 = some s32 := by
    have e : stateAfter farPair 32 = (stateAfter farPair 31).bind (loopBody farPair) := rfl
    rw [e, hs31, Option.some_bind, hl32]
  have hh32 := (Inv0_of_reachable farPair s32 (reachable_of_stateAfter farPair _ s32 hs32)).heap
  obtain ⟨s33, hl33, hrest⟩ := point_step s32 hh32 hb hc ha hu h1 h2
  refine ⟨s33, ?_, hrest⟩
  have e : stateAfter farPair 33 = (stateAfter farPair 32).bind (loopBody farPair) := rfl
  rw [e, hs32, Option.some_bind, hl33]

/-! ## Runs of the loop -/

/-- Running the loop for `n` passes and then for `k` more. -/
theorem runLoop_stateAfter (nanobots : List Nanobot) (n k : Nat) (s : State)
    (h : stateAfter nanobots n = some s) :
    runLoop nanobots (n + k) (initState nanobots) = runLoop nanobots k s := by
  induction n generalizing k s with
  | zero =>
    simp only [stateAfter, Option.some.injEq] at h
    rw [Nat.zero_add, h]
  | succ n ih =>
    have e : stateAfter nanobots (n + 1) =
        (stateAfter nanobots n).bind (loopBody nanobots) := rfl
    rw [e] at h
    cases hu : stateAfter nanobots n with
    | none => rw [hu] at h; simp at h
    | some u =>
      rw [hu, Option.some_bind] at h
      have e2 : n + 1 + k = n + (k + 1) := by omega
      rw [e2, ih (k + 1) u hu]
      simp only [runLoop, h]

/-- The run on `farAndNear`: after 34 passes `best` is the point `(3,0,-3)` with
`Count = 1`. -/
theorem farAndNear_run :
    (stateAfter farAndNear 34).isSome = true ∧
    (stateAt farAndNear 34).best = some ⟨⟨3, 0, -3⟩, ⟨3, 0, -3⟩, 1⟩ := by
  decide!

/-- The run on `farPair`: after 33 passes `best` is the origin with `Count = 2`;
the 34th pass pops a region with `Count = 1`, leaves a box with `Count = 1` that
contains the origin in the queue, and takes the `break`. -/
theorem farPair_run :
    (stateAfter farPair 33).isSome = true ∧
    (stateAt farPair 33).best = some ⟨⟨0, 0, 0⟩, ⟨0, 0, 0⟩, 2⟩ ∧
    heap.Pop (stateAt farPair 33).pq =
      some ((poppedAt farPair 33).1, (poppedAt farPair 33).2) ∧
    (poppedAt farPair 33).1.Count = 1 ∧
    (∃ q ∈ (poppedAt farPair 33).2, q.Count = 1 ∧ q.Contains ⟨0, 0, 0⟩) ∧
    loopBody farPair (stateAt farPair 33) = none := by
  obtain ⟨s, hs, hb, hall, hu, h1, h2⟩ := farPair_state33
  have hst : stateAt farPair 33 = s := by
    unfold stateAt
    rw [hs]
    rfl
  have hh := (Inv0_of_reachable farPair s (reachable_of_stateAfter farPair _ s hs)).heap
  obtain ⟨r, rest, hpop, _, hperm, _, _⟩ := heap_Pop_spec s.pq (List.ne_nil_of_mem hu) hh
  have hpa : poppedAt farPair 33 = (r, rest) := by
    unfold poppedAt
    rw [hst, hpop]
    rfl
  have hr : r.Count = 1 := hall r (hperm.mem_iff.mp (List.mem_cons_self _ _))
  have hq : ∃ q ∈ rest, q.Count = 1 ∧ q.Contains ⟨0, 0, 0⟩ := by
    by_cases e : r = ⟨⟨0, 0, 0⟩, ⟨1, 0, 0⟩, 1⟩
    · refine ⟨⟨⟨0, 0, 0⟩, ⟨0, 1, 0⟩, 1⟩, ?_, rfl, by unfold Region.Contains; decide⟩
      rcases List.mem_cons.mp (hperm.mem_iff.mpr h2) with e2 | e2
      · rw [e] at e2
        exact absurd e2 (by decide)
      · exact e2
    · refine ⟨⟨⟨0, 0, 0⟩, ⟨1, 0, 0⟩, 1⟩, ?_, rfl, by unfold Region.Contains; decide⟩
      rcases List.mem_cons.mp (hperm.mem_iff.mpr h1) with e2 | e2
      · exact absurd e2.symm e
      · exact e2
  rw [hpa, hst]
  refine ⟨by rw [hs]; rfl, hb, hpop, hr, hq, ?_⟩
  unfold loopBody
  rw [hpop, hb]
  simp only [breakTest, hr]
  rfl

theorem stateAfter_eq_stateFrom (nanobots : List Nanobot) (n : Nat) :
    stateAfter nanobots n = stateFrom nanobots (initState nanobots) n := by
  induction n with
  | zero => rfl
  | succ n ih =>
    have e1 : stateAfter nanobots (n + 1) =
        (stateAfter nanobots n).bind (loopBody nanobots) := rfl
    have e2 : stateFrom nanobots (initState nanobots) (n + 1) =
        (stateFrom nanobots (initState nanobots) n).bind (loopBody nanobots) := rfl
    rw [e1, e2, ih]

theorem stateFrom_add (nanobots : List Nanobot) (s t : State) (n k : Nat)
    (h : stateFrom nanobots s n = some t) :
    stateFrom nanobots s (n + k) = stateFrom nanobots t k := by
  induction k with
  | zero => exact h
  | succ k ih =>
    have e1 : stateFrom nanobots s (n + (k + 1)) =
        (stateFrom nanobots s (n + k)).bind (loopBody nanobots) := rfl
    have e2 : stateFrom nanobots t (k + 1) =
        (stateFrom nanobots t k).bind (loopBody nanobots) := rfl
    rw [e1, e2, ih]

/-- The run on `threeNanobots`, passes 1 to 21. -/
theorem threeNanobots_run21 :
    stateAfter threeNanobots 21 = some ⟨threeNanobotsQueue21, none⟩ := by
  decide!

/-- The run on `threeNanobots`, passes 22 to 42. -/
theorem threeNanobots_run42 :
    stateFrom threeNanobots ⟨threeNanobotsQueue21, none⟩ 21 =
      some ⟨threeNanobotsQueue42, none⟩ := by
  decide!

/-- The run on `threeNanobots`, passes 43 to 63. -/
theorem threeNanobots_run63 :
    (stateFrom threeNanobots ⟨threeNanobotsQueue42, none⟩ 21).map (fun s => s.best) =
      some (some ⟨⟨-2, 0, 0⟩, ⟨-2, 0, 0⟩, 1⟩) := by
  decide!

/-- The run on `threeNanobots`, which are within reach: after 63 passes `best`
is the point `(-2,0,0)` with `Count = 1`. -/
theorem threeNanobots_run :
    (stateAfter threeNanobots 63).isSome = true ∧
    (stateAt threeNanobots 63).best = some ⟨⟨-2, 0, 0⟩, ⟨-2, 0, 0⟩, 1⟩ := by
  have e : stateAfter threeNanobots 63 =
      stateFrom threeNanobots ⟨threeNanobotsQueue42, none⟩ 21 := by
    have h21 := threeNanobots_run21
    rw [stateAfter_eq_stateFrom] at h21
    rw [stateAfter_eq_stateFrom, show (63 : Nat) = 21 + 42 from rfl,
      stateFrom_add _ _ _ 21 42 h21, show (42 : Nat) = 21 + 21 from rfl,
      stateFrom_add _ _ _ 21 21 threeNanobots_run42]
  have h := threeNanobots_run63
  rw [← e] at h
  unfold stateAt
  cases hs : stateAfter threeNanobots 63 with
  | none => rw [hs] at h; simp at h
  | some s =>
    rw [hs] at h
    simp only [Option.map_some', Option.some.injEq] at h
    exact ⟨rfl, h⟩

/-- The run on the single nanobot `(0,0,0)` of radius 4: after 33 passes `best`
is the origin with `Count = 1`. -/
theorem singleNanobot_run :
    (stateAfter [⟨0, 0, 0, 4⟩] 33).isSome = true ∧
    (stateAt [⟨0, 0, 0, 4⟩] 33).best = some ⟨⟨0, 0, 0⟩, ⟨0, 0, 0⟩, 1⟩ ∧
    (⟨⟨0, 0, 0⟩, ⟨1, 1, 1⟩, 1⟩ : Region) ∈ (stateAt [⟨0, 0, 0, 4⟩] 31).pq := by
  decide!

/-- The run on the nanobots `(-2,0,0)` of radius 1 and `(-4,-2,1)` of radius 0:
after 35 passes `best` is the point `(-2,0,0)` with `Count = 1`. -/
theorem negativeNanobots_run :
    (stateAfter [⟨-2, 0, 0, 1⟩, ⟨-4, -2, 1, 0⟩] 35).isSome = true ∧
    (stateAt [⟨-2, 0, 0, 1⟩, ⟨-4, -2, 1, 0⟩] 35).best =
      some ⟨⟨-2, 0, 0⟩, ⟨-2, 0, 0⟩, 1⟩ := by
  decide!

/-- The run on the nanobots `(0,0,0)` of radius 4 and `(10,0,0)` of radius 5:
after 34 passes the queue holds the point `(4,0,0)` with `Count = 1`. -/
theorem twoNanobots_run :
    (stateAfter [⟨0, 0, 0, 4⟩, ⟨10, 0, 0, 5⟩] 34).isSome = true ∧
    (⟨⟨4, 0, 0⟩, ⟨4, 0, 0⟩, 1⟩ : Region) ∈ (stateAt [⟨0, 0, 0, 4⟩, ⟨10, 0, 0, 5⟩] 34).pq := by
  decide!

theorem singleNanobot_inReach : ∀ n ∈ [(⟨0, 0, 0, 4⟩ : Nanobot)], n.InReach := by
  decide

theorem singleNanobot_inRange :
    ∃ m ∈ [(⟨0, 0, 0, 4⟩ : Nanobot)], inRangeOfRegion m (initialRegion [⟨0, 0, 0, 4⟩]) = true :=
  ⟨⟨0, 0, 0, 4⟩, List.mem_singleton.mpr rfl, by decide⟩

theorem singleNanobot_covered :
    ∃ q, searchSpace.Contains q ∧ 0 < coverage [(⟨0, 0, 0, 4⟩ : Nanobot)] q :=
  covered_point_of_inRange _ singleNanobot_inReach singleNanobot_inRange

theorem twoNanobots_inReach :
    ∀ n ∈ [(⟨0, 0, 0, 4⟩ : Nanobot), ⟨10, 0, 0, 5⟩], n.InReach := by
  decide

theorem threeNanobots_inReach : ∀ n ∈ threeNanobots, n.InReach := by
  decide

/-- No point of the initial box is in range of a nanobot of `farPair`. -/
theorem farPair_coverage (p : Point) (hp : searchSpace.Contains p) : coverage farPair p = 0 := by
  obtain ⟨⟨a1, a2⟩, ⟨a3, a4⟩, ⟨a5, a6⟩⟩ := hp
  simp only [searchSpace, initialRegion, MinInt32, MaxInt32] at a1 a2 a3 a4 a5 a6
  have h1 : inRangeOfPoint ⟨farCoordinate, farCoordinate, farCoordinate - 1, 0⟩ p = false := by
    simp only [inRangeOfPoint, Nanobot.centre, exactManhattan, exactAbs, farCoordinate,
      decide_eq_false_iff_not]
    split_ifs <;> omega
  have h2 : inRangeOfPoint ⟨-farCoordinate, -farCoordinate, -(farCoordinate - 1), 0⟩ p =
      false := by
    simp only [inRangeOfPoint, Nanobot.centre, exactManhattan, exactAbs, farCoordinate,
      decide_eq_false_iff_not]
    split_ifs <;> omega
  unfold coverage farPair
  rw [List.countP_cons, List.countP_cons, List.countP_nil, h1, h2]
  rfl

theorem farPair_reachable : Reachable farPair (stateAt farPair 33) :=
  reachable_stateAt farPair 33 farPair_run.1

/-- The box `(0,0,0)-(1,1,1)` with `Count = 1` is in the queue of the run on
`farPair` after 33 passes. -/
theorem farPair_box_mem :
    (⟨⟨0, 0, 0⟩, ⟨1, 1, 1⟩, 1⟩ : Region) ∈ (stateAt farPair 33).pq := by
  obtain ⟨s, hs, _, _, hu, _, _⟩ := farPair_state33
  have hst : stateAt farPair 33 = s := by
    unfold stateAt
    rw [hs]
    rfl
  rw [hst]
  exact hu

/-- On `farPair` the `break` test succeeds at the 34th pass. -/
theorem farPair_break :
    breakTest (stateAt farPair 33).best (poppedAt farPair 33).1 = true := by
  rw [farPair_run.2.1]
  simp only [breakTest, farPair_run.2.2.2.1]
  rfl

theorem farPair_radius : ∀ n ∈ farPair, n.R ≤ 9223372036854775807 := by
  decide

theorem farPair_not_inReach : ¬ ∀ n ∈ farPair, n.InReach := by
  decide

/-- The run on `farPair` returns the origin with `Count = 2` at the 34th pass. -/
theorem farPair_returns (k : Nat) :
    findBestPoint farPair (34 + k) = some (some ⟨⟨0, 0, 0⟩, ⟨0, 0, 0⟩, 2⟩) := by
  have h33 := stateAfter_eq_stateAt farPair 33 farPair_run.1
  have h34 : loopBody farPair (stateAt farPair 33) = none := farPair_run.2.2.2.2.2
  have hb := farPair_run.2.1
  have e2 : 34 + k = 33 + (k + 1) := by omega
  unfold findBestPoint
  rw [e2, runLoop_stateAfter farPair 33 (k + 1) _ h33, runLoop, h34, hb]

/-! ## The claims -/

/-- C1, counterexample.  The nanobot `(MaxInt64, MaxInt64, 0)` of radius 0 and
the box `(0,0,0)-(2,2,2)`: the distance to the clamped point `(2,2,0)` is
computed as `-6`, so `inRangeOfRegion` is true, while no point of the box is
within distance 0 of the centre.  And the nanobot `(MaxInt64, 0, 0)` of radius 0
and the box `(-1,0,0)-(0,0,0)`: `manhattan` from the centre to the point
`(-1,0,0)` of the box is computed as `MinInt64`, which is at most the radius,
while `inRangeOfRegion` is false. -/
theorem inRangeOfRegion_overflow_counterexample :
    (inRangeOfRegion ⟨9223372036854775807, 9223372036854775807, 0, 0⟩
        ⟨⟨0, 0, 0⟩, ⟨2, 2, 2⟩, 0⟩ = true ∧
      closestPoint ⟨9223372036854775807, 9223372036854775807, 0, 0⟩
        ⟨⟨0, 0, 0⟩, ⟨2, 2, 2⟩, 0⟩ = ⟨2, 2, 0⟩ ∧
      manhattan ⟨9223372036854775807, 9223372036854775807, 0⟩ ⟨2, 2, 0⟩ = -6 ∧
      ∀ p : Point, (⟨⟨0, 0, 0⟩, ⟨2, 2, 2⟩, 0⟩ : Region).Contains p →
        ¬ exactManhattan ⟨9223372036854775807, 9223372036854775807, 0⟩ p ≤ 0) ∧
    (inRangeOfRegion ⟨9223372036854775807, 0, 0, 0⟩ ⟨⟨-1, 0, 0⟩, ⟨0, 0, 0⟩, 0⟩ = false ∧
      (⟨⟨-1, 0, 0⟩, ⟨0, 0, 0⟩, 0⟩ : Region).Contains ⟨-1, 0, 0⟩ ∧
      manhattan ⟨9223372036854775807, 0, 0⟩ ⟨-1, 0, 0⟩ = -9223372036854775808 ∧
      manhattan ⟨9223372036854775807, 0, 0⟩ ⟨-1, 0, 0⟩ ≤ 0) := by
  refine ⟨⟨by decide, by decide, by decide, ?_⟩, by decide, ?_, by decide, by decide⟩
  · rintro p ⟨⟨a1, a2⟩, ⟨a3, a4⟩, ⟨a5, a6⟩⟩
    simp only at a1 a2 a3 a4 a5 a6
    simp only [exactManhattan, exactAbs]
    split_ifs <;> omega
  · unfold Region.Contains
    decide

/-- C1, amended.  For a nanobot `n` and a region `r` with `Min <= Max` on each
axis such that no distance from the centre of `n` to a point of the box exceeds
`MaxInt64`, `inRangeOfRegion n r` holds exactly when some integer point of the
box is within Manhattan distance `n.R` of the centre; the clamped point lies in
the box, no point of the box is nearer to the centre, and on the box the
computed distance is the exact one. -/
theorem inRangeOfRegion_iff_exists_point (n : Nanobot) (r : Region)
    (hx : r.Min.X ≤ r.Max.X) (hy : r.Min.Y ≤ r.Max.Y) (hz : r.Min.Z ≤ r.Max.Z)
    (hn : NoWrap n r) :
    (inRangeOfRegion n r = true ↔
      ∃ p : Point, (r.Min.X ≤ p.X ∧ p.X ≤ r.Max.X) ∧ (r.Min.Y ≤ p.Y ∧ p.Y ≤ r.Max.Y) ∧
        (r.Min.Z ≤ p.Z ∧ p.Z ≤ r.Max.Z) ∧ manhattan ⟨n.X, n.Y, n.Z⟩ p ≤ n.R) ∧
    (r.Contains (closestPoint n r) ∧
      ∀ p : Point, r.Contains p →
        manhattan ⟨n.X, n.Y, n.Z⟩ (closestPoint n r) ≤ manhattan ⟨n.X, n.Y, n.Z⟩ p) ∧
    (∀ p : Point, r.Contains p →
      manhattan ⟨n.X, n.Y, n.Z⟩ p = exactManhattan ⟨n.X, n.Y, n.Z⟩ p) := by
  have hwf : r.WellFormed := ⟨hx, hy, hz⟩
  have hcp := closestPoint_contains n r hwf
  have hle : ∀ p : Point, r.Contains p →
      manhattan ⟨n.X, n.Y, n.Z⟩ (closestPoint n r) ≤ manhattan ⟨n.X, n.Y, n.Z⟩ p := by
    intro p hp
    rw [manhattan_eq_of_noWrap n r _ hn hcp, manhattan_eq_of_noWrap n r p hn hp]
    exact closestPoint_le n r p hp
  refine ⟨⟨fun h => ?_, fun h => ?_⟩, ⟨hcp, hle⟩, fun p hp => manhattan_eq_of_noWrap n r p hn hp⟩
  · rw [inRangeOfRegion_eq, decide_eq_true_eq] at h
    obtain ⟨a, b, c⟩ := hcp
    exact ⟨closestPoint n r, a, b, c, h⟩
  · obtain ⟨p, a, b, c, hp⟩ := h
    rw [inRangeOfRegion_eq, decide_eq_true_eq]
    exact le_trans (hle p ⟨a, b, c⟩) hp

/-- Witness for C1, amended: the nanobot `(5,0,0)` of radius 3 and the box
`[0,2]^3`, which it reaches at the point `(2,0,0)`. -/
theorem inRangeOfRegion_iff_exists_point_witness :
    ((0 : Int) ≤ 2 ∧ NoWrap ⟨5, 0, 0, 3⟩ ⟨⟨0, 0, 0⟩, ⟨2, 2, 2⟩, 0⟩ ∧
      inRangeOfRegion ⟨5, 0, 0, 3⟩ ⟨⟨0, 0, 0⟩, ⟨2, 2, 2⟩, 0⟩ = true) ∧
    ((inRangeOfRegion ⟨5, 0, 0, 3⟩ ⟨⟨0, 0, 0⟩, ⟨2, 2, 2⟩, 0⟩ = true ↔
      ∃ p : Point, ((0 : Int) ≤ p.X ∧ p.X ≤ 2) ∧ ((0 : Int) ≤ p.Y ∧ p.Y ≤ 2) ∧
        ((0 : Int) ≤ p.Z ∧ p.Z ≤ 2) ∧ manhattan ⟨5, 0, 0⟩ p ≤ 3) ∧
    ((⟨⟨0, 0, 0⟩, ⟨2, 2, 2⟩, 0⟩ : Region).Contains
        (closestPoint ⟨5, 0, 0, 3⟩ ⟨⟨0, 0, 0⟩, ⟨2, 2, 2⟩, 0⟩) ∧
      ∀ p : Point, (⟨⟨0, 0, 0⟩, ⟨2, 2, 2⟩, 0⟩ : Region).Contains p →
        manhattan ⟨5, 0, 0⟩ (closestPoint ⟨5, 0, 0, 3⟩ ⟨⟨0, 0, 0⟩, ⟨2, 2, 2⟩, 0⟩) ≤
          manhattan ⟨5, 0, 0⟩ p) ∧
    (∀ p : Point, (⟨⟨0, 0, 0⟩, ⟨2, 2, 2⟩, 0⟩ : Region).Contains p →
      manhattan ⟨5, 0, 0⟩ p = exactManhattan ⟨5, 0, 0⟩ p)) :=
  ⟨⟨by decide, by decide, by decide⟩,
    inRangeOfRegion_iff_exists_point ⟨5, 0, 0, 3⟩ ⟨⟨0, 0, 0⟩, ⟨2, 2, 2⟩, 0⟩
      (by decide) (by decide) (by decide) (by decide)⟩

/-- C2, counterexample.  For the two nanobots of `farPair` the box
`(0,0,0)-(1,1,1)` is in the queue of `findBestPoint` after 33 passes with
`Count = 1`, the number of nanobots for which `inRangeOfRegion` holds of it,
while its point `(0,0,0)` passes the test `manhattan(centre, p) <= R` for both
nanobots. -/
theorem coverage_overflow_counterexample :
    (⟨⟨0, 0, 0⟩, ⟨1, 1, 1⟩, 1⟩ : Region) ∈ (stateAt farPair 33).pq ∧
    (⟨⟨0, 0, 0⟩, ⟨1, 1, 1⟩, 1⟩ : Region).Contains ⟨0, 0, 0⟩ ∧
    countInRange farPair ⟨⟨0, 0, 0⟩, ⟨1, 1, 1⟩, 1⟩ = 1 ∧
    farPair.countP (fun n => inRangeOfRegion n ⟨⟨0, 0, 0⟩, ⟨1, 1, 1⟩, 1⟩) = 1 ∧
    farPair.countP (fun n => decide (manhattan ⟨n.X, n.Y, n.Z⟩ ⟨0, 0, 0⟩ ≤ n.R)) = 2 := by
  refine ⟨farPair_box_mem, ?_, by decide, by decide, by decide⟩
  unfold Region.Contains
  decide

/-- C2, amended.  For a point `p` inside a region `r`, when no distance from a
nanobot to a point of the box of `r` exceeds `MaxInt64`, the number of nanobots
whose test `manhattan(centre, p) <= R` succeeds is the number of nanobots that
have `p` in range and is at most the count that `findBestPoint` computes for
`r`, which is the number of nanobots for which `inRangeOfRegion` holds of `r`.
When the radii are 64-bit values, the number of nanobots that have `p` in range
is at most that count, whatever the centres. -/
theorem coverage_le_countInRange (nanobots : List Nanobot) (r : Region) (p : Point)
    (hx : r.Min.X ≤ p.X ∧ p.X ≤ r.Max.X) (hy : r.Min.Y ≤ p.Y ∧ p.Y ≤ r.Max.Y)
    (hz : r.Min.Z ≤ p.Z ∧ p.Z ≤ r.Max.Z) :
    countInRange nanobots r = ((nanobots.countP (fun n => inRangeOfRegion n r) : Nat) : Int) ∧
    ((∀ n ∈ nanobots, NoWrap n r) →
      ((nanobots.countP (fun n => decide (manhattan ⟨n.X, n.Y, n.Z⟩ p ≤ n.R)) : Nat) : Int) ≤
          countInRange nanobots r ∧
        nanobots.countP (fun n => decide (manhattan ⟨n.X, n.Y, n.Z⟩ p ≤ n.R)) =
          coverage nanobots p) ∧
    ((∀ n ∈ nanobots, n.R ≤ 9223372036854775807) →
      (coverage nanobots p : Int) ≤ countInRange nanobots r) := by
  have h2 := countInRange_eq_boundCount nanobots r
  refine ⟨h2, fun hn => ?_, fun hR => ?_⟩
  · have h1 := coverage_le_boundCount nanobots r p hn ⟨hx, hy, hz⟩
    have h3 := testCount_eq_coverage nanobots r p hn ⟨hx, hy, hz⟩
    unfold testCount at h3
    rw [h2, h3]
    exact ⟨by exact_mod_cast h1, rfl⟩
  · have h1 := coverage_le_boundCount_of_radius nanobots r p hR ⟨hx, hy, hz⟩
    rw [h2]
    exact_mod_cast h1

/-- Witness for C2, amended: two nanobots, the box `[0,4]^3` and its point
`(4,4,4)`. -/
theorem coverage_le_countInRange_witness :
    ((((0 : Int) ≤ 4 ∧ (4 : Int) ≤ 4)) ∧
      (∀ n ∈ [(⟨0, 0, 0, 4⟩ : Nanobot), ⟨10, 0, 0, 5⟩],
        NoWrap n ⟨⟨0, 0, 0⟩, ⟨4, 4, 4⟩, 0⟩) ∧
      (∀ n ∈ [(⟨0, 0, 0, 4⟩ : Nanobot), ⟨10, 0, 0, 5⟩], n.R ≤ 9223372036854775807)) ∧
    ((([⟨0, 0, 0, 4⟩, ⟨10, 0, 0, 5⟩] : List Nanobot).countP
        (fun n => decide (manhattan ⟨n.X, n.Y, n.Z⟩ ⟨4, 4, 4⟩ ≤ n.R)) : Nat) : Int) ≤
      countInRange [⟨0, 0, 0, 4⟩, ⟨10, 0, 0, 5⟩] ⟨⟨0, 0, 0⟩, ⟨4, 4, 4⟩, 0⟩ ∧
    (coverage [⟨0, 0, 0, 4⟩, ⟨10, 0, 0, 5⟩] ⟨4, 4, 4⟩ : Int) ≤
      countInRange [⟨0, 0, 0, 4⟩, ⟨10, 0, 0, 5⟩] ⟨⟨0, 0, 0⟩, ⟨4, 4, 4⟩, 0⟩ :=
  ⟨⟨by decide, by decide, by decide⟩,
    ((coverage_le_countInRange [⟨0, 0, 0, 4⟩, ⟨10, 0, 0, 5⟩] ⟨⟨0, 0, 0⟩, ⟨4, 4, 4⟩, 0⟩ ⟨4, 4, 4⟩
      (by decide) (by decide) (by decide)).2.1 (by decide)).1,
    (coverage_le_countInRange [⟨0, 0, 0, 4⟩, ⟨10, 0, 0, 5⟩] ⟨⟨0, 0, 0⟩, ⟨4, 4, 4⟩, 0⟩ ⟨4, 4, 4⟩
      (by decide) (by decide) (by decide)).2.2 (by decide)⟩

/-- C3, counterexample.  For the two nanobots of `farPair`, after 33 passes
`best` is the origin with `Count = 2`, while no point of the initial box is in
range of any nanobot.  For the two nanobots of `farAndNear`, after 34 passes
`best` is the point `(3,0,-3)` with `Count = 1`, while the point `(5,0,-4)` of
the initial box passes the test `manhattan(centre, p) <= R` for both
nanobots. -/
theorem best_count_overflow_counterexample :
    (Reachable farPair (stateAt farPair 33) ∧
      (stateAt farPair 33).best = some ⟨⟨0, 0, 0⟩, ⟨0, 0, 0⟩, 2⟩ ∧
      ∀ p, searchSpace.Contains p → coverage farPair p = 0) ∧
    (Reachable farAndNear (stateAt farAndNear 34) ∧
      (stateAt farAndNear 34).best = some ⟨⟨3, 0, -3⟩, ⟨3, 0, -3⟩, 1⟩ ∧
      searchSpace.Contains ⟨5, 0, -4⟩ ∧
      farAndNear.countP (fun n => decide (manhattan ⟨n.X, n.Y, n.Z⟩ ⟨5, 0, -4⟩ ≤ n.R)) = 2) := by
  refine ⟨⟨farPair_reachable, farPair_run.2.1, farPair_coverage⟩,
    reachable_stateAt _ _ farAndNear_run.1, farAndNear_run.2, ?_, by decide⟩
  unfold Region.Contains
  decide

/-- C3, amended.  When no distance from a nanobot to a point of the initial box
`[-2^31, 2^31-1]^3` exceeds `MaxInt64`: in every state at the head of the loop of
`findBestPoint`, if `best` is set then `best.Count` is the maximum, over the
integer points of the initial box, of the number of nanobots that have the point
in range; some point of the box is covered that often and none is covered more
often; and on the box that number is the number of nanobots whose test
`manhattan(centre, p) <= R` succeeds. -/
theorem best_count_is_maximum (nanobots : List Nanobot) (hB : ∀ n ∈ nanobots, n.InReach)
    (s : State) (hs : Reachable nanobots s) (b : Region) (hb : s.best = some b) :
    (∃ p, searchSpace.Contains p ∧ (coverage nanobots p : Int) = b.Count) ∧
    (∀ p, searchSpace.Contains p → (coverage nanobots p : Int) ≤ b.Count) ∧
    (∀ p, searchSpace.Contains p →
      nanobots.countP (fun n => decide (manhattan ⟨n.X, n.Y, n.Z⟩ p ≤ n.R)) =
        coverage nanobots p) := by
  have hI := Inv_of_reachable nanobots hB s hs
  obtain ⟨_, hin, hc, _⟩ := hI.bestExact b hb
  exact ⟨⟨b.Min, hin, hc.symm⟩, hI.bestMax b hb,
    fun p hp => testCount_eq_coverage nanobots searchSpace p hB hp⟩

/-- Witness for C3, amended: the single nanobot `(0,0,0)` of radius 4; after 33
passes `best` is the origin with `Count = 1`. -/
theorem best_count_is_maximum_witness :
    ((∀ n ∈ [(⟨0, 0, 0, 4⟩ : Nanobot)], n.InReach) ∧
      Reachable [⟨0, 0, 0, 4⟩] (stateAt [⟨0, 0, 0, 4⟩] 33) ∧
      (stateAt [⟨0, 0, 0, 4⟩] 33).best = some ⟨⟨0, 0, 0⟩, ⟨0, 0, 0⟩, 1⟩) ∧
    ((∃ p, searchSpace.Contains p ∧ (coverage [⟨0, 0, 0, 4⟩] p : Int) = 1) ∧
      (∀ p, searchSpace.Contains p → (coverage [⟨0, 0, 0, 4⟩] p : Int) ≤ 1) ∧
      (∀ p, searchSpace.Contains p →
        ([⟨0, 0, 0, 4⟩] : List Nanobot).countP
            (fun n => decide (manhattan ⟨n.X, n.Y, n.Z⟩ p ≤ n.R)) =
          coverage [⟨0, 0, 0, 4⟩] p)) :=
  ⟨⟨singleNanobot_inReach, reachable_stateAt _ _ singleNanobot_run.1, singleNanobot_run.2.1⟩,
    best_count_is_maximum [⟨0, 0, 0, 4⟩] singleNanobot_inReach (stateAt [⟨0, 0, 0, 4⟩] 33)
      (reachable_stateAt _ _ singleNanobot_run.1) ⟨⟨0, 0, 0⟩, ⟨0, 0, 0⟩, 1⟩
      singleNanobot_run.2.1⟩

/-- C4, counterexample.  For the nanobots `(-2,0,0)` of radius 1 and `(-4,-2,1)`
of radius 0, after 35 passes `best` is the point `(-2,0,0)` with `Count = 1`,
at distance 2 from the origin, while the point `(-1,0,0)` of the initial box is
also in range of exactly one nanobot and is at distance 1. -/
theorem best_not_nearest_counterexample :
    Reachable [⟨-2, 0, 0, 1⟩, ⟨-4, -2, 1, 0⟩] (stateAt [⟨-2, 0, 0, 1⟩, ⟨-4, -2, 1, 0⟩] 35) ∧
    (stateAt [⟨-2, 0, 0, 1⟩, ⟨-4, -2, 1, 0⟩] 35).best = some ⟨⟨-2, 0, 0⟩, ⟨-2, 0, 0⟩, 1⟩ ∧
    searchSpace.Contains ⟨-1, 0, 0⟩ ∧
    (coverage [⟨-2, 0, 0, 1⟩, ⟨-4, -2, 1, 0⟩] ⟨-1, 0, 0⟩ : Int) = 1 ∧
    manhattan ⟨-1, 0, 0⟩ origin < manhattan ⟨-2, 0, 0⟩ origin ∧
    (∀ n ∈ [(⟨-2, 0, 0, 1⟩ : Nanobot), ⟨-4, -2, 1, 0⟩], n.InReach) := by
  refine ⟨reachable_stateAt _ _ negativeNanobots_run.1, negativeNanobots_run.2, ?_,
    by decide, by decide, by decide⟩
  unfold Region.Contains
  decide

/-- C4, amended.  When no distance from a nanobot to a point of the initial box
exceeds `MaxInt64`: in every state at the head of the loop of `findBestPoint`, if
`best` is set then `best.Min` is at least as near the origin as every point of
the initial box with non-negative coordinates that is in range of exactly
`best.Count` nanobots; at such a point the number of nanobots in range is the
number of nanobots whose test `manhattan(centre, p) <= R` succeeds, and the
distances to the origin are computed without wrap-around. -/
theorem best_nearest_among_nonneg (nanobots : List Nanobot)
    (hB : ∀ n ∈ nanobots, n.InReach) (s : State)
    (hs : Reachable nanobots s) (b : Region) (hb : s.best = some b) (q : Point)
    (hq : searchSpace.Contains q) (hx : 0 ≤ q.X) (hy : 0 ≤ q.Y) (hz : 0 ≤ q.Z)
    (hc : (coverage nanobots q : Int) = b.Count) :
    manhattan b.Min origin ≤ manhattan q origin ∧
    exactManhattan b.Min origin ≤ exactManhattan q origin ∧
    nanobots.countP (fun n => decide (manhattan ⟨n.X, n.Y, n.Z⟩ q ≤ n.R)) =
      coverage nanobots q := by
  have hI := Inv_of_reachable nanobots hB s hs
  have h1 := hI.bestNear b hb q hq hx hy hz hc
  obtain ⟨_, hin, _, _⟩ := hI.bestExact b hb
  refine ⟨h1, ?_, testCount_eq_coverage nanobots searchSpace q hB hq⟩
  rw [← manhattan_origin_eq b.Min hin, ← manhattan_origin_eq q hq]
  exact h1

/-- Witness for C4, amended: the nanobots `(-2,0,0)` of radius 1, `(-4,-2,1)` of
radius 0 and `(8,0,0)` of radius 0; after 63 passes `best` is the point
`(-2,0,0)` with `Count = 1`, at distance 2, and the point `(8,0,0)`, in range of
one nanobot, is at distance 8. -/
theorem best_nearest_among_nonneg_witness :
    ((∀ n ∈ threeNanobots, n.InReach) ∧
      Reachable threeNanobots (stateAt threeNanobots 63) ∧
      (stateAt threeNanobots 63).best = some ⟨⟨-2, 0, 0⟩, ⟨-2, 0, 0⟩, 1⟩ ∧
      searchSpace.Contains ⟨8, 0, 0⟩ ∧ (0 : Int) ≤ 8 ∧
      (coverage threeNanobots ⟨8, 0, 0⟩ : Int) = 1) ∧
    (manhattan ⟨-2, 0, 0⟩ origin ≤ manhattan ⟨8, 0, 0⟩ origin ∧
      manhattan ⟨-2, 0, 0⟩ origin = 2 ∧ manhattan ⟨8, 0, 0⟩ origin = 8) :=
  ⟨⟨threeNanobots_inReach, reachable_stateAt _ _ threeNanobots_run.1, threeNanobots_run.2,
      by unfold Region.Contains; decide, by decide, by decide⟩,
    (best_nearest_among_nonneg threeNanobots
      threeNanobots_inReach (stateAt threeNanobots 63)
      (reachable_stateAt _ _ threeNanobots_run.1) ⟨⟨-2, 0, 0⟩, ⟨-2, 0, 0⟩, 1⟩
      threeNanobots_run.2 ⟨8, 0, 0⟩
      (by unfold Region.Contains; decide) (by decide) (by decide) (by decide) (by decide)).1,
    by decide, by decide⟩

/-- C5, at the failing input.  For the single nanobot `(0,0,0)` of radius 4 the
loop of `findBestPoint` is still running after every number of passes: neither
the `break` nor an empty queue is reached, and `findBestPoint` returns for no
amount of fuel. -/
theorem findBestPoint_single_never_halts :
    (∀ n, ∃ s, stateAfter [⟨0, 0, 0, 4⟩] n = some s) ∧
      ∀ fuel, findBestPoint [⟨0, 0, 0, 4⟩] fuel = none :=
  ⟨stateAfter_isSome _ singleNanobot_inReach singleNanobot_covered,
    findBestPoint_none _ singleNanobot_inReach singleNanobot_inRange⟩

/-- C6, at the failing input.  For the single nanobot `(0,0,0)` of radius 4,
from the 33rd pass on `best` is the region with `Min = Max = (0,0,0)` and
`Count = 1`, whose distance to the origin is 0, and the loop is still running:
the region is never returned. -/
theorem single_nanobot_best_not_returned (n : Nat) :
    (∃ s, stateAfter [⟨0, 0, 0, 4⟩] (33 + n) = some s ∧
      s.best = some ⟨⟨0, 0, 0⟩, ⟨0, 0, 0⟩, 1⟩) ∧
    manhattan ⟨0, 0, 0⟩ origin = 0 ∧
    findBestPoint [⟨0, 0, 0, 4⟩] n = none := by
  refine ⟨?_, by decide, findBestPoint_none _ singleNanobot_inReach singleNanobot_inRange n⟩
  obtain ⟨t, ht⟩ := stateAfter_isSome [⟨0, 0, 0, 4⟩] singleNanobot_inReach
    singleNanobot_covered (33 + n)
  exact ⟨t, ht, best_stable_stateAfter [⟨0, 0, 0, 4⟩] singleNanobot_inReach _ 33 n _ t
    (stateAfter_eq_stateAt _ 33 singleNanobot_run.1) singleNanobot_run.2.1 ht⟩

/-- C7, counterexample.  For the nanobots `(0,0,0)` of radius 4 and `(10,0,0)`
of radius 5 no point is in range of both, no point of the initial box passes the
test `manhattan(centre, p) <= R` of both, and `findBestPoint` returns a region
with `Count = 2` for no amount of fuel. -/
theorem two_nanobots_count_two_counterexample :
    (∀ p : Point,
      ¬ (exactManhattan ⟨0, 0, 0⟩ p ≤ 4 ∧ exactManhattan ⟨10, 0, 0⟩ p ≤ 5)) ∧
    (∀ p : Point, searchSpace.Contains p →
      ¬ (manhattan ⟨0, 0, 0⟩ p ≤ 4 ∧ manhattan ⟨10, 0, 0⟩ p ≤ 5)) ∧
    ¬ ∃ fuel r, findBestPoint [⟨0, 0, 0, 4⟩, ⟨10, 0, 0, 5⟩] fuel = some (some r) ∧
        r.Count = 2 := by
  have h1 : ∀ p : Point,
      ¬ (exactManhattan ⟨0, 0, 0⟩ p ≤ 4 ∧ exactManhattan ⟨10, 0, 0⟩ p ≤ 5) := by
    intro p
    have h := two_nanobots_disjoint p
    simpa only [inRangeOfPoint, Nanobot.centre, decide_eq_true_eq] using h
  refine ⟨h1, ?_, ?_⟩
  · intro p hp
    have e1 := manhattan_eq_of_noWrap ⟨0, 0, 0, 4⟩ searchSpace p (by decide) hp
    have e2 := manhattan_eq_of_noWrap ⟨10, 0, 0, 5⟩ searchSpace p (by decide) hp
    simp only at e1 e2
    rw [e1, e2]
    exact h1 p
  · rintro ⟨fuel, r, h, hc⟩
    obtain ⟨t, ht, hb⟩ := runLoop_some _ fuel _ _ Reachable.init h
    obtain ⟨_, _, he, _⟩ := (Inv_of_reachable _ twoNanobots_inReach t ht).bestExact r hb
    have := two_nanobots_coverage_le_one r.Min
    omega

/-- C7, amended.  For the nanobots `(0,0,0)` of radius 4 and `(10,0,0)` of
radius 5 every single-point region in the queue of `findBestPoint` carries
`Count = 1`, the exact number of nanobots that have its point in range; no point
is in range of more than one nanobot, and the origin, at distance 0, is in range
of one. -/
theorem two_nanobots_point_count (s : State)
    (hs : Reachable [⟨0, 0, 0, 4⟩, ⟨10, 0, 0, 5⟩] s) (r : Region) (hr : r ∈ s.pq)
    (hp : r.Min = r.Max) :
    (r.Count = 1 ∧ coverage [⟨0, 0, 0, 4⟩, ⟨10, 0, 0, 5⟩] r.Min = 1) ∧
    (∀ p : Point, coverage [⟨0, 0, 0, 4⟩, ⟨10, 0, 0, 5⟩] p ≤ 1) ∧
    coverage [⟨0, 0, 0, 4⟩, ⟨10, 0, 0, 5⟩] origin = 1 ∧ manhattan origin origin = 0 := by
  have hI := Inv0_of_reachable _ s hs
  refine ⟨?_, two_nanobots_coverage_le_one, by decide, by decide⟩
  have h1 := two_nanobots_coverage_le_one r.Min
  have hbox := hI.boxes r hr
  rcases hI.counts r hr with e | ⟨e1, e2⟩
  · rw [e] at hp; exact absurd hp (initialRegion_not_point _)
  · rw [boundCount_of_point _ r hp
      (noWrap_of_box _ twoNanobots_inReach r hbox.1 hbox.2)] at e1
    constructor <;> omega

/-- Witness for C7, amended: after 34 passes the queue holds the single point
`(4,0,0)` with `Count = 1`. -/
theorem two_nanobots_point_count_witness :
    (Reachable [⟨0, 0, 0, 4⟩, ⟨10, 0, 0, 5⟩] (stateAt [⟨0, 0, 0, 4⟩, ⟨10, 0, 0, 5⟩] 34) ∧
      (⟨⟨4, 0, 0⟩, ⟨4, 0, 0⟩, 1⟩ : Region) ∈ (stateAt [⟨0, 0, 0, 4⟩, ⟨10, 0, 0, 5⟩] 34).pq) ∧
    ((1 : Int) = 1 ∧ coverage [⟨0, 0, 0, 4⟩, ⟨10, 0, 0, 5⟩] ⟨4, 0, 0⟩ = 1) :=
  ⟨⟨reachable_stateAt _ _ twoNanobots_run.1, twoNanobots_run.2⟩,
    (two_nanobots_point_count (stateAt [⟨0, 0, 0, 4⟩, ⟨10, 0, 0, 5⟩] 34)
      (reachable_stateAt _ _ twoNanobots_run.1) ⟨⟨4, 0, 0⟩, ⟨4, 0, 0⟩, 1⟩
      twoNanobots_run.2 rfl).1⟩

/-- C8. For the empty list of nanobots `findBestPoint` returns `nil`: the
initial region, with `Count = 0`, is popped, each of the eight subregions has
count 0 and is discarded, the queue is empty after the first pass and the loop
is left with `best` unset. -/
theorem findBestPoint_empty :
    (∀ fuel, findBestPoint [] (fuel + 2) = some none) ∧
    heap.Pop (initState []).pq = some (initialRegion [], []) ∧
    (initialRegion []).Count = 0 ∧
    (∀ c ∈ subregions (initialRegion []), countInRange [] c = 0) ∧
    stateAfter [] 1 = some ⟨[], none⟩ ∧
    loopBody [] ⟨[], none⟩ = none := by
  have h1 : loopBody [] (initState []) = some ⟨[], none⟩ := by decide
  have h2 : loopBody [] ⟨[], none⟩ = none := by decide
  refine ⟨fun fuel => ?_, by decide, by decide, fun c _ => rfl, by decide, h2⟩
  simp only [findBestPoint, runLoop, h1, h2]

/-- C9, counterexample.  For the two nanobots of `farPair` the box
`(0,0,0)-(1,1,1)`, which is in the queue of `findBestPoint` after 33 passes, has
`inRangeOfRegion` true of one nanobot, while its first subregion, the point
`(0,0,0)`, has it true of both; the point is `best` with `Count = 2`. -/
theorem subdivision_overflow_counterexample :
    (⟨⟨0, 0, 0⟩, ⟨1, 1, 1⟩, 1⟩ : Region) ∈ (stateAt farPair 33).pq ∧
    (stateAt farPair 33).best = some ⟨⟨0, 0, 0⟩, ⟨0, 0, 0⟩, 2⟩ ∧
    (subregions ⟨⟨0, 0, 0⟩, ⟨1, 1, 1⟩, 1⟩).head? = some ⟨⟨0, 0, 0⟩, ⟨0, 0, 0⟩, 0⟩ ∧
    boundCount farPair ⟨⟨0, 0, 0⟩, ⟨1, 1, 1⟩, 1⟩ = 1 ∧
    boundCount farPair ⟨⟨0, 0, 0⟩, ⟨0, 0, 0⟩, 0⟩ = 2 ∧
    countInRange farPair ⟨⟨0, 0, 0⟩, ⟨1, 1, 1⟩, 1⟩ = 1 ∧
    countInRange farPair ⟨⟨0, 0, 0⟩, ⟨0, 0, 0⟩, 0⟩ = 2 :=
  ⟨farPair_box_mem, farPair_run.2.1, by decide, by decide, by decide, by decide, by decide⟩

/-- C9, amended.  For a region `r` with `Min <= Max` on each axis such that no
distance from a nanobot to a point of its box exceeds `MaxInt64`, each of the
eight subregions has a count (the number of nanobots for which
`inRangeOfRegion` holds) that is at most the count of `r`, and the number of
nanobots in range of at least one subregion is at most the count of `r`. -/
theorem subdivision_bound_monotone (nanobots : List Nanobot) (r : Region)
    (hx : r.Min.X ≤ r.Max.X) (hy : r.Min.Y ≤ r.Max.Y) (hz : r.Min.Z ≤ r.Max.Z)
    (hn : ∀ n ∈ nanobots, NoWrap n r) :
    (∀ c ∈ subregions r,
      boundCount nanobots c ≤ boundCount nanobots r ∧
        countInRange nanobots c ≤ countInRange nanobots r) ∧
    nanobots.countP (fun n => (subregions r).any (fun c => inRangeOfRegion n c)) ≤
      boundCount nanobots r := by
  have hwf : r.WellFormed := ⟨hx, hy, hz⟩
  constructor
  · intro c hc
    have h := boundCount_mono nanobots c r (subregion_wellFormed r c hwf hc)
      (subregion_subset r c hwf hc) hn
    refine ⟨h, ?_⟩
    rw [countInRange_eq_boundCount, countInRange_eq_boundCount]
    exact_mod_cast h
  · apply List.countP_mono_left
    intro n hm h
    rw [List.any_eq_true] at h
    obtain ⟨c, hc, hcn⟩ := h
    exact inRangeOfRegion_mono n c r (subregion_wellFormed r c hwf hc)
      (subregion_subset r c hwf hc) (hn n hm) hcn

/-- Witness for C9, amended: two nanobots and the box `[0,7]^3`. -/
theorem subdivision_bound_monotone_witness :
    ((0 : Int) ≤ 7 ∧
      ∀ n ∈ [(⟨0, 0, 0, 4⟩ : Nanobot), ⟨10, 0, 0, 5⟩], NoWrap n ⟨⟨0, 0, 0⟩, ⟨7, 7, 7⟩, 2⟩) ∧
    ((∀ c ∈ subregions ⟨⟨0, 0, 0⟩, ⟨7, 7, 7⟩, 2⟩,
      boundCount [⟨0, 0, 0, 4⟩, ⟨10, 0, 0, 5⟩] c ≤
          boundCount [⟨0, 0, 0, 4⟩, ⟨10, 0, 0, 5⟩] ⟨⟨0, 0, 0⟩, ⟨7, 7, 7⟩, 2⟩ ∧
        countInRange [⟨0, 0, 0, 4⟩, ⟨10, 0, 0, 5⟩] c ≤
          countInRange [⟨0, 0, 0, 4⟩, ⟨10, 0, 0, 5⟩] ⟨⟨0, 0, 0⟩, ⟨7, 7, 7⟩, 2⟩) ∧
    ([⟨0, 0, 0, 4⟩, ⟨10, 0, 0, 5⟩] : List Nanobot).countP
        (fun n => (subregions ⟨⟨0, 0, 0⟩, ⟨7, 7, 7⟩, 2⟩).any (fun c => inRangeOfRegion n c)) ≤
      boundCount [⟨0, 0, 0, 4⟩, ⟨10, 0, 0, 5⟩] ⟨⟨0, 0, 0⟩, ⟨7, 7, 7⟩, 2⟩) :=
  ⟨⟨by decide, by decide⟩,
    subdivision_bound_monotone [⟨0, 0, 0, 4⟩, ⟨10, 0, 0, 5⟩] ⟨⟨0, 0, 0⟩, ⟨7, 7, 7⟩, 2⟩
      (by decide) (by decide) (by decide) (by decide)⟩

/-- C10. `PriorityQueue.Less` puts the entry at `i` before the entry at `j`
exactly when its `Count` is greater, or the counts are equal and its `Min`
corner is nearer the origin; this order is irreflexive and transitive, and
incomparability is transitive. -/
theorem Less_strict_weak_order :
    (∀ a b : Region, PriorityQueue.Less [a, b] 0 1 = true ↔
      (a.Count > b.Count ∨
        (a.Count = b.Count ∧ manhattan a.Min origin < manhattan b.Min origin))) ∧
    (∀ (pq : PriorityQueue) (i j : Nat) (hi : i < pq.length) (hj : j < pq.length),
      PriorityQueue.Less pq i j = true ↔
        ((pq.get ⟨i, hi⟩).Count > (pq.get ⟨j, hj⟩).Count ∨
          ((pq.get ⟨i, hi⟩).Count = (pq.get ⟨j, hj⟩).Count ∧
            manhattan (pq.get ⟨i, hi⟩).Min origin < manhattan (pq.get ⟨j, hj⟩).Min origin))) ∧
    (∀ (pq : PriorityQueue) (i : Nat), PriorityQueue.Less pq i i = false) ∧
    (∀ (pq : PriorityQueue) (i j k : Nat), PriorityQueue.Less pq i j = true →
      PriorityQueue.Less pq j k = true → PriorityQueue.Less pq i k = true) ∧
    (∀ (pq : PriorityQueue) (i j k : Nat),
      (PriorityQueue.Less pq i j = false ∧ PriorityQueue.Less pq j i = false) →
      (PriorityQueue.Less pq j k = false ∧ PriorityQueue.Less pq k j = false) →
      (PriorityQueue.Less pq i k = false ∧ PriorityQueue.Less pq k i = false)) := by
  refine ⟨?_, ?_, ?_, ?_, ?_⟩
  · intro a b
    exact lessRegion_true_iff a b
  · intro pq i j hi hj
    unfold PriorityQueue.Less
    rw [List.getD_eq_getElem pq default hi, List.getD_eq_getElem pq default hj]
    exact lessRegion_true_iff _ _
  · intro pq i
    exact lessRegion_irrefl _
  · intro pq i j k h1 h2
    exact lessRegion_trans _ _ _ h1 h2
  · intro pq i j k ⟨h1, h2⟩ ⟨h3, h4⟩
    exact ⟨lessRegion_false_trans _ _ _ h3 h1, lessRegion_false_trans _ _ _ h2 h4⟩

/-- C11. On a non-empty queue built from the empty queue by `heap.Push` and
`heap.Pop`, `heap.Pop` returns a region `r` and a queue `rest` such that no
region of `rest` has a greater `Count` than `r`, nor the same `Count` and a `Min`
corner nearer the origin; `r` together with `rest` is a rearrangement of the
queue, so the entries lose exactly `r`. -/
theorem heap_Pop_highest_priority (pq : PriorityQueue) (hb : Built pq) (hne : pq ≠ []) :
    ∃ r rest, heap.Pop pq = some (r, rest) ∧
      (∀ q ∈ rest, ¬ q.Count > r.Count ∧
        ¬ (q.Count = r.Count ∧ manhattan q.Min origin < manhattan r.Min origin)) ∧
      List.Perm (r :: rest) pq ∧ rest.length + 1 = pq.length := by
  obtain ⟨r, rest, h1, _, h3, _, h5⟩ := heap_Pop_spec pq hne (Built_isHeap pq hb)
  refine ⟨r, rest, h1, ?_, h3, by simpa using h3.length_eq⟩
  intro q hq
  have hq' : q ∈ pq := h3.mem_iff.mp (List.mem_cons_of_mem _ hq)
  have := h5 q hq'
  rw [lessRegion_false_iff] at this
  constructor <;> omega

/-- Witness for C11: the queue built by pushing two regions. -/
theorem heap_Pop_highest_priority_witness :
    (Built (heap.Push (heap.Push [] ⟨⟨0, 0, 0⟩, ⟨1, 1, 1⟩, 1⟩) ⟨⟨4, 0, 0⟩, ⟨5, 0, 0⟩, 2⟩) ∧
      heap.Push (heap.Push [] ⟨⟨0, 0, 0⟩, ⟨1, 1, 1⟩, 1⟩) ⟨⟨4, 0, 0⟩, ⟨5, 0, 0⟩, 2⟩ ≠ []) ∧
    ∃ r rest,
      heap.Pop (heap.Push (heap.Push [] ⟨⟨0, 0, 0⟩, ⟨1, 1, 1⟩, 1⟩) ⟨⟨4, 0, 0⟩, ⟨5, 0, 0⟩, 2⟩) =
        some (r, rest) ∧
      (∀ q ∈ rest, ¬ q.Count > r.Count ∧
        ¬ (q.Count = r.Count ∧ manhattan q.Min origin < manhattan r.Min origin)) ∧
      List.Perm (r :: rest)
        (heap.Push (heap.Push [] ⟨⟨0, 0, 0⟩, ⟨1, 1, 1⟩, 1⟩) ⟨⟨4, 0, 0⟩, ⟨5, 0, 0⟩, 2⟩) ∧
      rest.length + 1 =
        (heap.Push (heap.Push [] ⟨⟨0, 0, 0⟩, ⟨1, 1, 1⟩, 1⟩) ⟨⟨4, 0, 0⟩, ⟨5, 0, 0⟩, 2⟩).length :=
  ⟨⟨Built.push _ (Built.push _ Built.empty), by decide⟩,
    heap_Pop_highest_priority _ (Built.push _ (Built.push _ Built.empty)) (by decide)⟩

/-- C12. Every region in the queue of `findBestPoint` has `Min <= Max` on each
axis: the initial region has, and each of the eight subregions of a region that
has it has it too, the split coordinate lying between `Min` and `Max` on each
axis. -/
theorem queued_regions_wellFormed (nanobots : List Nanobot) (s : State)
    (hs : Reachable nanobots s) (r : Region) (hr : r ∈ s.pq) :
    (r.Min.X ≤ r.Max.X ∧ r.Min.Y ≤ r.Max.Y ∧ r.Min.Z ≤ r.Max.Z) ∧
    ((initialRegion nanobots).Min.X ≤ (initialRegion nanobots).Max.X ∧
      (initialRegion nanobots).Min.Y ≤ (initialRegion nanobots).Max.Y ∧
      (initialRegion nanobots).Min.Z ≤ (initialRegion nanobots).Max.Z) ∧
    (∀ c ∈ subregions r, c.Min.X ≤ c.Max.X ∧ c.Min.Y ≤ c.Max.Y ∧ c.Min.Z ≤ c.Max.Z) ∧
    (r.Min.X ≤ splitCoordinate r.Min.X r.Max.X ∧ splitCoordinate r.Min.X r.Max.X ≤ r.Max.X) ∧
    (r.Min.Y ≤ splitCoordinate r.Min.Y r.Max.Y ∧ splitCoordinate r.Min.Y r.Max.Y ≤ r.Max.Y) ∧
    (r.Min.Z ≤ splitCoordinate r.Min.Z r.Max.Z ∧ splitCoordinate r.Min.Z r.Max.Z ≤ r.Max.Z) := by
  have hwf := ((Inv0_of_reachable nanobots s hs).boxes r hr).1
  exact ⟨hwf, searchSpace_wellFormed, fun c hc => subregion_wellFormed r c hwf hc,
    mid_bounds _ _ hwf.1, mid_bounds _ _ hwf.2.1, mid_bounds _ _ hwf.2.2⟩

/-- Witness for C12: the initial region in the initial queue. -/
theorem queued_regions_wellFormed_witness :
    (Reachable [⟨0, 0, 0, 4⟩] (initState [⟨0, 0, 0, 4⟩]) ∧
      initialRegion [⟨0, 0, 0, 4⟩] ∈ (initState [⟨0, 0, 0, 4⟩]).pq) ∧
    ∀ c ∈ subregions (initialRegion [⟨0, 0, 0, 4⟩]),
      c.Min.X ≤ c.Max.X ∧ c.Min.Y ≤ c.Max.Y ∧ c.Min.Z ≤ c.Max.Z :=
  ⟨⟨Reachable.init, by decide⟩,
    (queued_regions_wellFormed [⟨0, 0, 0, 4⟩] (initState [⟨0, 0, 0, 4⟩]) Reachable.init
      (initialRegion [⟨0, 0, 0, 4⟩]) (by decide)).2.2.1⟩

/-- C13, counterexample.  For the initial region `Min + Max = -1` on each axis;
the split coordinate is 0, while the floor of `-1/2` is `-1`. -/
theorem split_not_floor_counterexample :
    MinInt32 + MaxInt32 = -1 ∧
    splitCoordinate (initialRegion []).Min.X (initialRegion []).Max.X = 0 ∧
    ⌊(((initialRegion []).Min.X + (initialRegion []).Max.X : Int) : ℚ) / 2⌋ = -1 ∧
    (subregions (initialRegion [])).head? =
      some ⟨⟨MinInt32, MinInt32, MinInt32⟩, ⟨0, 0, 0⟩, 0⟩ := by
  refine ⟨by decide, by decide, ?_, by decide⟩
  rw [floor_half]
  decide

/-- C13, amended.  The split coordinate `(Min + Max) / 2` is the quotient
truncated toward zero: it is the floor of the exact quotient when `Min + Max` is
non-negative or even, and the floor plus one when `Min + Max` is negative and
odd. -/
theorem split_truncates (lo hi : Int) :
    ((0 ≤ lo + hi ∨ (lo + hi) % 2 = 0) →
      splitCoordinate lo hi = ⌊((lo + hi : Int) : ℚ) / 2⌋) ∧
    ((lo + hi < 0 ∧ (lo + hi) % 2 = 1) →
      splitCoordinate lo hi = ⌊((lo + hi : Int) : ℚ) / 2⌋ + 1) := by
  have t := tdiv_two_bounds (lo + hi)
  rw [floor_half]
  unfold splitCoordinate
  constructor
  · intro h; omega
  · intro h; omega

/-- Witness for C13, amended: an even sum, and the initial region's sum `-1`. -/
theorem split_truncates_witness :
    (((0 : Int) ≤ 3 + 4 ∨ ((3 : Int) + 4) % 2 = 0) ∧
      splitCoordinate 3 4 = ⌊(((3 : Int) + 4 : Int) : ℚ) / 2⌋) ∧
    ((MinInt32 + MaxInt32 < 0 ∧ (MinInt32 + MaxInt32) % 2 = 1) ∧
      splitCoordinate MinInt32 MaxInt32 = ⌊((MinInt32 + MaxInt32 : Int) : ℚ) / 2⌋ + 1) :=
  ⟨⟨by decide, (split_truncates 3 4).1 (by decide)⟩,
    ⟨by decide, (split_truncates MinInt32 MaxInt32).2 (by decide)⟩⟩

/-- C14, at the failing input.  The region `[0,1]^3` has `Min <= Max` on each
axis and is not a single point, and its eighth subregion has the same `Min` and
`Max`: it is not strictly smaller. -/
theorem subregion_not_smaller :
    ((⟨⟨0, 0, 0⟩, ⟨1, 1, 1⟩, 1⟩ : Region).Min ≠ (⟨⟨0, 0, 0⟩, ⟨1, 1, 1⟩, 1⟩ : Region).Max) ∧
    (subregions ⟨⟨0, 0, 0⟩, ⟨1, 1, 1⟩, 1⟩).getLast? = some ⟨⟨0, 0, 0⟩, ⟨1, 1, 1⟩, 0⟩ ∧
    (⟨⟨0, 0, 0⟩, ⟨1, 1, 1⟩, 1⟩ : Region) ∈ (stateAt [⟨0, 0, 0, 4⟩] 31).pq :=
  ⟨by decide, by decide, singleNanobot_run.2.2⟩

/-- C15, counterexample.  For the two nanobots of `farPair`, after 33 passes
`best` is the single point `(0,0,0)` with `Count = 2`; each nanobot is at
distance `2^63` from that point and has radius 0, so the number of nanobots that
have the point in range is 0, while the test `manhattan(centre, p) <= R`
succeeds for both. -/
theorem best_count_not_exact_counterexample :
    Reachable farPair (stateAt farPair 33) ∧
    (stateAt farPair 33).best = some ⟨⟨0, 0, 0⟩, ⟨0, 0, 0⟩, 2⟩ ∧
    farPair.map (fun n => exactManhattan ⟨n.X, n.Y, n.Z⟩ ⟨0, 0, 0⟩) =
      [9223372036854775808, 9223372036854775808] ∧
    farPair.map (fun n => manhattan ⟨n.X, n.Y, n.Z⟩ ⟨0, 0, 0⟩) =
      [-9223372036854775808, -9223372036854775808] ∧
    farPair.countP (fun n => decide (exactManhattan ⟨n.X, n.Y, n.Z⟩ ⟨0, 0, 0⟩ ≤ n.R)) = 0 ∧
    farPair.countP (fun n => decide (manhattan ⟨n.X, n.Y, n.Z⟩ ⟨0, 0, 0⟩ ≤ n.R)) = 2 :=
  ⟨farPair_reachable, farPair_run.2.1, by decide, by decide, by decide, by decide⟩

/-- C15, amended.  In every state at the head of the loop of `findBestPoint`, if
`best` is set then it is a single point and its `Count` is exactly the number of
nanobots whose test `manhattan(centre, best.Min) <= R`, computed in 64-bit
arithmetic, succeeds; at a region with `Min = Max = p` the test
`inRangeOfRegion` is that test.  When no distance from a nanobot to a point of
the initial box exceeds `MaxInt64`, the `Count` is also the number of nanobots
that have the point in range. -/
theorem best_is_exact_point (nanobots : List Nanobot) (s : State)
    (hs : Reachable nanobots s) (b : Region) (hb : s.best = some b) :
    b.Min = b.Max ∧
    b.Count =
      ((nanobots.countP (fun n => decide (manhattan ⟨n.X, n.Y, n.Z⟩ b.Min ≤ n.R)) : Nat) : Int) ∧
    (∀ (n : Nanobot) (p : Point) (c : Int),
      inRangeOfRegion n ⟨p, p, c⟩ = true ↔ manhattan ⟨n.X, n.Y, n.Z⟩ p ≤ n.R) ∧
    ((∀ n ∈ nanobots, n.InReach) →
      b.Count =
        ((nanobots.countP
          (fun n => decide (exactManhattan ⟨n.X, n.Y, n.Z⟩ b.Min ≤ n.R)) : Nat) : Int)) := by
  obtain ⟨h1, h2, h3, _⟩ := (Inv0_of_reachable nanobots s hs).bestPoint b hb
  have h4 := boundCount_eq_testCount nanobots b h1
  unfold testCount at h4
  refine ⟨h1, by rw [h3, h4], fun n p c => ?_, fun hB => ?_⟩
  · rw [inRangeOfRegion_point, decide_eq_true_eq]
  · obtain ⟨_, _, h5, _⟩ := (Inv_of_reachable nanobots hB s hs).bestExact b hb
    rw [h5]
    rfl

/-- Witness for C15, amended: the run on `farPair` after 33 passes, where the
distances wrap around, and the single nanobot `(0,0,0)` of radius 4 after 33
passes, where they do not. -/
theorem best_is_exact_point_witness :
    ((Reachable farPair (stateAt farPair 33) ∧
        (stateAt farPair 33).best = some ⟨⟨0, 0, 0⟩, ⟨0, 0, 0⟩, 2⟩) ∧
      (⟨⟨0, 0, 0⟩, ⟨0, 0, 0⟩, 2⟩ : Region).Count =
        ((farPair.countP (fun n => decide (manhattan ⟨n.X, n.Y, n.Z⟩
          (⟨⟨0, 0, 0⟩, ⟨0, 0, 0⟩, 2⟩ : Region).Min ≤ n.R)) : Nat) : Int)) ∧
    ((Reachable [⟨0, 0, 0, 4⟩] (stateAt [⟨0, 0, 0, 4⟩] 33) ∧
        (stateAt [⟨0, 0, 0, 4⟩] 33).best = some ⟨⟨0, 0, 0⟩, ⟨0, 0, 0⟩, 1⟩ ∧
        ∀ n ∈ [(⟨0, 0, 0, 4⟩ : Nanobot)], n.InReach) ∧
      (⟨⟨0, 0, 0⟩, ⟨0, 0, 0⟩, 1⟩ : Region).Count =
        ((([⟨0, 0, 0, 4⟩] : List Nanobot).countP
          (fun n => decide (exactManhattan ⟨n.X, n.Y, n.Z⟩
            (⟨⟨0, 0, 0⟩, ⟨0, 0, 0⟩, 1⟩ : Region).Min ≤ n.R)) : Nat) : Int)) :=
  ⟨⟨⟨farPair_reachable, farPair_run.2.1⟩,
      (best_is_exact_point farPair (stateAt farPair 33) farPair_reachable
        ⟨⟨0, 0, 0⟩, ⟨0, 0, 0⟩, 2⟩ farPair_run.2.1).2.1⟩,
    ⟨reachable_stateAt _ _ singleNanobot_run.1, singleNanobot_run.2.1, singleNanobot_inReach⟩,
      (best_is_exact_point [⟨0, 0, 0, 4⟩] (stateAt [⟨0, 0, 0, 4⟩] 33)
        (reachable_stateAt _ _ singleNanobot_run.1) ⟨⟨0, 0, 0⟩, ⟨0, 0, 0⟩, 1⟩
        singleNanobot_run.2.1).2.2.2 singleNanobot_inReach⟩

/-- C16, counterexample.  For the two nanobots of `farPair`, at the 34th pass
`best` is the origin with `Count = 2`, the popped region has `Count = 1` and the
early-termination test succeeds; a box with `Count = 1` that contains the origin
is still in the queue, and at the origin the test `manhattan(centre, p) <= R`
succeeds for two nanobots. -/
theorem early_termination_overflow_counterexample :
    Reachable farPair (stateAt farPair 33) ∧
    (stateAt farPair 33).best = some ⟨⟨0, 0, 0⟩, ⟨0, 0, 0⟩, 2⟩ ∧
    heap.Pop (stateAt farPair 33).pq =
      some ((poppedAt farPair 33).1, (poppedAt farPair 33).2) ∧
    (poppedAt farPair 33).1.Count = 1 ∧
    breakTest (stateAt farPair 33).best (poppedAt farPair 33).1 = true ∧
    (∃ q ∈ (poppedAt farPair 33).2, q.Count = 1 ∧ q.Contains ⟨0, 0, 0⟩) ∧
    farPair.countP (fun n => decide (manhattan ⟨n.X, n.Y, n.Z⟩ ⟨0, 0, 0⟩ ≤ n.R)) = 2 :=
  ⟨farPair_reachable, farPair_run.2.1, farPair_run.2.2.1, farPair_run.2.2.2.1, farPair_break,
    farPair_run.2.2.2.2.1, by decide⟩

/-- C16, amended.  In every run of `findBestPoint` on nanobots with 64-bit
radii, whenever the early-termination test succeeds on the popped region, every
region left in the queue has a `Count` that is at most the popped one and below
`best.Count`; the number of nanobots for which `inRangeOfRegion` holds of such a
region is below `best.Count`, and no point of such a region is within the exact
distance `R` of `best.Count` or more nanobots.  The test succeeds only when some
distance from a nanobot to a point of the initial box exceeds `MaxInt64`. -/
theorem early_termination_bound (nanobots : List Nanobot)
    (hR : ∀ n ∈ nanobots, n.R ≤ 9223372036854775807) (s : State)
    (hs : Reachable nanobots s)
    (r : Region) (rest : PriorityQueue) (hpop : heap.Pop s.pq = some (r, rest))
    (b : Region) (hb : s.best = some b) (ht : breakTest s.best r = true) :
    r.Count < b.Count ∧
    (∀ q ∈ rest, q.Count ≤ r.Count ∧ q.Count < b.Count ∧
      ((nanobots.countP (fun n => inRangeOfRegion n q) : Nat) : Int) < b.Count ∧
      ∀ p, q.Contains p → (coverage nanobots p : Int) < b.Count) ∧
    ¬ (∀ n ∈ nanobots, n.InReach) := by
  have hlt : r.Count < b.Count := by
    rw [hb] at ht
    simpa [breakTest] using ht
  obtain ⟨hh, hc⟩ := reachable_heap_admissible nanobots s hs
  obtain ⟨hperm, _, h5⟩ := pop_facts s.pq hh r rest hpop
  refine ⟨hlt, fun q hq => ?_, fun hB => ?_⟩
  · have hq' : q ∈ s.pq := hperm.mem_iff.mp (List.mem_cons_of_mem _ hq)
    have h6 := lessRegion_false_count _ _ (h5 q hq')
    have h8 := hc q hq'
    unfold boundCount at h8
    refine ⟨h6, by omega, by omega, fun p hp => ?_⟩
    have h7 := coverage_le_boundCount_of_radius nanobots q p hR hp
    unfold boundCount at h7
    omega
  · have hf := breakTest_false nanobots s (Inv_of_reachable nanobots hB s hs) r rest hpop
    rw [hf] at ht
    exact absurd ht (by decide)

/-- Witness for C16, amended: the run on `farPair` at the 34th pass, where the
early-termination test succeeds. -/
theorem early_termination_bound_witness :
    ((∀ n ∈ farPair, n.R ≤ 9223372036854775807) ∧
      Reachable farPair (stateAt farPair 33) ∧
      heap.Pop (stateAt farPair 33).pq =
        some ((poppedAt farPair 33).1, (poppedAt farPair 33).2) ∧
      (stateAt farPair 33).best = some ⟨⟨0, 0, 0⟩, ⟨0, 0, 0⟩, 2⟩ ∧
      breakTest (stateAt farPair 33).best (poppedAt farPair 33).1 = true) ∧
    ((poppedAt farPair 33).1.Count < (⟨⟨0, 0, 0⟩, ⟨0, 0, 0⟩, 2⟩ : Region).Count ∧
      (∀ q ∈ (poppedAt farPair 33).2, q.Count ≤ (poppedAt farPair 33).1.Count ∧
        q.Count < (⟨⟨0, 0, 0⟩, ⟨0, 0, 0⟩, 2⟩ : Region).Count ∧
        ((farPair.countP (fun n => inRangeOfRegion n q) : Nat) : Int) <
          (⟨⟨0, 0, 0⟩, ⟨0, 0, 0⟩, 2⟩ : Region).Count ∧
        ∀ p, q.Contains p →
          (coverage farPair p : Int) < (⟨⟨0, 0, 0⟩, ⟨0, 0, 0⟩, 2⟩ : Region).Count) ∧
      ¬ (∀ n ∈ farPair, n.InReach)) :=
  ⟨⟨farPair_radius, farPair_reachable, farPair_run.2.2.1, farPair_run.2.1, farPair_break⟩,
    early_termination_bound farPair farPair_radius (stateAt farPair 33) farPair_reachable
      (poppedAt farPair 33).1 (poppedAt farPair 33).2 farPair_run.2.2.1
      ⟨⟨0, 0, 0⟩, ⟨0, 0, 0⟩, 2⟩ farPair_run.2.1 farPair_break⟩

/-- C17, counterexample.  The nanobot `(3000000000,0,0)` of radius 1 is not in
range of the initial region: the initial `Count` is 1 while no nanobot is in
range. -/
theorem initial_count_counterexample :
    inRangeOfRegion ⟨3000000000, 0, 0, 1⟩ (initialRegion [⟨3000000000, 0, 0, 1⟩]) = false ∧
    (initialRegion [⟨3000000000, 0, 0, 1⟩]).Count = 1 ∧
    countInRange [⟨3000000000, 0, 0, 1⟩] (initialRegion [⟨3000000000, 0, 0, 1⟩]) = 0 := by
  decide

/-- C17, amended.  If every nanobot has its centre in the initial box and a
non-negative radius, then every nanobot is in range of the initial region and
the initial `Count = len(nanobots)` is the number of nanobots in range of it. -/
theorem initial_count_exact (nanobots : List Nanobot)
    (h : ∀ n ∈ nanobots, searchSpace.Contains ⟨n.X, n.Y, n.Z⟩ ∧ 0 ≤ n.R) :
    (∀ n ∈ nanobots, inRangeOfRegion n (initialRegion nanobots) = true) ∧
    (initialRegion nanobots).Count = countInRange nanobots (initialRegion nanobots) := by
  have h1 : ∀ n ∈ nanobots, inRangeOfRegion n (initialRegion nanobots) = true := by
    intro n hn
    obtain ⟨hin, hr⟩ := h n hn
    have hc : exactManhattan n.centre n.centre = 0 := by
      simp [exactManhattan, exactAbs]
    have hle := closestPoint_le n (initialRegion nanobots) n.centre hin
    have hge := exactManhattan_ge_zero n.centre (closestPoint n (initialRegion nanobots))
    have he := manhattan_eq_exact n.centre (closestPoint n (initialRegion nanobots))
      (by omega)
    rw [inRangeOfRegion_eq, decide_eq_true_eq]
    simp only [Nanobot.centre] at he hle hge hc
    rw [he]
    omega
  refine ⟨h1, ?_⟩
  rw [countInRange_eq_boundCount]
  have : boundCount nanobots (initialRegion nanobots) = nanobots.length := by
    unfold boundCount
    rw [List.countP_eq_length]
    exact h1
  rw [this]
  rfl

/-- Witness for C17, amended: two nanobots inside the initial box. -/
theorem initial_count_exact_witness :
    (∀ n ∈ [(⟨0, 0, 0, 4⟩ : Nanobot), ⟨10, 0, 0, 5⟩],
      searchSpace.Contains ⟨n.X, n.Y, n.Z⟩ ∧ 0 ≤ n.R) ∧
    ((∀ n ∈ [(⟨0, 0, 0, 4⟩ : Nanobot), ⟨10, 0, 0, 5⟩],
      inRangeOfRegion n (initialRegion [⟨0, 0, 0, 4⟩, ⟨10, 0, 0, 5⟩]) = true) ∧
    (initialRegion [⟨0, 0, 0, 4⟩, ⟨10, 0, 0, 5⟩]).Count =
      countInRange [⟨0, 0, 0, 4⟩, ⟨10, 0, 0, 5⟩] (initialRegion [⟨0, 0, 0, 4⟩, ⟨10, 0, 0, 5⟩])) :=
  ⟨by unfold Region.Contains; decide,
    initial_count_exact [⟨0, 0, 0, 4⟩, ⟨10, 0, 0, 5⟩] (by unfold Region.Contains; decide)⟩

/-- C18. For a region whose corners lie in the initial box `[-2^31, 2^31-1]^3`
and a nanobot whose coordinates have magnitude below `2^31` (the radius is only
compared, whatever its value), the sums
`Min + Max` of the midpoint expression and every difference, negation, absolute
value and partial sum computed by `manhattan` inside `inRangeOfRegion` lie in the
signed 64-bit range, and the midpoint, `manhattan` and `inRangeOfRegion` computed
with 64-bit wrap-around are equal to the exact ones. -/
theorem no_overflow_in_range (n : Nanobot) (r : Region)
    (hX : -2147483648 < n.X ∧ n.X < 2147483648) (hY : -2147483648 < n.Y ∧ n.Y < 2147483648)
    (hZ : -2147483648 < n.Z ∧ n.Z < 2147483648)
    (hmin : searchSpace.Contains r.Min) (hmax : searchSpace.Contains r.Max) :
    (InInt64 (r.Min.X + r.Max.X) ∧ InInt64 (r.Min.Y + r.Max.Y) ∧
      InInt64 (r.Min.Z + r.Max.Z)) ∧
    (splitCoordinate64 r.Min.X r.Max.X = splitCoordinate r.Min.X r.Max.X ∧
      splitCoordinate64 r.Min.Y r.Max.Y = splitCoordinate r.Min.Y r.Max.Y ∧
      splitCoordinate64 r.Min.Z r.Max.Z = splitCoordinate r.Min.Z r.Max.Z) ∧
    ((InInt64 (n.X - (closestPoint n r).X) ∧ InInt64 (n.Y - (closestPoint n r).Y) ∧
        InInt64 (n.Z - (closestPoint n r).Z)) ∧
      (InInt64 (-(n.X - (closestPoint n r).X)) ∧ InInt64 (-(n.Y - (closestPoint n r).Y)) ∧
        InInt64 (-(n.Z - (closestPoint n r).Z))) ∧
      (InInt64 (exactAbs (n.X - (closestPoint n r).X)) ∧
        InInt64 (exactAbs (n.Y - (closestPoint n r).Y)) ∧
        InInt64 (exactAbs (n.Z - (closestPoint n r).Z))) ∧
      InInt64 (exactAbs (n.X - (closestPoint n r).X) + exactAbs (n.Y - (closestPoint n r).Y)) ∧
      InInt64 (exactAbs (n.X - (closestPoint n r).X) + exactAbs (n.Y - (closestPoint n r).Y) +
        exactAbs (n.Z - (closestPoint n r).Z)) ∧
      manhattan ⟨n.X, n.Y, n.Z⟩ (closestPoint n r) =
        exactManhattan ⟨n.X, n.Y, n.Z⟩ (closestPoint n r)) ∧
    inRangeOfRegion n r = exactInRangeOfRegion n r ∧
    manhattan r.Min origin = exactManhattan r.Min origin := by
  obtain ⟨⟨a1, a2⟩, ⟨a3, a4⟩, ⟨a5, a6⟩⟩ := hmin
  obtain ⟨⟨b1, b2⟩, ⟨b3, b4⟩, ⟨b5, b6⟩⟩ := hmax
  simp only [searchSpace, initialRegion, MinInt32, MaxInt32] at a1 a2 a3 a4 a5 a6 b1 b2 b3 b4 b5 b6
  have sx : InInt64 (r.Min.X + r.Max.X) := by unfold InInt64; omega
  have sy : InInt64 (r.Min.Y + r.Max.Y) := by unfold InInt64; omega
  have sz : InInt64 (r.Min.Z + r.Max.Z) := by unfold InInt64; omega
  have nX : InInt32 n.X := by unfold InInt32; omega
  have nY : InInt32 n.Y := by unfold InInt32; omega
  have nZ : InInt32 n.Z := by unfold InInt32; omega
  have cX : InInt32 (closestPoint n r).X :=
    clamp_inInt32 _ _ _ nX (by unfold InInt32; omega) (by unfold InInt32; omega)
  have cY : InInt32 (closestPoint n r).Y :=
    clamp_inInt32 _ _ _ nY (by unfold InInt32; omega) (by unfold InInt32; omega)
  have cZ : InInt32 (closestPoint n r).Z :=
    clamp_inInt32 _ _ _ nZ (by unfold InInt32; omega) (by unfold InInt32; omega)
  have hm := manhattan_int32 ⟨n.X, n.Y, n.Z⟩ (closestPoint n r) nX nY nZ cX cY cZ
  have ho := manhattan_int32 r.Min origin (by unfold InInt32; omega) (by unfold InInt32; omega)
    (by unfold InInt32; omega) (by unfold InInt32 origin; simp)
    (by unfold InInt32 origin; simp) (by unfold InInt32 origin; simp)
  refine ⟨⟨sx, sy, sz⟩, ⟨?_, ?_, ?_⟩, hm, ?_, ho.2.2.2.2.2⟩
  · unfold splitCoordinate64 splitCoordinate; rw [wrap64_eq _ sx]
  · unfold splitCoordinate64 splitCoordinate; rw [wrap64_eq _ sy]
  · unfold splitCoordinate64 splitCoordinate; rw [wrap64_eq _ sz]
  · have e := hm.2.2.2.2.2
    rw [inRangeOfRegion_eq, e]
    rfl

/-- Witness for C18: the extreme nanobot `(2^31-1, -(2^31-1), 0)` of radius
`2^31-1` and the initial region. -/
theorem no_overflow_in_range_witness :
    (((-2147483648 : Int) < 2147483647 ∧ (2147483647 : Int) < 2147483648) ∧
      searchSpace.Contains (initialRegion []).Min ∧ searchSpace.Contains (initialRegion []).Max) ∧
    (inRangeOfRegion ⟨2147483647, -2147483647, 0, 2147483647⟩ (initialRegion []) =
        exactInRangeOfRegion ⟨2147483647, -2147483647, 0, 2147483647⟩ (initialRegion []) ∧
      splitCoordinate64 (initialRegion []).Min.X (initialRegion []).Max.X =
        splitCoordinate (initialRegion []).Min.X (initialRegion []).Max.X) :=
  ⟨⟨by decide, by unfold Region.Contains; decide, by unfold Region.Contains; decide⟩,
    ⟨(no_overflow_in_range ⟨2147483647, -2147483647, 0, 2147483647⟩ (initialRegion [])
        (by decide) (by decide) (by decide)
        (by unfold Region.Contains; decide) (by unfold Region.Contains; decide)).2.2.2.1,
      (no_overflow_in_range ⟨2147483647, -2147483647, 0, 2147483647⟩ (initialRegion [])
        (by decide) (by decide) (by decide)
        (by unfold Region.Contains; decide) (by unfold Region.Contains; decide)).2.1.1⟩⟩

/-- C19. For a region with `Min <= Max` on each axis, each of the eight
subregions is contained in it and every point of it lies in some subregion; the
subregions share the split point, so they overlap; and every nanobot in range of
the region is in range of some subregion. -/
theorem subregions_cover (r : Region)
    (hx : r.Min.X ≤ r.Max.X) (hy : r.Min.Y ≤ r.Max.Y) (hz : r.Min.Z ≤ r.Max.Z) :
    (∀ c ∈ subregions r, ∀ p, c.Contains p → r.Contains p) ∧
    (∀ p, r.Contains p → ∃ c ∈ subregions r, c.Contains p) ∧
    (∀ c ∈ subregions r, c.Contains ⟨splitCoordinate r.Min.X r.Max.X,
      splitCoordinate r.Min.Y r.Max.Y, splitCoordinate r.Min.Z r.Max.Z⟩) ∧
    (∀ n : Nanobot, inRangeOfRegion n r = true →
      ∃ c ∈ subregions r, inRangeOfRegion n c = true) := by
  have hwf : r.WellFormed := ⟨hx, hy, hz⟩
  refine ⟨fun c hc p hp => subregion_subset r c hwf hc p hp,
    fun p hp => subregion_cover_any r p hp, ?_,
    fun n hn => inRangeOfRegion_subregion n r hwf hn⟩
  intro c hc
  rw [mem_subregions_iff] at hc
  have mx := mid_bounds _ _ hx
  have my := mid_bounds _ _ hy
  have mz := mid_bounds _ _ hz
  obtain ⟨_, cx, cy, cz⟩ := hc
  unfold splitCoordinate
  refine ⟨⟨?_, ?_⟩, ⟨?_, ?_⟩, ⟨?_, ?_⟩⟩ <;> simp only <;> omega

/-- Witness for C19: the box `[0,7]^3`. -/
theorem subregions_cover_witness :
    ((0 : Int) ≤ 7) ∧
    (∀ p, (⟨⟨0, 0, 0⟩, ⟨7, 7, 7⟩, 2⟩ : Region).Contains p →
      ∃ c ∈ subregions ⟨⟨0, 0, 0⟩, ⟨7, 7, 7⟩, 2⟩, c.Contains p) :=
  ⟨by decide,
    (subregions_cover ⟨⟨0, 0, 0⟩, ⟨7, 7, 7⟩, 2⟩ (by decide) (by decide) (by decide)).2.1⟩

/-- C20, counterexample.  For the two nanobots of `farPair` no nanobot is in
range of the initial region, yet the first pass leaves two octants with
`Count = 1` in the queue, the loop runs on, takes the `break` at the 34th pass
and `findBestPoint` returns the origin with `Count = 2`, not `nil`. -/
theorem loop_exit_overflow_counterexample :
    (∀ n ∈ farPair, inRangeOfRegion n (initialRegion farPair) = false) ∧
    stateAfter farPair 1 =
      some ⟨[⟨⟨0, 0, 0⟩, ⟨MaxInt32, MaxInt32, MaxInt32⟩, 1⟩,
        ⟨⟨MinInt32, MinInt32, MinInt32⟩, ⟨0, 0, 0⟩, 1⟩], none⟩ ∧
    stateAfter farPair 1 ≠ some ⟨[], none⟩ ∧
    breakTest (stateAt farPair 33).best (poppedAt farPair 33).1 = true ∧
    loopBody farPair (stateAt farPair 33) = none ∧
    ∀ k, findBestPoint farPair (34 + k) = some (some ⟨⟨0, 0, 0⟩, ⟨0, 0, 0⟩, 2⟩) := by
  refine ⟨farPair_first.1, farPair_first.2, ?_, farPair_break, farPair_run.2.2.2.2.2,
    farPair_returns⟩
  rw [farPair_first.2]
  simp

/-- C20, amended.  When no distance from a nanobot to a point of the initial box
exceeds `MaxInt64`: if no nanobot is in range of the initial region,
`findBestPoint` returns `nil` after one pass; if some nanobot is in range of it,
the loop never exits: after every number of passes it is still running, the
queue is never empty and the `break` test fails on every popped region.  A
region with extent at most 1 on every axis is one of its own eight subregions;
when it is popped and is not a single point it is pushed again as it is; and
whenever `best` is set the queue holds such a region with a `Count` of at least
`best.Count`. -/
theorem loop_exit_dichotomy (nanobots : List Nanobot) (hB : ∀ n ∈ nanobots, n.InReach) :
    ((∀ n ∈ nanobots, inRangeOfRegion n (initialRegion nanobots) = false) →
      stateAfter nanobots 1 = some ⟨[], none⟩ ∧
        ∀ fuel, findBestPoint nanobots (fuel + 2) = some none) ∧
    ((∃ n ∈ nanobots, inRangeOfRegion n (initialRegion nanobots) = true) →
      (∀ k, ∃ s, stateAfter nanobots k = some s) ∧
      (∀ fuel, findBestPoint nanobots fuel = none) ∧
      (∀ s, Reachable nanobots s → s.pq ≠ [] ∧
        ∀ r rest, heap.Pop s.pq = some (r, rest) → breakTest s.best r = false)) ∧
    (∀ r : Region, r.WellFormed → r.Small → (⟨r.Min, r.Max, 0⟩ : Region) ∈ subregions r) ∧
    (∀ s s' r rest, Reachable nanobots s → heap.Pop s.pq = some (r, rest) →
      r.Min ≠ r.Max → r.Small → loopBody nanobots s = some s' → r ∈ s'.pq) ∧
    (∀ s b, Reachable nanobots s → s.best = some b →
      ∃ P ∈ s.pq, P.Min ≠ P.Max ∧ P.Small ∧ b.Count ≤ P.Count) := by
  refine ⟨?_, ?_, fun r hr hs => self_mem_subregions r hr hs, ?_, ?_⟩
  · intro h
    have h1 := loopBody_init_of_none_inRange nanobots hB h
    have h2 : loopBody nanobots ⟨[], none⟩ = none := by
      simp [loopBody, heap_Pop_nil]
    refine ⟨?_, fun fuel => ?_⟩
    · simp only [stateAfter, Option.some_bind, h1]
    · simp only [findBestPoint, runLoop, h1, h2]
  · intro h
    have hq := covered_point_of_inRange nanobots hB h
    refine ⟨stateAfter_isSome nanobots hB hq, findBestPoint_none nanobots hB h, fun s hs => ?_⟩
    have hI := Inv_of_reachable nanobots hB s hs
    obtain ⟨q, hq1, hq2⟩ := hq
    obtain ⟨Q, hQ, _⟩ := hI.frontier q hq1 hq2
    exact ⟨List.ne_nil_of_mem hQ, fun r rest hpop => breakTest_false nanobots s hI r rest hpop⟩
  · intro s s' r rest hs hpop hnp hsm hb
    have hI := Inv0_of_reachable nanobots s hs
    obtain ⟨hperm, _, _⟩ := pop_facts s.pq hI.heap r rest hpop
    have hr : r ∈ s.pq := hperm.mem_iff.mp (List.mem_cons_self _ _)
    obtain ⟨r', rest', hpop', _, ⟨hpt, _⟩ | ⟨_, e⟩⟩ := loopBody_some nanobots s s' hb
    · rw [hpop] at hpop'
      simp only [Option.some.injEq, Prod.mk.injEq] at hpop'
      rw [← hpop'.1] at hpt
      exact absurd hpt hnp
    · rw [hpop] at hpop'
      simp only [Option.some.injEq, Prod.mk.injEq] at hpop'
      rw [e, ← hpop'.1, ← hpop'.2]
      exact small_region_repushed nanobots s hI r hr hsm rest
  · intro s b hs hb
    obtain ⟨P, hP, h1, h2, _, h4⟩ := (SmallInv_of_reachable nanobots hB s hs).best b hb
    exact ⟨P, hP, h2, h1, h4⟩

/-- Witness for C20, amended: the nanobot `(3000000000,0,0)` of radius 1, which
is not in range of the initial region, and the single nanobot `(0,0,0)` of
radius 4, which is. -/
theorem loop_exit_dichotomy_witness :
    (((∀ n ∈ [(⟨3000000000, 0, 0, 1⟩ : Nanobot)], n.InReach) ∧
        ∀ n ∈ [(⟨3000000000, 0, 0, 1⟩ : Nanobot)],
          inRangeOfRegion n (initialRegion [⟨3000000000, 0, 0, 1⟩]) = false) ∧
      stateAfter [⟨3000000000, 0, 0, 1⟩] 1 = some ⟨[], none⟩) ∧
    (((∀ n ∈ [(⟨0, 0, 0, 4⟩ : Nanobot)], n.InReach) ∧
        ∃ n ∈ [(⟨0, 0, 0, 4⟩ : Nanobot)],
          inRangeOfRegion n (initialRegion [⟨0, 0, 0, 4⟩]) = true) ∧
      ∀ fuel, findBestPoint [⟨0, 0, 0, 4⟩] fuel = none) :=
  ⟨⟨⟨by decide, by decide⟩,
      ((loop_exit_dichotomy [⟨3000000000, 0, 0, 1⟩] (by decide)).1 (by decide)).1⟩,
    ⟨⟨singleNanobot_inReach, singleNanobot_inRange⟩,
      ((loop_exit_dichotomy [⟨0, 0, 0, 4⟩] singleNanobot_inReach).2.1
        singleNanobot_inRange).2.1⟩⟩

end Day23
